import Mathlib

/-!
# MindShake::Delegate, a multicast callback container

A shallow embedding of `src/src/Delegate.h` (the specialisation
`Delegate<void(Args...)>`), followed by theorems about it.

Conventions of the embedding

* Pointers (function pointers, object pointers, method pointers) and the
  identities of closures are natural numbers; `0` is `nullptr`.
* `size_t` is 64 bits wide; where the source relies on unsigned arithmetic the
  reduction modulo `2 ^ 64` is written out.
* `ptrdiff_t` is `Int`.
* `static size_t wrapperCounter` is the field `wrapperCounter` of `World`; it is
  shared by everything that creates a `Wrapper`.
* A vector access or erase outside the bounds of the vector is undefined
  behaviour in the source; the embedding returns `none` there.
* The user functions stored in the delegate are not part of the source. Their
  behaviour is a parameter `env`: for each target and argument it gives a
  `Prog`, the tree of calls the target makes on the delegate while it runs.
* `World.trace` is a ghost log, never read by the embedded code: the dispatch
  loop appends one `Event.dispatch` for each wrapper it calls and
  `RemoveIndex` appends one `Event.remove` for each slot it removes.
* Two delegates of the same call signature share the static counter: `World2`
  holds the counter and the data members of both, and a program on them is a
  list of steps (`Act`).
* The operations on `std::atomic_bool mIsRunning` are sequentially consistent,
  so two threads in `operator()` are an interleaving of their atomic steps
  (`Pc.step`, `Threads.run`).
-/

namespace MindShake

/-! ## Data model -/

/-- The number of values of `size_t`. -/
def SIZE_MOD : Nat := 2 ^ 64

/-- The value `size_t(-1)`, returned by `Add` when it rejects its argument. -/
def invalidId : Nat := SIZE_MOD - 1

/-- The enumeration `Wrapper::Type`. -/
inductive WrapperType where
  | Unknown
  | Function
  | Method
  | Lambda
  | StdFunction
  deriving DecidableEq, Repr

/-- A user function that a wrapper can call. -/
inductive Callee where
  | func (f : Nat)
  | method (object : Nat) (method : Nat)
  | lambda (l : Nat)
  | stdFunction (g : Nat)
  deriving DecidableEq, Repr

/-- The struct `Wrapper` together with the one data member that the derived
structs `WrapperLambda` (`lambda`) and `WrapperStdFunction` (`function`) add.
The dynamic type of the object is the field `type`, as set by the constructors.
The anonymous union of `method` and `func` is one storage cell, the field
`func`; `Wrapper.method` reads the same cell. -/
structure Wrapper where
  object : Nat
  func : Nat
  id : Nat
  type : WrapperType
  isEnabled : Bool
  lambda : Nat
  function : Nat
  deriving DecidableEq, Repr

/-- The union member `method`: the same storage as `func`. -/
def Wrapper.method (w : Wrapper) : Nat := w.func

/-- The method `Wrapper::ToBeRemoved`: `object = nullptr, func = {}, isEnabled = false`. -/
def Wrapper.ToBeRemoved (w : Wrapper) : Wrapper :=
  { w with object := 0, func := 0, isEnabled := false }

/-- The virtual `operator()` of a wrapper: the user function it calls, if any.
One case for each struct: `Wrapper`, `WrapperCFunc`, `WrapperMethod`,
`WrapperLambda`, `WrapperStdFunction`. -/
def Wrapper.operatorCall (w : Wrapper) : Option Callee :=
  match w.type with
  | .Unknown =>
      if w.object ≠ 0 then some (.method w.object w.method)
      else if w.func ≠ 0 then some (.func w.func)
      else none
  | .Function => if w.func ≠ 0 then some (.func w.func) else none
  | .Method => if w.object ≠ 0 then some (.method w.object w.method) else none
  | .Lambda => if w.isEnabled then some (.lambda w.lambda) else none
  | .StdFunction => if w.isEnabled then some (.stdFunction w.function) else none

/-- The constructor `WrapperCFunc(f)`, with `id = wrapperCounter`. -/
def WrapperCFunc (counter f : Nat) : Wrapper :=
  { object := 0, func := f, id := counter, type := .Function, isEnabled := true,
    lambda := 0, function := 0 }

/-- The constructor `WrapperMethod()` followed by the two assignments of
`Add(Class *, method)`. -/
def WrapperMethod (counter object method : Nat) : Wrapper :=
  { object := object, func := method, id := counter, type := .Method, isEnabled := true,
    lambda := 0, function := 0 }

/-- The constructor `WrapperLambda(l)`. -/
def WrapperLambda (counter l : Nat) : Wrapper :=
  { object := 0, func := 0, id := counter, type := .Lambda, isEnabled := true,
    lambda := l, function := 0 }

/-- The constructor `WrapperStdFunction(func)`. -/
def WrapperStdFunction (counter g : Nat) : Wrapper :=
  { object := 0, func := 0, id := counter, type := .StdFunction, isEnabled := true,
    lambda := 0, function := g }

/-- The data members of `Delegate<void(Args...)>`. -/
structure Delegate where
  mWrappers : List Wrapper
  mToRemove : List Nat
  mIsRunning : Bool
  deriving DecidableEq, Repr

/-- Ghost events. `dispatch idx id target args`: the loop of `operator()` called
the wrapper at index `idx`, whose id is `id`, with `args`, and the wrapper
called `target` (`none`: it called nothing). `remove idx id`: `RemoveIndex`
removed the slot at index `idx`, whose id is `id` (at once or deferred). -/
inductive Event (Args : Type) where
  | dispatch (idx : Nat) (id : Nat) (target : Option Callee) (args : Args)
  | remove (idx : Nat) (id : Nat)
  deriving DecidableEq, Repr

/-- The state of the program: the static counter, one delegate, the ghost log. -/
structure World (Args : Type) where
  wrapperCounter : Nat
  d : Delegate
  trace : List (Event Args)
  deriving DecidableEq, Repr

/-- A newly constructed delegate, at some value of the static counter. -/
def World.fresh (Args : Type) (counter : Nat) : World Args :=
  { wrapperCounter := counter,
    d := { mWrappers := [], mToRemove := [], mIsRunning := false },
    trace := [] }

/-! ## Add -/

/-- Appends a newly constructed wrapper: `mWrappers.emplace_back(wrapper)`, after
the post-increment `wrapperCounter++` of the member initialiser of `id`. -/
def World.emplace {Args : Type} (w : World Args) (x : Wrapper) : World Args :=
  { w with
    wrapperCounter := (w.wrapperCounter + 1) % SIZE_MOD,
    d := { w.d with mWrappers := w.d.mWrappers ++ [x] } }

/-- The overload `Add(std::nullptr_t)`. -/
def AddNullptr {Args : Type} (w : World Args) : Nat × World Args :=
  (invalidId, w)

/-- The overload `Add(TFunc func)`. -/
def AddFunc {Args : Type} (func : Nat) (w : World Args) : Nat × World Args :=
  if func ≠ 0 then
    let wrapper := WrapperCFunc w.wrapperCounter func
    (wrapper.id, w.emplace wrapper)
  else
    (invalidId, w)

/-- The overload `Add(Class *object, method)`; the other object and method
overloads forward to it. -/
def AddMethod {Args : Type} (object method : Nat) (w : World Args) : Nat × World Args :=
  if object = 0 ∨ method = 0 then
    (invalidId, w)
  else
    let wrapper := WrapperMethod w.wrapperCounter object method
    (wrapper.id, w.emplace wrapper)

/-- The overload `Add(const Lambda &lambda)`. -/
def AddLambda {Args : Type} (l : Nat) (w : World Args) : Nat × World Args :=
  let wrapper := WrapperLambda w.wrapperCounter l
  (wrapper.id, w.emplace wrapper)

/-- The overload `Add(const std::function<void(Args...)> &func)`. -/
def AddStdFunction {Args : Type} (g : Nat) (w : World Args) : Nat × World Args :=
  let wrapper := WrapperStdFunction w.wrapperCounter g
  (wrapper.id, w.emplace wrapper)

/-! ## Find -/

/-- The loop shared by the two `Find` functions: the index of the first wrapper
that satisfies `p`, counted from `i`, or `-1`. -/
def findLoop (p : Wrapper → Bool) : List Wrapper → Int → Int
  | [], _ => -1
  | x :: xs, i => if p x then i else findLoop p xs (i + 1)

/-- The function `Find(const TFunc func)`. -/
def FindFunc {Args : Type} (func : Nat) (w : World Args) : Int :=
  findLoop (fun x => x.func == func) w.d.mWrappers 0

/-- The function `Find(Class *object, method)`. -/
def FindMethod {Args : Type} (object method : Nat) (w : World Args) : Int :=
  findLoop (fun x => x.object == object && x.method == method) w.d.mWrappers 0

/-! ## Remove -/

/-- The function `RemoveIndex(ptrdiff_t idx)`. -/
def RemoveIndex {Args : Type} (idx : Int) (w : World Args) : Option (Bool × World Args) :=
  if 0 ≤ idx then
    match w.d.mWrappers[idx.toNat]? with
    | none => none
    | some x =>
      if w.d.mIsRunning = false then
        some (true,
          { w with
            d := { w.d with mWrappers := w.d.mWrappers.eraseIdx idx.toNat },
            trace := w.trace ++ [Event.remove idx.toNat x.id] })
      else
        some (true,
          { w with
            d := { w.d with
              mWrappers := w.d.mWrappers.set idx.toNat x.ToBeRemoved,
              mToRemove := w.d.mToRemove ++ [idx.toNat] },
            trace := w.trace ++ [Event.remove idx.toNat x.id] })
  else
    some (false, w)

/-- The overload `Remove(std::nullptr_t)`. -/
def RemoveNullptr {Args : Type} (w : World Args) : Option (Bool × World Args) :=
  some (false, w)

/-- The overload `Remove(TFunc func)`. -/
def RemoveFunc {Args : Type} (func : Nat) (w : World Args) : Option (Bool × World Args) :=
  RemoveIndex (FindFunc func w) w

/-- The overload `Remove(Class *object, method)`; the other object and method
overloads forward to the same `Find`. -/
def RemoveMethod {Args : Type} (object method : Nat) (w : World Args) :
    Option (Bool × World Args) :=
  RemoveIndex (FindMethod object method w) w

/-- The function `RemoveById(size_t id)`. -/
def RemoveById {Args : Type} (id : Nat) (w : World Args) : Option (Bool × World Args) :=
  let i := findLoop (fun x => x.id == id) w.d.mWrappers 0
  if 0 ≤ i then RemoveIndex i w else some (false, w)

/-- The loop of `RemoveLazyDeleted`, over the indices from last to first: each
one erases the element at that index. -/
def eraseLoop : List Nat → List Wrapper → Option (List Wrapper)
  | [], ws => some ws
  | i :: is, ws => if i < ws.length then eraseLoop is (ws.eraseIdx i) else none

/-- The function `RemoveLazyDeleted`: sort `mToRemove`, erase from the highest
index to the lowest, clear `mToRemove`. -/
def RemoveLazyDeleted {Args : Type} (w : World Args) : Option (World Args) :=
  let sorted := w.d.mToRemove.insertionSort (· ≤ ·)
  match eraseLoop sorted.reverse w.d.mWrappers with
  | none => none
  | some ws => some { w with d := { w.d with mWrappers := ws, mToRemove := [] } }

/-! ## Other -/

/-- The function `GetNumDelegates`: `mWrappers.size() - mToRemove.size()` in `size_t`. -/
def GetNumDelegates {Args : Type} (w : World Args) : Nat :=
  (w.d.mWrappers.length % SIZE_MOD + (SIZE_MOD - w.d.mToRemove.length % SIZE_MOD)) % SIZE_MOD

/-- The function `Clear`. -/
def Clear {Args : Type} (w : World Args) : World Args :=
  { w with d := { w.d with mWrappers := [], mToRemove := [] } }

/-! ## The user functions and `operator()` -/

/-- A call on the public interface of the delegate. -/
inductive Op (Args : Type) where
  | addNullptr
  | addFunc (func : Nat)
  | addMethod (object method : Nat)
  | addLambda (l : Nat)
  | addStdFunction (g : Nat)
  | removeNullptr
  | removeFunc (func : Nat)
  | removeMethod (object method : Nat)
  | removeById (id : Nat)
  | invoke (args : Args)
  | getNumDelegates
  | clear

/-- What a call on the public interface returns. -/
inductive Ret where
  | id (n : Nat)
  | found (b : Bool)
  | count (n : Nat)
  | unit
  deriving DecidableEq, Repr

/-- The behaviour of a caller of the delegate (a user function stored in it, or
the code that owns it): return, throw, or make a call and go on according to
what the call returned. -/
inductive Prog (Args : Type) where
  | ret : Prog Args
  | throw : Prog Args
  | op (o : Op Args) (k : Ret → Prog Args) : Prog Args

/-- How a caller ends. -/
inductive Outcome where
  | returned
  | threw
  deriving DecidableEq, Repr

/-- The behaviour of every user function. -/
abbrev Env (Args : Type) := Callee → Args → Prog Args

/-- What calling `c` does: an empty `std::function` throws
`std::bad_function_call`, everything else is the user function itself. -/
def Callee.body {Args : Type} (env : Env Args) (c : Callee) (a : Args) : Prog Args :=
  match c with
  | .stdFunction 0 => Prog.throw
  | c => env c a

/-- One call on the public interface; `call` is `operator()`. -/
def Op.exec {Args : Type} (call : Args → World Args → Option (World Args)) :
    Op Args → World Args → Option (Ret × World Args)
  | .addNullptr, w => some (.id (AddNullptr w).1, (AddNullptr w).2)
  | .addFunc f, w => some (.id (AddFunc f w).1, (AddFunc f w).2)
  | .addMethod o m, w => some (.id (AddMethod o m w).1, (AddMethod o m w).2)
  | .addLambda l, w => some (.id (AddLambda l w).1, (AddLambda l w).2)
  | .addStdFunction g, w => some (.id (AddStdFunction g w).1, (AddStdFunction g w).2)
  | .removeNullptr, w => (RemoveNullptr w).map (fun r => (.found r.1, r.2))
  | .removeFunc f, w => (RemoveFunc f w).map (fun r => (.found r.1, r.2))
  | .removeMethod o m, w => (RemoveMethod o m w).map (fun r => (.found r.1, r.2))
  | .removeById id, w => (RemoveById id w).map (fun r => (.found r.1, r.2))
  | .invoke a, w => (call a w).map (fun w1 => (.unit, w1))
  | .getNumDelegates, w => some (.count (GetNumDelegates w), w)
  | .clear, w => some (.unit, Clear w)

/-- Runs a caller to its end. -/
def runProg {Args : Type} (call : Args → World Args → Option (World Args)) :
    Prog Args → World Args → Option (Outcome × World Args)
  | .ret, w => some (.returned, w)
  | .throw, w => some (.threw, w)
  | .op o k, w =>
    match o.exec call w with
    | none => none
    | some (r, w1) => runProg call (k r) w1

/-- The `for` loop of `operator()`: `todo` iterations are left, the next index is
`i`. Both `catch` clauses only print, so the outcome of the user function is
dropped and the loop goes on. -/
def passLoop {Args : Type} (call : Args → World Args → Option (World Args)) (env : Env Args)
    (a : Args) : Nat → Nat → World Args → Option (World Args)
  | 0, _, w => some w
  | todo + 1, i, w =>
    match w.d.mWrappers[i]? with
    | none => none
    | some x =>
      let w1 := { w with trace := w.trace ++ [Event.dispatch i x.id x.operatorCall a] }
      match x.operatorCall with
      | none => passLoop call env a todo (i + 1) w1
      | some c =>
        match runProg call (c.body env a) w1 with
        | none => none
        | some (_, w2) => passLoop call env a todo (i + 1) w2

/-- The function `operator()(const Args&...)`; `operator()(Args&&...)` has the same
body. `fuel` bounds the depth of nested calls that enter the body: a call made
by a user function runs with one unit less. -/
def operatorCall {Args : Type} (env : Env Args) : Nat → Args → World Args → Option (World Args)
  | 0, _, w => if w.d.mIsRunning = false then none else some w
  | fuel + 1, a, w =>
    if w.d.mIsRunning = false then
      let w1 := { w with d := { w.d with mIsRunning := true } }
      match passLoop (operatorCall env fuel) env a w1.d.mWrappers.length 0 w1 with
      | none => none
      | some w2 =>
        match RemoveLazyDeleted w2 with
        | none => none
        | some w3 => some { w3 with d := { w3.d with mIsRunning := false } }
    else
      some w

/-! ## Vocabulary of the statements -/

/-- A wrapper as a successful `Add` builds it, not removed since. -/
def Wrapper.Live (x : Wrapper) : Prop :=
  x.isEnabled = true ∧
  match x.type with
  | .Unknown => False
  | .Function => x.object = 0 ∧ x.func ≠ 0
  | .Method => x.object ≠ 0 ∧ x.func ≠ 0
  | .Lambda => x.object = 0 ∧ x.func = 0
  | .StdFunction => x.object = 0 ∧ x.func = 0

/-- The user function a wrapper was registered for. -/
def Wrapper.target (x : Wrapper) : Callee :=
  match x.type with
  | .Unknown => .func x.func
  | .Function => .func x.func
  | .Method => .method x.object x.method
  | .Lambda => .lambda x.lambda
  | .StdFunction => .stdFunction x.function

/-- A version of `operator()` that returns at once when the delegate is running. -/
def NoReentry {Args : Type} (call : Args → World Args → Option (World Args)) : Prop :=
  ∀ a w, w.d.mIsRunning = true → call a w = some w

/-- The deferred branch of `RemoveIndex` at index `i`, which holds `x`. -/
def World.deferRemove {Args : Type} (i : Nat) (x : Wrapper) (w : World Args) : World Args :=
  { w with
    d := { w.d with
      mWrappers := w.d.mWrappers.set i x.ToBeRemoved,
      mToRemove := w.d.mToRemove ++ [i] },
    trace := w.trace ++ [Event.remove i x.id] }

/-- The immediate branch of `RemoveIndex` at index `i`, which holds `x`. -/
def World.eraseNow {Args : Type} (i : Nat) (x : Wrapper) (w : World Args) : World Args :=
  { w with
    d := { w.d with mWrappers := w.d.mWrappers.eraseIdx i },
    trace := w.trace ++ [Event.remove i x.id] }

/-- A wrapper after `ToBeRemoved`. -/
def Wrapper.Dead (x : Wrapper) : Prop :=
  x.isEnabled = false ∧ x.object = 0 ∧ x.func = 0

/-- Whether a ghost event is a removal. -/
def Event.isRemove {Args : Type} : Event Args → Bool
  | .remove _ _ => true
  | .dispatch _ _ _ _ => false

/-- The indices of the removals logged in `T`, in order. -/
def removedIdx {Args : Type} (T : List (Event Args)) : List Nat :=
  T.filterMap (fun e => match e with
    | .remove k _ => some k
    | .dispatch _ _ _ _ => none)

/-- The calls that ask for a removal: `Remove`, `RemoveById`, `Clear`. -/
def Op.isRemoval {Args : Type} : Op Args → Bool
  | .removeNullptr => true
  | .removeFunc _ => true
  | .removeMethod _ _ => true
  | .removeById _ => true
  | .clear => true
  | _ => false

/-- Whether the call is `Clear`. -/
def Op.isClear {Args : Type} : Op Args → Bool
  | .clear => true
  | _ => false

/-- Every call that the caller can make, whatever the calls return, satisfies `P`. -/
def Prog.All {Args : Type} (P : Op Args → Prop) : Prog Args → Prop
  | .ret => True
  | .throw => True
  | .op o k => P o ∧ ∀ r, (k r).All P

/-- The caller never calls `Clear`. -/
def Prog.NoClear {Args : Type} (p : Prog Args) : Prop :=
  p.All (fun o => o.isClear = false)

/-- The caller never calls `Remove`, `RemoveById` or `Clear`. -/
def Prog.NoRemoval {Args : Type} (p : Prog Args) : Prop :=
  p.All (fun o => o.isRemoval = false)

/-- An idle delegate as the interface leaves it: nothing pending, every slot
as `Add` built it. -/
def IdleOk {Args : Type} (w : World Args) : Prop :=
  w.d.mIsRunning = false ∧ w.d.mToRemove = [] ∧ ∀ x ∈ w.d.mWrappers, x.Live

/-- The state `w` in the middle of the pass that started in state `w0`, where
`T` is what the pass has logged so far: the delegate is running, the pending
list is the list of the removals logged, a slot that was there at the start
is unchanged or, if its removal was asked for, cleared by `ToBeRemoved`,
and the same holds of the slots added since. -/
structure MidPass {Args : Type} (w0 w : World Args) (T : List (Event Args)) : Prop where
  running : w.d.mIsRunning = true
  trace_eq : w.trace = w0.trace ++ T
  pending_eq : w.d.mToRemove = removedIdx T
  pending_lt : ∀ j ∈ w.d.mToRemove, j < w.d.mWrappers.length
  old : ∀ (j : Nat) (x0 : Wrapper), w0.d.mWrappers[j]? = some x0 →
    w.d.mWrappers[j]? = some (if j ∈ w.d.mToRemove then x0.ToBeRemoved else x0)
  added : ∀ (j : Nat) (x : Wrapper), w0.d.mWrappers.length ≤ j → w.d.mWrappers[j]? = some x →
    if j ∈ w.d.mToRemove then x.Dead else x.Live

/-- The log of a pass over the slots `ws0` with argument `a`, up to the turn of
slot `i`: the slots have their turn one by one in the order of the list, each
once; between two turns any removals are logged; and the slot whose turn it
is calls its target exactly when no removal of its index was logged before. -/
inductive PassLog {Args : Type} (ws0 : List Wrapper) (a : Args) :
    List (Event Args) → Nat → Prop where
  | start : PassLog ws0 a [] 0
  | turn {T : List (Event Args)} {i : Nat} {x0 : Wrapper} :
      PassLog ws0 a T i → ws0[i]? = some x0 →
      PassLog ws0 a
        (T ++ [Event.dispatch i x0.id (if i ∈ removedIdx T then none else some x0.target) a])
        (i + 1)
  | removal {T : List (Event Args)} {i : Nat} (k id : Nat) :
      PassLog ws0 a T i → PassLog ws0 a (T ++ [Event.remove k id]) i

/-- The log of a pass in which every slot of `ws`, the first at index `i`, calls
its target. -/
def dispatchFrom {Args : Type} (a : Args) : Nat → List Wrapper → List (Event Args)
  | _, [] => []
  | i, x :: xs => Event.dispatch i x.id (some x.target) a :: dispatchFrom a (i + 1) xs

/-- The calls that add a slot: the overloads of `Add`. -/
def Op.isAdd {Args : Type} : Op Args → Bool
  | .addNullptr => true
  | .addFunc _ => true
  | .addMethod _ _ => true
  | .addLambda _ => true
  | .addStdFunction _ => true
  | _ => false

/-- The caller calls neither `Add` nor `Remove`, `RemoveById` or `Clear`. -/
def Prog.Inert {Args : Type} (p : Prog Args) : Prop :=
  p.All (fun o => o.isAdd = false ∧ o.isRemoval = false)

/-- The first statement of the body of `operator()`: the flag is set. -/
def World.enter {Args : Type} (w : World Args) : World Args :=
  { w with d := { w.d with mIsRunning := true } }

/-- The last statement of the body of `operator()`: the flag is cleared. -/
def World.leave {Args : Type} (w : World Args) : World Args :=
  { w with d := { w.d with mIsRunning := false } }

/-- A call of `Add` with a target. -/
inductive AddCall where
  | func (f : Nat)
  | method (object method : Nat)
  | lambda (l : Nat)
  | stdFunction (g : Nat)
  deriving DecidableEq, Repr

/-- The arguments that `Add` accepts: no null function, object or method. -/
def AddCall.ok : AddCall → Prop
  | .func f => f ≠ 0
  | .method o m => o ≠ 0 ∧ m ≠ 0
  | .lambda _ => True
  | .stdFunction _ => True

/-- The target that the call registers. -/
def AddCall.callee : AddCall → Callee
  | .func f => .func f
  | .method o m => .method o m
  | .lambda l => .lambda l
  | .stdFunction g => .stdFunction g

/-- Makes the call. -/
def AddCall.run {Args : Type} : AddCall → World Args → Nat × World Args
  | .func f, w => AddFunc f w
  | .method o m, w => AddMethod o m w
  | .lambda l, w => AddLambda l w
  | .stdFunction g, w => AddStdFunction g w

/-- Makes the calls one after the other. -/
def addAll {Args : Type} : List AddCall → World Args → World Args
  | [], w => w
  | c :: cs, w => addAll cs (c.run w).2

/-- The caller without its calls of `operator()`: each one is skipped and the
caller goes on as after its return. -/
def Prog.dropInvoke {Args : Type} : Prog Args → Prog Args
  | .ret => .ret
  | .throw => .throw
  | .op o k =>
    match o with
    | .invoke _ => (k .unit).dropInvoke
    | _ => .op o (fun r => (k r).dropInvoke)

/-- The effect of a deferred removal of the slot `x` at index `k`: the list keeps
its length and every other slot, the slot at `k` is `x` with its object and
function cleared and its flag off, `k` is appended to the pending list, and
the running flag and the counter are as they were. -/
def Deferred {Args : Type} (w w1 : World Args) (k : Nat) (x : Wrapper) : Prop :=
  w.d.mWrappers[k]? = some x ∧
  w1.d.mWrappers.length = w.d.mWrappers.length ∧
  (∀ j : Nat, j ≠ k → w1.d.mWrappers[j]? = w.d.mWrappers[j]?) ∧
  w1.d.mWrappers[k]? = some { x with object := 0, func := 0, isEnabled := false } ∧
  w1.d.mToRemove = w.d.mToRemove ++ [k] ∧
  w1.d.mIsRunning = true ∧
  w1.wrapperCounter = w.wrapperCounter

/-- Every slot of `w` is still at its index in `w1`, with its id. -/
def Stays {Args : Type} (w w1 : World Args) : Prop :=
  ∀ (j : Nat) (x : Wrapper), w.d.mWrappers[j]? = some x →
    ∃ y : Wrapper, w1.d.mWrappers[j]? = some y ∧ y.id = x.id

/-- The states the program can be in, and more: a newly constructed delegate;
the state after a call on the interface made in such a state, by the owner of
the delegate or by a user function in the middle of a pass; the state in
which a pass starts its loop; the state after the loop has logged a turn. -/
inductive Reachable {Args : Type} (env : Env Args) : World Args → Prop where
  | fresh (counter : Nat) : Reachable env (World.fresh Args counter)
  | call {w w1 : World Args} (o : Op Args) (r : Ret) (fuel : Nat) :
      Reachable env w → o.exec (operatorCall env fuel) w = some (r, w1) → Reachable env w1
  | enter {w : World Args} : Reachable env w → w.d.mIsRunning = false → Reachable env w.enter
  | turn {w : World Args} (e : Event Args) :
      Reachable env w → Reachable env { w with trace := w.trace ++ [e] }

/-- User functions that each ask for the removal of the slot with id 0. -/
def selfRemover : Env Nat :=
  fun _ _ => Prog.op (Op.removeById 0) (fun _ => Prog.ret)

/-- The state after a pass, with argument 7, on a delegate whose only slot is a
closure with id 0 that removes itself. -/
def afterSelfRemoval : World Nat :=
  { wrapperCounter := 1,
    d := { mWrappers := [], mToRemove := [], mIsRunning := false },
    trace := [Event.dispatch 0 0 (some (Callee.lambda 1)) 7, Event.remove 0 0] }

/-- The indices of the slots whose turn is logged in `T`, in order. -/
def turns {Args : Type} (T : List (Event Args)) : List Nat :=
  T.filterMap (fun e => match e with
    | .dispatch i _ _ _ => some i
    | .remove _ _ => none)

/-- User functions of which the closure 1 adds the function 99 and the others
do nothing. -/
def adder : Env Nat :=
  fun c _ =>
    match c with
    | .lambda 1 => Prog.op (Op.addFunc 99) (fun _ => Prog.ret)
    | _ => Prog.ret

/-- A delegate whose only slot is the closure 1, with id 0. -/
def oneClosure : World Nat :=
  (AddLambda 1 (World.fresh Nat 0)).2

/-- User functions of which the closure 1 calls `RemoveById(1)` twice and the
others do nothing. -/
def doubleRemover : Env Nat :=
  fun c _ =>
    match c with
    | .lambda 1 =>
      Prog.op (Op.removeById 1) (fun _ => Prog.op (Op.removeById 1) (fun _ => Prog.ret))
    | _ => Prog.ret

/-- User functions of which the closure 1 calls `RemoveById(0)` twice and the
others do nothing. -/
def doubleSelfRemover : Env Nat :=
  fun c _ =>
    match c with
    | .lambda 1 =>
      Prog.op (Op.removeById 0) (fun _ => Prog.op (Op.removeById 0) (fun _ => Prog.ret))
    | _ => Prog.ret

/-- A delegate with three slots: the closure 1 (id 0), the function 10 (id 1),
the function 11 (id 2). -/
def threeSlots : World Nat :=
  addAll [AddCall.lambda 1, AddCall.func 10, AddCall.func 11] (World.fresh Nat 0)

/-- The number of slots whose flag `isEnabled` is on. -/
def enabledCount {Args : Type} (w : World Args) : Nat :=
  (w.d.mWrappers.filter (fun x => x.isEnabled)).length

/-- The number of times that the log `T` has the user function `c` called. -/
def calls {Args : Type} (c : Callee) (T : List (Event Args)) : Nat :=
  T.countP (fun e => match e with
    | .dispatch _ _ (some c1) _ => c1 == c
    | _ => false)

/-- The pending list and the slots agree: every pending index is within the
list, a slot at a pending index is cleared, and every other slot is as `Add`
built it. -/
def Sound {Args : Type} (w : World Args) : Prop :=
  (∀ j ∈ w.d.mToRemove, j < w.d.mWrappers.length) ∧
  ∀ (j : Nat) (x : Wrapper), w.d.mWrappers[j]? = some x →
    if j ∈ w.d.mToRemove then x.Dead else x.Live

/-- A delegate with four slots: the function 10 and the object and method pairs
(3, 4), (3, 5) and (6, 4). -/
def fourSlots : World Nat :=
  addAll [AddCall.func 10, AddCall.method 3 4, AddCall.method 3 5, AddCall.method 6 4]
    (World.fresh Nat 0)

/-- The caller that returns wherever the given one throws. -/
def Prog.catchAll {Args : Type} : Prog Args → Prog Args
  | .ret => .ret
  | .throw => .ret
  | .op o k => .op o (fun r => (k r).catchAll)

/-- User functions that all throw at once. -/
def throwers : Env Nat :=
  fun _ _ => Prog.throw

/-- Successive calls of `operator()`, one for each argument of the list. -/
def invokeAll {Args : Type} (env : Env Args) (fuel : Nat) :
    List Args → World Args → Option (World Args)
  | [], w => some w
  | a :: as, w =>
    match operatorCall env (fuel + 1) a w with
    | none => none
    | some w1 => invokeAll env fuel as w1

/-- The log of successive passes over the slots `ws`, one for each argument of the
list, in each of which every slot calls its target. -/
def logAll {Args : Type} (ws : List Wrapper) : List Args → List (Event Args)
  | [] => []
  | a :: as => dispatchFrom a 0 ws ++ logAll ws as

/-! ### Two delegates of the same call signature -/

/-- One of two delegates of the same call signature. -/
inductive Which where
  | first
  | second
  deriving DecidableEq, Repr

/-- Two delegates of the same call signature: the static counter, which they
share, the data members of each, and one ghost log for both. -/
structure World2 (Args : Type) where
  wrapperCounter : Nat
  first : Delegate
  second : Delegate
  trace : List (Event Args)

/-- Two newly constructed delegates, at some value of the static counter. -/
def World2.fresh (Args : Type) (counter : Nat) : World2 Args :=
  { wrapperCounter := counter,
    first := { mWrappers := [], mToRemove := [], mIsRunning := false },
    second := { mWrappers := [], mToRemove := [], mIsRunning := false },
    trace := [] }

/-- The state as one of the two delegates sees it. -/
def World2.view {Args : Type} (s : World2 Args) : Which → World Args
  | .first => { wrapperCounter := s.wrapperCounter, d := s.first, trace := s.trace }
  | .second => { wrapperCounter := s.wrapperCounter, d := s.second, trace := s.trace }

/-- The state after one of the two delegates has run and left `w`. -/
def World2.put {Args : Type} (s : World2 Args) : Which → World Args → World2 Args
  | .first, w =>
    { wrapperCounter := w.wrapperCounter, first := w.d, second := s.second, trace := w.trace }
  | .second, w =>
    { wrapperCounter := w.wrapperCounter, first := s.first, second := w.d, trace := w.trace }

/-- The function `operator()` as one step: on a running delegate it returns at
once; on an idle delegate it is not one step but a pass. -/
def skipIfRunning {Args : Type} : Args → World Args → Option (World Args) :=
  fun _ w => if w.d.mIsRunning = true then some w else none

/-- The steps of a program that uses the two delegates. A call on the interface
of one of them, made by its owner or by a user function of either delegate in
the middle of a pass. The start of a pass of `operator()` on an idle delegate:
the flag is set. The loop of a pass logging a turn. The end of a pass: the
sweep, and the flag is cleared. A pass is `enter`, then for each slot `turn` and
the calls that its user function makes, then `finish`. -/
inductive Act (Args : Type) where
  | call (i : Which) (o : Op Args)
  | enter (i : Which)
  | turn (e : Event Args)
  | finish (i : Which)

/-- Makes one step. -/
def Act.exec {Args : Type} : Act Args → World2 Args → Option (Ret × World2 Args)
  | .call i o, s =>
    match o.exec skipIfRunning (s.view i) with
    | none => none
    | some (r, w) => some (r, s.put i w)
  | .enter i, s =>
    if (s.view i).d.mIsRunning = false then some (Ret.unit, s.put i (s.view i).enter) else none
  | .turn e, s => some (Ret.unit, { s with trace := s.trace ++ [e] })
  | .finish i, s =>
    if (s.view i).d.mIsRunning = true then
      match RemoveLazyDeleted (s.view i) with
      | none => none
      | some w => some (Ret.unit, s.put i w.leave)
    else none

/-- Makes the steps one after the other. -/
def run2 {Args : Type} : List (Act Args) → World2 Args → Option (World2 Args)
  | [], s => some s
  | a :: as, s =>
    match a.exec s with
    | none => none
    | some (_, s1) => run2 as s1

/-- The calls of `Add` that create a slot: those with no null argument. -/
def Op.creates {Args : Type} : Op Args → Bool
  | .addFunc f => f != 0
  | .addMethod o m => o != 0 && m != 0
  | .addLambda _ => true
  | .addStdFunction _ => true
  | _ => false

/-- The number of steps of the list that create a slot. -/
def created {Args : Type} : List (Act Args) → Nat
  | [] => 0
  | .call _ o :: as => (if o.creates then 1 else 0) + created as
  | _ :: as => created as

/-- The values that the calls of `Add` on the delegate `i` return in the course
of the steps, in order. -/
def addReturns {Args : Type} (i : Which) : List (Act Args) → World2 Args → List Nat
  | [], _ => []
  | a :: as, s =>
    match a.exec s with
    | none => []
    | some (r, s1) =>
      (match a, r with
        | .call j o, .id n => if j = i ∧ o.isAdd = true then [n] else []
        | _, _ => []) ++ addReturns i as s1

/-- The ids of the slots that the two delegates hold. -/
def World2.ids {Args : Type} (s : World2 Args) : List Nat :=
  (s.first.mWrappers ++ s.second.mWrappers).map Wrapper.id

/-- The steps `Add(func)` then `Clear` on the second delegate, `n` times over. -/
def churn (Args : Type) : Nat → List (Act Args)
  | 0 => []
  | n + 1 => Act.call Which.second (Op.addFunc 1) :: Act.call Which.second Op.clear :: churn Args n

/-- A program on two delegates: `Add` on the first, `Add` on the second, `Remove`
of the first slot, `Add` of a closure on the first, a pass on the first in
which a user function adds to the second. -/
def mixedRun : List (Act Nat) :=
  [Act.call Which.first (Op.addFunc 1), Act.call Which.second (Op.addFunc 1),
   Act.call Which.first (Op.removeFunc 1), Act.call Which.first (Op.addLambda 2),
   Act.enter Which.first, Act.turn (Event.dispatch 0 2 (some (Callee.lambda 2)) 7),
   Act.call Which.second (Op.addMethod 3 4), Act.finish Which.first]

/-- A program that takes the counter from `0` to `2 ^ 64 - 2`, then calls `Add` on
the first delegate, on the second and on the first again. -/
def idsAcrossWrap : List (Act Nat) :=
  churn Nat (SIZE_MOD - 2) ++
    [Act.call Which.first (Op.addFunc 1), Act.call Which.second (Op.addFunc 1),
     Act.call Which.first (Op.addFunc 2)]

/-- A program that calls `Add` on the first delegate, takes the counter once
around, and calls `Add` on the delegate `i`. -/
def sameIdTwice (i : Which) : List (Act Nat) :=
  Act.call Which.first (Op.addFunc 1) ::
    (churn Nat (SIZE_MOD - 1) ++ [Act.call i (Op.addFunc 2)])

/-- The list of the specification of the sweep: `ws`, whose first element has
index `i`, without the elements whose index is in `P`; the others keep their
order. -/
def withoutIndices (P : List Nat) : Nat → List Wrapper → List Wrapper
  | _, [] => []
  | i, x :: xs => if i ∈ P then withoutIndices P (i + 1) xs else x :: withoutIndices P (i + 1) xs

/-- A delegate in the middle of a pass with four slots, of which those at the
indices 2 and 0 are pending, in this order. -/
def twoPending : World Nat :=
  { wrapperCounter := 4,
    d := { mWrappers := [(WrapperCFunc 0 10).ToBeRemoved, WrapperCFunc 1 11,
                         (WrapperLambda 2 1).ToBeRemoved, WrapperMethod 3 5 6],
           mToRemove := [2, 0], mIsRunning := true },
    trace := [] }

/-- A program that calls `Add` on the first delegate and then takes the counter
once around: the counter is again the id of the slot that the first delegate
holds. -/
def onceAround : List (Act Nat) :=
  Act.call Which.first (Op.addFunc 1) :: churn Nat (SIZE_MOD - 1)

/-! ### Two threads that call `operator()` of the same delegate -/

/-- Where a thread is in its call of `operator()`. `call`: about to execute
`mIsRunning.exchange(true)`. `entered`: the exchange returned `false`, about to
read `mWrappers.size()`. `loop`: at the test `i < size` of the `for` loop.
`body`: inside the user function that the wrapper at index `i` called, of which
`p` is left to run. `sweep`: about to call `RemoveLazyDeleted`. `clear`: about
to execute `mIsRunning = false`. `returned`: the call has returned; `ran` tells
whether it made the pass. -/
inductive Pc (Args : Type) where
  | call (a : Args)
  | entered (a : Args)
  | loop (a : Args) (size i : Nat)
  | body (a : Args) (size i : Nat) (p : Prog Args)
  | sweep
  | clear
  | returned (ran : Bool)

/-- Whether the thread is inside the `if` of `operator()`: between its exchange,
which returned `false`, and its store of `false`. -/
def Pc.inPass {Args : Type} : Pc Args → Bool
  | .call _ => false
  | .entered _ => true
  | .loop _ _ _ => true
  | .body _ _ _ _ => true
  | .sweep => true
  | .clear => true
  | .returned _ => false

/-- One atomic step of a thread in `operator()`. The exchange sets the flag and
the thread goes on according to the old value. Each call that a user function
makes on the interface is one step; a call of `operator()` by a user function
is the whole nested call. -/
def Pc.step {Args : Type} (env : Env Args) (fuel : Nat) :
    Pc Args → World Args → Option (Pc Args × World Args)
  | .call a, w =>
    some (if w.d.mIsRunning = false then .entered a else .returned false, w.enter)
  | .entered a, w => some (.loop a w.d.mWrappers.length 0, w)
  | .loop a size i, w =>
    if i < size then
      match w.d.mWrappers[i]? with
      | none => none
      | some x =>
        let w1 := { w with trace := w.trace ++ [Event.dispatch i x.id x.operatorCall a] }
        match x.operatorCall with
        | none => some (.loop a size (i + 1), w1)
        | some c => some (.body a size i (c.body env a), w1)
    else
      some (.sweep, w)
  | .body a size i .ret, w => some (.loop a size (i + 1), w)
  | .body a size i .throw, w => some (.loop a size (i + 1), w)
  | .body a size i (.op o k), w =>
    match o.exec (operatorCall env fuel) w with
    | none => none
    | some (r, w1) => some (.body a size i (k r), w1)
  | .sweep, w =>
    match RemoveLazyDeleted w with
    | none => none
    | some w3 => some (.clear, w3)
  | .clear, w => some (.returned true, w.leave)
  | .returned _, _ => none

/-- The thread makes `n` steps with no other thread in between. -/
def Pc.run {Args : Type} (env : Env Args) (fuel : Nat) :
    Nat → Pc Args → World Args → Option (Pc Args × World Args)
  | 0, pc, w => some (pc, w)
  | n + 1, pc, w =>
    match pc.step env fuel w with
    | none => none
    | some (pc1, w1) => Pc.run env fuel n pc1 w1

/-- Two threads, each in a call of `operator()` of the same delegate. -/
structure Threads (Args : Type) where
  first : Pc Args
  second : Pc Args
  w : World Args

/-- Both threads are about to call `operator()`, with the arguments `a` and `b`. -/
def Threads.start {Args : Type} (a b : Args) (w : World Args) : Threads Args :=
  { first := Pc.call a, second := Pc.call b, w := w }

/-- The thread `t` makes one step. -/
def Threads.step {Args : Type} (env : Env Args) (fuel : Nat) :
    Which → Threads Args → Option (Threads Args)
  | .first, c =>
    match c.first.step env fuel c.w with
    | none => none
    | some (pc, w) => some { c with first := pc, w := w }
  | .second, c =>
    match c.second.step env fuel c.w with
    | none => none
    | some (pc, w) => some { c with second := pc, w := w }

/-- The threads make their steps in the order of the schedule. -/
def Threads.run {Args : Type} (env : Env Args) (fuel : Nat) :
    List Which → Threads Args → Option (Threads Args)
  | [], c => some c
  | t :: ts, c =>
    match Threads.step env fuel t c with
    | none => none
    | some c1 => Threads.run env fuel ts c1

/-- User functions that all return at once. -/
def idlers : Env Nat :=
  fun _ _ => Prog.ret

/-- The two threads are not both in their pass, and the flag is set while one of
them is. -/
def Threads.Exclusive {Args : Type} (c : Threads Args) : Prop :=
  (c.first.inPass = true → c.second.inPass = false) ∧
  ((c.first.inPass = true ∨ c.second.inPass = true) → c.w.d.mIsRunning = true)

/-- A call that asks for the removal of one slot: `Remove(nullptr)`,
`Remove(func)`, `Remove(object, method)`, `RemoveById(id)`. -/
inductive RemoveCall where
  | nullptr
  | func (f : Nat)
  | method (object method : Nat)
  | byId (id : Nat)
  deriving DecidableEq, Repr

/-- The call on the interface. -/
def RemoveCall.op {Args : Type} : RemoveCall → Op Args
  | .nullptr => Op.removeNullptr
  | .func f => Op.removeFunc f
  | .method o m => Op.removeMethod o m
  | .byId id => Op.removeById id

/-- The slots that the call looks for: `Remove(nullptr)` none, `Remove(func)`
those with this function in the cell, `Remove(object, method)` those with this
object and this method, `RemoveById(id)` those with this id. -/
def RemoveCall.hits : RemoveCall → Wrapper → Bool
  | .nullptr, _ => false
  | .func f, x => x.func == f
  | .method o m, x => x.object == o && x.method == m
  | .byId id, x => x.id == id

/-- User functions of which the closure 1 calls `RemoveById(2)`, the function 10
calls `RemoveById(0)`, and the others do nothing. -/
def crossRemover : Env Nat :=
  fun c _ =>
    match c with
    | .lambda 1 => Prog.op (Op.removeById 2) (fun _ => Prog.ret)
    | .func 10 => Prog.op (Op.removeById 0) (fun _ => Prog.ret)
    | _ => Prog.ret

/-- User functions of which the closure 1 calls `Add` of the function 99 and then
`RemoveById(0)` twice, and the others do nothing. -/
def addThenRemoveTwice : Env Nat :=
  fun c _ =>
    match c with
    | .lambda 1 =>
      Prog.op (Op.addFunc 99) (fun _ =>
        Prog.op (Op.removeById 0) (fun _ => Prog.op (Op.removeById 0) (fun _ => Prog.ret)))
    | _ => Prog.ret

/-- A program that calls `Add` of the closure 1 on the first delegate and then
takes the counter once around. -/
def closureOnceAround : List (Act Nat) :=
  Act.call Which.first (Op.addLambda 1) :: churn Nat (SIZE_MOD - 1)



/-! ## Lemmas -/

/-! ### Wrappers, `Find` and `RemoveIndex` -/

theorem Wrapper.operatorCall_of_live {x : Wrapper} (h : x.Live) :
    x.operatorCall = some x.target := by
  obtain ⟨he, ht⟩ := h
  unfold Wrapper.operatorCall Wrapper.target
  cases hty : x.type <;> simp_all

theorem Wrapper.operatorCall_toBeRemoved (x : Wrapper) :
    x.ToBeRemoved.operatorCall = none := by
  unfold Wrapper.operatorCall Wrapper.ToBeRemoved
  cases hty : x.type <;> simp

theorem operatorCall_of_running {Args : Type} (env : Env Args) (fuel : Nat) (a : Args)
    (w : World Args) (h : w.d.mIsRunning = true) : operatorCall env fuel a w = some w := by
  cases fuel <;> simp [operatorCall, h]

theorem noReentry_operatorCall {Args : Type} (env : Env Args) (fuel : Nat) :
    NoReentry (operatorCall env fuel) :=
  fun a w h => operatorCall_of_running env fuel a w h

theorem findLoop_spec (p : Wrapper → Bool) (ws : List Wrapper) (i : Int) :
    (findLoop p ws i = -1 ∧ ∀ x ∈ ws, p x = false) ∨
    ∃ (k : Nat) (x : Wrapper), ws[k]? = some x ∧ p x = true ∧ findLoop p ws i = i + k ∧
      ∀ (j : Nat) (y : Wrapper), j < k → ws[j]? = some y → p y = false := by
  induction ws generalizing i with
  | nil => left; simp [findLoop]
  | cons x xs ih =>
    by_cases hp : p x = true
    · right
      refine ⟨0, x, by simp, hp, by simp [findLoop, hp], ?_⟩
      intro j y hj; omega
    · have hp' : p x = false := by simpa using hp
      rcases ih (i + 1) with ⟨h1, h2⟩ | ⟨k, y, hk, hy, hf, hlt⟩
      · left
        refine ⟨by simp [findLoop, hp', h1], ?_⟩
        intro z hz
        rcases List.mem_cons.mp hz with rfl | hz
        · exact hp'
        · exact h2 z hz
      · right
        refine ⟨k + 1, y, by simpa using hk, hy, ?_, ?_⟩
        · simp [findLoop, hp', hf]; omega
        · intro j z hj hz
          cases j with
          | zero => simp at hz; subst hz; exact hp'
          | succ j => exact hlt j z (by omega) (by simpa using hz)

theorem RemoveIndex_neg {Args : Type} (w : World Args) :
    RemoveIndex (-1) w = some (false, w) := by
  simp [RemoveIndex]

theorem RemoveIndex_running {Args : Type} {w : World Args} {i : Nat} {x : Wrapper}
    (hr : w.d.mIsRunning = true) (hx : w.d.mWrappers[i]? = some x) :
    RemoveIndex ((0 : Int) + i) w = some (true, w.deferRemove i x) := by
  simp [RemoveIndex, hx, hr, World.deferRemove]

theorem RemoveIndex_idle {Args : Type} {w : World Args} {i : Nat} {x : Wrapper}
    (hr : w.d.mIsRunning = false) (hx : w.d.mWrappers[i]? = some x) :
    RemoveIndex ((0 : Int) + i) w = some (true, w.eraseNow i x) := by
  simp [RemoveIndex, hx, hr, World.eraseNow]

/-- What `RemoveIndex (findLoop p ..)` does. -/
theorem RemoveIndex_findLoop {Args : Type} (p : Wrapper → Bool) (w : World Args) :
    (RemoveIndex (findLoop p w.d.mWrappers 0) w = some (false, w) ∧
      findLoop p w.d.mWrappers 0 = -1 ∧ ∀ x ∈ w.d.mWrappers, p x = false) ∨
    ∃ (k : Nat) (x : Wrapper), w.d.mWrappers[k]? = some x ∧ p x = true ∧
      (∀ (j : Nat) (y : Wrapper), j < k → w.d.mWrappers[j]? = some y → p y = false) ∧
      findLoop p w.d.mWrappers 0 = (0 : Int) + k ∧
      RemoveIndex (findLoop p w.d.mWrappers 0) w =
        some (true, if w.d.mIsRunning = true then w.deferRemove k x else w.eraseNow k x) := by
  rcases findLoop_spec p w.d.mWrappers 0 with ⟨h1, h2⟩ | ⟨k, x, hk, hp, hf, hlt⟩
  · left; exact ⟨by rw [h1]; exact RemoveIndex_neg w, h1, h2⟩
  · right
    refine ⟨k, x, hk, hp, hlt, hf, ?_⟩
    rw [hf]
    by_cases hr : w.d.mIsRunning = true
    · simp only [hr, if_true]; exact RemoveIndex_running hr hk
    · have hr' : w.d.mIsRunning = false := by simpa using hr
      simp only [hr', Bool.false_eq_true, if_false]; exact RemoveIndex_idle hr' hk

theorem RemoveById_eq {Args : Type} (id : Nat) (w : World Args) :
    RemoveById id w = RemoveIndex (findLoop (fun x => x.id == id) w.d.mWrappers 0) w := by
  unfold RemoveById
  simp only
  split
  · rfl
  · rename_i h
    simp [RemoveIndex, h]

theorem WrapperCFunc_live (c f : Nat) (h : f ≠ 0) : (WrapperCFunc c f).Live := by
  simp [Wrapper.Live, WrapperCFunc, h]

theorem WrapperMethod_live (c o m : Nat) (ho : o ≠ 0) (hm : m ≠ 0) :
    (WrapperMethod c o m).Live := by
  simp [Wrapper.Live, WrapperMethod, ho, hm]

theorem WrapperLambda_live (c l : Nat) : (WrapperLambda c l).Live := by
  simp [Wrapper.Live, WrapperLambda]

theorem WrapperStdFunction_live (c g : Nat) : (WrapperStdFunction c g).Live := by
  simp [Wrapper.Live, WrapperStdFunction]

/-! ### Calls on the interface -/

/-- Every call on the interface does one of five things to the state. -/
theorem Op.exec_cases {Args : Type} {call : Args → World Args → Option (World Args)}
    {o : Op Args} {w w1 : World Args} {r : Ret} (h : o.exec call w = some (r, w1)) :
    w1 = w ∨
    (∃ x : Wrapper, x.Live ∧ x.id = w.wrapperCounter ∧ r = .id x.id ∧ o.isAdd = true ∧
      w1 = w.emplace x) ∨
    (∃ (k : Nat) (x : Wrapper), w.d.mWrappers[k]? = some x ∧ r = .found true ∧
      o.isRemoval = true ∧
      w1 = if w.d.mIsRunning = true then w.deferRemove k x else w.eraseNow k x) ∨
    (o = .clear ∧ w1 = Clear w) ∨
    (∃ a, o = .invoke a ∧ call a w = some w1) := by
  cases o with
  | addNullptr => simp [Op.exec, AddNullptr] at h; left; exact h.2.symm
  | addFunc f =>
    by_cases hf : f = 0
    · simp [Op.exec, AddFunc, hf] at h; left; exact h.2.symm
    · simp [Op.exec, AddFunc, hf] at h
      right; left
      exact ⟨WrapperCFunc w.wrapperCounter f, WrapperCFunc_live _ _ hf, rfl, h.1.symm, rfl,
        h.2.symm⟩
  | addMethod ob m =>
    by_cases hz : ob = 0 ∨ m = 0
    · simp [Op.exec, AddMethod, hz] at h; left; exact h.2.symm
    · simp [Op.exec, AddMethod, hz] at h
      have hz' : ob ≠ 0 ∧ m ≠ 0 := by
        constructor
        · intro h0; exact hz (Or.inl h0)
        · intro h0; exact hz (Or.inr h0)
      right; left
      exact ⟨WrapperMethod w.wrapperCounter ob m, WrapperMethod_live _ _ _ hz'.1 hz'.2, rfl,
        h.1.symm, rfl, h.2.symm⟩
  | addLambda l =>
    simp [Op.exec, AddLambda] at h
    right; left
    exact ⟨WrapperLambda w.wrapperCounter l, WrapperLambda_live _ _, rfl, h.1.symm, rfl,
      h.2.symm⟩
  | addStdFunction g =>
    simp [Op.exec, AddStdFunction] at h
    right; left
    exact ⟨WrapperStdFunction w.wrapperCounter g, WrapperStdFunction_live _ _, rfl,
      h.1.symm, rfl, h.2.symm⟩
  | removeNullptr => simp [Op.exec, RemoveNullptr] at h; left; exact h.2.symm
  | removeFunc f =>
    simp only [Op.exec, RemoveFunc, FindFunc] at h
    rcases RemoveIndex_findLoop (fun x => x.func == f) w with ⟨h1, _⟩ | ⟨k, x, hk, _, _, _, h1⟩
    · rw [h1] at h; simp at h; left; exact h.2.symm
    · rw [h1] at h; simp at h
      right; right; left
      exact ⟨k, x, hk, h.1.symm, rfl, h.2.symm⟩
  | removeMethod ob m =>
    simp only [Op.exec, RemoveMethod, FindMethod] at h
    rcases RemoveIndex_findLoop (fun x => x.object == ob && x.method == m) w with
      ⟨h1, _⟩ | ⟨k, x, hk, _, _, _, h1⟩
    · rw [h1] at h; simp at h; left; exact h.2.symm
    · rw [h1] at h; simp at h
      right; right; left
      exact ⟨k, x, hk, h.1.symm, rfl, h.2.symm⟩
  | removeById id =>
    simp only [Op.exec, RemoveById_eq] at h
    rcases RemoveIndex_findLoop (fun x => x.id == id) w with ⟨h1, _⟩ | ⟨k, x, hk, _, _, _, h1⟩
    · rw [h1] at h; simp at h; left; exact h.2.symm
    · rw [h1] at h; simp at h
      right; right; left
      exact ⟨k, x, hk, h.1.symm, rfl, h.2.symm⟩
  | invoke a =>
    simp only [Op.exec] at h
    cases hc : call a w with
    | none => simp [hc] at h
    | some w2 =>
      simp [hc] at h
      right; right; right; right
      exact ⟨a, rfl, by rw [← h.2]; exact hc⟩
  | getNumDelegates => simp [Op.exec] at h; left; exact h.2.symm
  | clear =>
    simp [Op.exec] at h
    right; right; right; left
    exact ⟨rfl, h.2.symm⟩

/-- A call on the interface has a result, unless it is `operator()` and that has none. -/
theorem Op.exec_isSome {Args : Type} {call : Args → World Args → Option (World Args)}
    {o : Op Args} {w : World Args} (h : ∀ a, o = .invoke a → (call a w).isSome) :
    (o.exec call w).isSome := by
  cases o with
  | removeFunc f =>
    simp only [Op.exec, RemoveFunc, FindFunc]
    rcases RemoveIndex_findLoop (fun x => x.func == f) w with ⟨h1, _⟩ | ⟨k, x, hk, _, _, _, h1⟩ <;>
    · rw [h1]; simp
  | removeMethod ob m =>
    simp only [Op.exec, RemoveMethod, FindMethod]
    rcases RemoveIndex_findLoop (fun x => x.object == ob && x.method == m) w with
      ⟨h1, _⟩ | ⟨k, x, hk, _, _, _, h1⟩ <;>
    · rw [h1]; simp
  | removeById id =>
    simp only [Op.exec, RemoveById_eq]
    rcases RemoveIndex_findLoop (fun x => x.id == id) w with ⟨h1, _⟩ | ⟨k, x, hk, _, _, _, h1⟩ <;>
    · rw [h1]; simp
  | invoke a =>
    have := h a rfl
    simp only [Op.exec]
    cases hc : call a w with
    | none => simp [hc] at this
    | some w2 => simp
  | _ => simp [Op.exec, RemoveNullptr]

/-! ### The state in the middle of a pass -/

theorem removedIdx_append {Args : Type} (T E : List (Event Args)) :
    removedIdx (T ++ E) = removedIdx T ++ removedIdx E := by
  simp [removedIdx, List.filterMap_append]

theorem removedIdx_remove {Args : Type} (T : List (Event Args)) (k id : Nat) :
    removedIdx (T ++ [Event.remove k id]) = removedIdx T ++ [k] := by
  simp [removedIdx, List.filterMap_append]

theorem removedIdx_dispatch {Args : Type} (T : List (Event Args)) (i id : Nat)
    (t : Option Callee) (a : Args) :
    removedIdx (T ++ [Event.dispatch i id t a]) = removedIdx T := by
  simp [removedIdx, List.filterMap_append]

theorem Wrapper.dead_toBeRemoved (x : Wrapper) : x.ToBeRemoved.Dead := by
  simp [Wrapper.Dead, Wrapper.ToBeRemoved]

theorem Wrapper.toBeRemoved_idem (x : Wrapper) : x.ToBeRemoved.ToBeRemoved = x.ToBeRemoved := by
  simp [Wrapper.ToBeRemoved]

theorem Wrapper.operatorCall_of_dead {x : Wrapper} (h : x.Dead) : x.operatorCall = none := by
  obtain ⟨h1, h2, h3⟩ := h
  unfold Wrapper.operatorCall
  cases hty : x.type <;> simp [h1, h2, h3]

/-- The state in which a pass starts is a state in the middle of it. -/
theorem MidPass.at_start {Args : Type} {w : World Args} (hr : w.d.mIsRunning = true)
    (hp : w.d.mToRemove = []) : MidPass w w [] where
  running := hr
  trace_eq := by simp
  pending_eq := by simp [hp, removedIdx]
  pending_lt := by simp [hp]
  old := by intro j x0 h; simp [hp, h]
  added := by
    intro j x hj hx
    have : j < w.d.mWrappers.length := by
      rcases List.getElem?_eq_some.mp hx with ⟨h, _⟩
      exact h
    omega

/-- An `Add` in the middle of a pass. -/
theorem MidPass.after_emplace {Args : Type} {w0 w : World Args} {T : List (Event Args)}
    (h : MidPass w0 w T) {x : Wrapper} (hx : x.Live) : MidPass w0 (w.emplace x) T where
  running := by simpa [World.emplace] using h.running
  trace_eq := by simpa [World.emplace] using h.trace_eq
  pending_eq := by simpa [World.emplace] using h.pending_eq
  pending_lt := by
    intro j hj
    have := h.pending_lt j (by simpa [World.emplace] using hj)
    simp [World.emplace]; omega
  old := by
    intro j x0 hj
    have h1 := h.old j x0 hj
    have hlt : j < w.d.mWrappers.length := (List.getElem?_eq_some.mp h1).1
    simp only [World.emplace]
    rw [List.getElem?_append_left hlt]
    exact h1
  added := by
    intro j y hj hy
    simp only [World.emplace] at hy ⊢
    by_cases hlt : j < w.d.mWrappers.length
    · rw [List.getElem?_append_left hlt] at hy
      exact h.added j y hj hy
    · have hge : w.d.mWrappers.length ≤ j := by omega
      rw [List.getElem?_append_right hge] at hy
      have hnot : j ∉ w.d.mToRemove := fun hmem => hlt (h.pending_lt j hmem)
      simp only [hnot, if_false]
      have hj0 : j - w.d.mWrappers.length = 0 := by
        by_contra hne
        have : 1 ≤ j - w.d.mWrappers.length := by omega
        rw [List.getElem?_eq_none (by simpa using this)] at hy
        exact absurd hy (by simp)
      rw [hj0] at hy
      simp at hy
      rw [← hy]; exact hx

/-- A deferred removal in the middle of a pass. -/
theorem MidPass.after_deferRemove {Args : Type} {w0 w : World Args} {T : List (Event Args)}
    (h : MidPass w0 w T) {k : Nat} {x : Wrapper} (hk : w.d.mWrappers[k]? = some x) :
    MidPass w0 (w.deferRemove k x) (T ++ [Event.remove k x.id]) where
  running := by simpa [World.deferRemove] using h.running
  trace_eq := by simp [World.deferRemove, h.trace_eq]
  pending_eq := by simp [World.deferRemove, removedIdx_remove, h.pending_eq]
  pending_lt := by
    have hklt : k < w.d.mWrappers.length := (List.getElem?_eq_some.mp hk).1
    intro j hj
    simp only [World.deferRemove, List.mem_append, List.mem_singleton] at hj
    simp only [World.deferRemove, List.length_set]
    rcases hj with hj | hj
    · exact h.pending_lt j hj
    · omega
  old := by
    have hklt : k < w.d.mWrappers.length := (List.getElem?_eq_some.mp hk).1
    intro j x0 hj
    have h1 := h.old j x0 hj
    simp only [World.deferRemove, List.getElem?_set, List.mem_append, List.mem_singleton]
    by_cases hjk : k = j
    · subst hjk
      rw [hk] at h1
      have hx : x = if k ∈ w.d.mToRemove then x0.ToBeRemoved else x0 := by simpa using h1
      simp only [if_true, hklt, or_true]
      congr 1
      rw [hx]
      split
      · exact Wrapper.toBeRemoved_idem x0
      · rfl
    · simp only [hjk, if_false]
      have hjk' : ¬ j = k := fun e => hjk e.symm
      simp only [hjk', or_false]
      exact h1
  added := by
    have hklt : k < w.d.mWrappers.length := (List.getElem?_eq_some.mp hk).1
    intro j y hj hy
    simp only [World.deferRemove, List.getElem?_set, List.mem_append, List.mem_singleton] at hy ⊢
    by_cases hjk : k = j
    · subst hjk
      simp only [if_true, hklt] at hy
      have : y = x.ToBeRemoved := by simpa using hy.symm
      simp only [or_true, if_true, this]
      exact Wrapper.dead_toBeRemoved x
    · simp only [hjk, if_false] at hy
      have hjk' : ¬ j = k := fun e => hjk e.symm
      simp only [hjk', or_false]
      exact h.added j y hj hy

theorem Prog.All.mono {Args : Type} {P Q : Op Args → Prop} (hPQ : ∀ o, P o → Q o) :
    ∀ {p : Prog Args}, p.All P → p.All Q
  | .ret, _ => trivial
  | .throw, _ => trivial
  | .op _ _, h => ⟨hPQ _ h.1, fun r => Prog.All.mono hPQ (h.2 r)⟩

theorem Op.isClear_of_not_removal {Args : Type} (o : Op Args) (h : o.isRemoval = false) :
    o.isClear = false := by
  cases o <;> simp_all [Op.isRemoval, Op.isClear]

theorem Prog.NoRemoval.noClear {Args : Type} {p : Prog Args} (h : p.NoRemoval) : p.NoClear :=
  Prog.All.mono Op.isClear_of_not_removal h

theorem Callee.body_all {Args : Type} {P : Op Args → Prop} {env : Env Args}
    (h : ∀ c a, (env c a).All P) (c : Callee) (a : Args) : (c.body env a).All P := by
  unfold Callee.body
  split
  · trivial
  · exact h _ _

/-- The dispatch loop logging the turn of a slot. -/
theorem MidPass.after_log {Args : Type} {w0 w : World Args} {T : List (Event Args)}
    (h : MidPass w0 w T) (i id : Nat) (t : Option Callee) (a : Args) :
    MidPass w0 { w with trace := w.trace ++ [Event.dispatch i id t a] }
      (T ++ [Event.dispatch i id t a]) where
  running := h.running
  trace_eq := by simp [h.trace_eq]
  pending_eq := by simp [removedIdx_dispatch, h.pending_eq]
  pending_lt := h.pending_lt
  old := h.old
  added := h.added

/-- A call on the interface that is not `Clear`, made in the middle of a pass. -/
theorem MidPass.after_exec {Args : Type} {w0 w w1 : World Args} {T : List (Event Args)}
    {call : Args → World Args → Option (World Args)} (hc : NoReentry call)
    (h : MidPass w0 w T) {o : Op Args} {r : Ret} (ho : o.isClear = false)
    (he : o.exec call w = some (r, w1)) :
    ∃ E : List (Event Args), (∀ e ∈ E, e.isRemove = true) ∧ (o.isRemoval = false → E = []) ∧
      (o.isAdd = false ∧ o.isRemoval = false → w1 = w) ∧ MidPass w0 w1 (T ++ E) := by
  rcases Op.exec_cases he with h1 | ⟨x, hx, _, _, hadd, h1⟩ | ⟨k, x, hk, _, hrem, h1⟩ |
    ⟨hcl, _⟩ | ⟨a, _, h1⟩
  · subst h1
    exact ⟨[], by simp, fun _ => rfl, fun _ => rfl, by simpa using h⟩
  · subst h1
    refine ⟨[], by simp, fun _ => rfl, ?_, by simpa using h.after_emplace hx⟩
    intro hno; rw [hadd] at hno; exact absurd hno.1 (by simp)
  · rw [if_pos h.running] at h1
    subst h1
    refine ⟨[Event.remove k x.id], by simp [Event.isRemove], ?_, ?_, h.after_deferRemove hk⟩
    · intro hno; rw [hrem] at hno; exact absurd hno (by simp)
    · intro hno; rw [hrem] at hno; exact absurd hno.2 (by simp)
  · subst hcl; simp [Op.isClear] at ho
  · rw [hc a w h.running] at h1
    have : w1 = w := by simpa using h1.symm
    subst this
    exact ⟨[], by simp, fun _ => rfl, fun _ => rfl, by simpa using h⟩

/-- A caller that never calls `Clear`, run in the middle of a pass, ends, and
the state it leaves is a state in the middle of the same pass. -/
theorem MidPass.after_runProg {Args : Type} {w0 : World Args}
    {call : Args → World Args → Option (World Args)} (hc : NoReentry call) :
    ∀ (p : Prog Args) (w : World Args) (T : List (Event Args)), p.NoClear → MidPass w0 w T →
      ∃ (o : Outcome) (w1 : World Args) (E : List (Event Args)),
        MindShake.runProg call p w = some (o, w1) ∧ (∀ e ∈ E, e.isRemove = true) ∧
        (p.NoRemoval → E = []) ∧ (p.Inert → w1 = w) ∧ MidPass w0 w1 (T ++ E)
  | .ret, w, T, _, h =>
    ⟨.returned, w, [], rfl, by simp, fun _ => rfl, fun _ => rfl, by simpa using h⟩
  | .throw, w, T, _, h =>
    ⟨.threw, w, [], rfl, by simp, fun _ => rfl, fun _ => rfl, by simpa using h⟩
  | .op o k, w, T, hp, h => by
    have hsome : (o.exec call w).isSome := by
      apply Op.exec_isSome
      intro a _
      rw [hc a w h.running]; rfl
    obtain ⟨⟨r, w1⟩, he⟩ := Option.isSome_iff_exists.mp hsome
    obtain ⟨E1, hE1, hno1, hin1, h1⟩ := MidPass.after_exec hc h hp.1 he
    obtain ⟨oc, w2, E2, hrun, hE2, hno2, hin2, h2⟩ :=
      MidPass.after_runProg hc (k r) w1 (T ++ E1) (hp.2 r) h1
    refine ⟨oc, w2, E1 ++ E2, ?_, ?_, ?_, ?_, ?_⟩
    · simp only [MindShake.runProg, he]; exact hrun
    · intro e hmem
      rcases List.mem_append.mp hmem with hmem | hmem
      · exact hE1 e hmem
      · exact hE2 e hmem
    · intro hnr
      rw [hno1 hnr.1, hno2 (hnr.2 r)]; rfl
    · intro hin
      rw [hin2 (hin.2 r), hin1 hin.1]
    · simpa [List.append_assoc] using h2

theorem PassLog.removals {Args : Type} {ws0 : List Wrapper} {a : Args} {i : Nat} :
    ∀ (E : List (Event Args)) (T : List (Event Args)), (∀ e ∈ E, e.isRemove = true) →
      PassLog ws0 a T i → PassLog ws0 a (T ++ E) i
  | [], T, _, h => by simpa using h
  | e :: E, T, hE, h => by
    have he : e.isRemove = true := hE e (by simp)
    have hrest : ∀ e1 ∈ E, e1.isRemove = true := fun e1 h1 => hE e1 (by simp [h1])
    cases e with
    | dispatch _ _ _ _ => simp [Event.isRemove] at he
    | remove k id =>
      have := PassLog.removals E (T ++ [Event.remove k id]) hrest (PassLog.removal k id h)
      simpa [List.append_assoc] using this

theorem Wrapper.id_toBeRemoved (x : Wrapper) : x.ToBeRemoved.id = x.id := rfl

/-- The dispatch loop, started in the middle of a pass at the turn of slot `i`
with `todo` turns to go, ends; what it logs is the log of a pass, and the state
it leaves is a state in the middle of the pass. -/
theorem passLoop_spec {Args : Type} {w0 : World Args} {env : Env Args} (a : Args)
    {call : Args → World Args → Option (World Args)} (hc : NoReentry call)
    (henv : ∀ c b, (env c b).NoClear) (hlive : ∀ x ∈ w0.d.mWrappers, x.Live) :
    ∀ (todo i : Nat) (w : World Args) (T : List (Event Args)),
      i + todo = w0.d.mWrappers.length → MidPass w0 w T → PassLog w0.d.mWrappers a T i →
      ∃ (w2 : World Args) (T2 : List (Event Args)),
        passLoop call env a todo i w = some w2 ∧ MidPass w0 w2 T2 ∧
        PassLog w0.d.mWrappers a T2 (i + todo) ∧
        ((∀ c b, (env c b).NoRemoval) → removedIdx T2 = removedIdx T) ∧
        ((∀ c b, (env c b).Inert) → w2.d = w.d ∧ w2.wrapperCounter = w.wrapperCounter)
  | 0, i, w, T, _, h, hl => ⟨w, T, rfl, h, by simpa using hl, fun _ => rfl, fun _ => ⟨rfl, rfl⟩⟩
  | todo + 1, i, w, T, hn, h, hl => by
    have hi : i < w0.d.mWrappers.length := by omega
    have hx0 : w0.d.mWrappers[i]? = some w0.d.mWrappers[i] := List.getElem?_eq_getElem hi
    generalize w0.d.mWrappers[i] = x0 at hx0
    have hx0live : x0.Live := hlive x0 (List.getElem?_mem hx0)
    have hx := h.old i x0 hx0
    have hcall : (if i ∈ w.d.mToRemove then x0.ToBeRemoved else x0).operatorCall =
        if i ∈ removedIdx T then none else some x0.target := by
      rw [h.pending_eq]
      split
      · exact Wrapper.operatorCall_toBeRemoved x0
      · exact Wrapper.operatorCall_of_live hx0live
    have hid : (if i ∈ w.d.mToRemove then x0.ToBeRemoved else x0).id = x0.id := by
      split <;> rfl
    have hlog := h.after_log i x0.id (if i ∈ removedIdx T then none else some x0.target) a
    have hl1 := PassLog.turn hl hx0
    simp only [passLoop, hx, hcall, hid]
    by_cases hmem : i ∈ removedIdx T
    · simp only [hmem, if_true] at hlog hl1 ⊢
      obtain ⟨w2, T2, hrun, h2, hl2, hno, hin⟩ :=
        passLoop_spec a hc henv hlive todo (i + 1) _ _ (by omega) hlog hl1
      refine ⟨w2, T2, hrun, h2, by simpa [Nat.add_assoc, Nat.add_comm 1 todo] using hl2, ?_, ?_⟩
      · intro hnr; rw [hno hnr, removedIdx_dispatch]
      · intro hi; exact hin hi
    · simp only [hmem, if_false] at hlog hl1 ⊢
      obtain ⟨oc, w1, E, hrun1, hE, hnoE, hinE, h1⟩ :=
        MidPass.after_runProg hc (x0.target.body env a) _ _ (Callee.body_all henv _ _) hlog
      have hl1E := PassLog.removals E _ hE hl1
      obtain ⟨w2, T2, hrun, h2, hl2, hno, hin⟩ :=
        passLoop_spec a hc henv hlive todo (i + 1) w1 _ (by omega) h1 hl1E
      refine ⟨w2, T2, ?_, h2, by simpa [Nat.add_assoc, Nat.add_comm 1 todo] using hl2, ?_, ?_⟩
      · simp only [hrun1]; exact hrun
      · intro hnr
        rw [hno hnr, hnoE (Callee.body_all hnr _ _), List.append_nil, removedIdx_dispatch]
      · intro hi
        obtain ⟨hd, hcnt⟩ := hin hi
        rw [hinE (Callee.body_all hi _ _)] at hd hcnt
        exact ⟨hd, hcnt⟩

/-! ### The log of a pass and the sweep -/

theorem dispatchFrom_append {Args : Type} (a : Args) :
    ∀ (xs ys : List Wrapper) (i : Nat),
      dispatchFrom a i (xs ++ ys) = dispatchFrom a i xs ++ dispatchFrom a (i + xs.length) ys
  | [], ys, i => by simp [dispatchFrom]
  | x :: xs, ys, i => by
    have ih := dispatchFrom_append a xs ys (i + 1)
    have e : i + 1 + xs.length = i + (xs.length + 1) := by omega
    rw [e] at ih
    simp only [List.cons_append, dispatchFrom, List.length_cons]
    exact congrArg _ ih

theorem removedIdx_dispatchFrom {Args : Type} (a : Args) :
    ∀ (xs : List Wrapper) (i : Nat), removedIdx (dispatchFrom a i xs) = []
  | [], _ => rfl
  | x :: xs, i => by
    have := removedIdx_dispatchFrom a xs (i + 1)
    simpa [dispatchFrom, removedIdx] using this

/-- The log of a pass in which no removal was asked for: every slot called its
target, in the order of the list. -/
theorem PassLog.eq_dispatchFrom {Args : Type} {ws0 : List Wrapper} {a : Args}
    {T : List (Event Args)} {i : Nat} (h : PassLog ws0 a T i) :
    removedIdx T = [] → T = dispatchFrom a 0 (ws0.take i) ∧ i ≤ ws0.length := by
  induction h with
  | start => intro _; simp [dispatchFrom]
  | @turn T i x0 _ hx ih =>
    intro hr
    rw [removedIdx_dispatch] at hr
    obtain ⟨hT, hi⟩ := ih hr
    have hlt : i < ws0.length := (List.getElem?_eq_some.mp hx).1
    refine ⟨?_, hlt⟩
    rw [List.take_succ, hx, dispatchFrom_append, ← hT, hr]
    simp [dispatchFrom, List.length_take, Nat.min_eq_left hi]
  | @removal T i k id _ _ =>
    intro hr
    rw [removedIdx_remove] at hr
    simp at hr

theorem eraseLoop_sublist :
    ∀ (L : List Nat) (ws ws1 : List Wrapper), eraseLoop L ws = some ws1 → ws1.Sublist ws
  | [], ws, ws1, h => by
    simp [eraseLoop] at h; subst h; exact List.Sublist.refl _
  | i :: L, ws, ws1, h => by
    simp only [eraseLoop] at h
    split at h
    · exact (eraseLoop_sublist L _ _ h).trans (List.eraseIdx_sublist ws i)
    · simp at h

/-- What the erasing loop leaves, when it runs from the highest index to the
lowest: only elements whose index is not in the list. -/
theorem eraseLoop_survivors :
    ∀ (L : List Nat) (ws ws1 : List Wrapper), L.Pairwise (· ≥ ·) → eraseLoop L ws = some ws1 →
      ∀ x ∈ ws1, ∃ j : Nat, j ∉ L ∧ ws[j]? = some x
  | [], ws, ws1, _, h => by
    simp [eraseLoop] at h; subst h
    intro x hx
    obtain ⟨j, hj⟩ := List.mem_iff_getElem?.mp hx
    exact ⟨j, by simp, hj⟩
  | i :: L, ws, ws1, hs, h => by
    simp only [eraseLoop] at h
    split at h
    · rename_i hlt
      obtain ⟨hhead, htail⟩ := List.pairwise_cons.mp hs
      intro x hx
      obtain ⟨j, hj, hget⟩ := eraseLoop_survivors L _ _ htail h x hx
      rw [List.getElem?_eraseIdx] at hget
      by_cases hji : j < i
      · rw [if_pos hji] at hget
        refine ⟨j, ?_, hget⟩
        intro hm
        rcases List.mem_cons.mp hm with e | hm
        · omega
        · exact hj hm
      · rw [if_neg hji] at hget
        refine ⟨j + 1, ?_, hget⟩
        intro hm
        rcases List.mem_cons.mp hm with e | hm
        · omega
        · have := hhead (j + 1) hm
          omega
    · simp at h

theorem sortedDesc_pending (P : List Nat) :
    ((P.insertionSort (· ≤ ·)).reverse).Pairwise (· ≥ ·) := by
  rw [List.pairwise_reverse]
  exact List.sorted_insertionSort (· ≤ ·) P

theorem RemoveLazyDeleted_nil {Args : Type} (w : World Args) (h : w.d.mToRemove = []) :
    RemoveLazyDeleted w = some w := by
  obtain ⟨c, ⟨ws, P, r⟩, t⟩ := w
  simp only at h
  subst h
  simp [RemoveLazyDeleted, eraseLoop]

/-- What the sweep leaves: nothing pending, the running flag, the counter and
the log as they were, and only slots whose index was not pending, in their
order. -/
theorem RemoveLazyDeleted_spec {Args : Type} {w w3 : World Args}
    (h : RemoveLazyDeleted w = some w3) :
    w3.d.mToRemove = [] ∧ w3.d.mIsRunning = w.d.mIsRunning ∧ w3.trace = w.trace ∧
    w3.wrapperCounter = w.wrapperCounter ∧ w3.d.mWrappers.Sublist w.d.mWrappers ∧
    ∀ x ∈ w3.d.mWrappers, ∃ j : Nat, j ∉ w.d.mToRemove ∧ w.d.mWrappers[j]? = some x := by
  unfold RemoveLazyDeleted at h
  simp only at h
  split at h
  · simp at h
  · rename_i ws hws
    have hw3 : w3 = { w with d := { w.d with mWrappers := ws, mToRemove := [] } } := by
      simpa using h.symm
    subst hw3
    refine ⟨rfl, rfl, rfl, rfl, eraseLoop_sublist _ _ _ hws, ?_⟩
    intro x hx
    obtain ⟨j, hj, hget⟩ := eraseLoop_survivors _ _ _ (sortedDesc_pending _) hws x hx
    refine ⟨j, ?_, hget⟩
    intro hm
    apply hj
    rw [List.mem_reverse, List.mem_insertionSort]
    exact hm

/-! ### A whole pass -/

/-- The body of `operator()` on an idle delegate. -/
theorem operatorCall_idle {Args : Type} (env : Env Args) (fuel : Nat) (a : Args)
    (w : World Args) (h : w.d.mIsRunning = false) :
    operatorCall env (fuel + 1) a w =
      (passLoop (operatorCall env fuel) env a w.d.mWrappers.length 0 w.enter).bind
        (fun w2 => (RemoveLazyDeleted w2).map World.leave) := by
  simp only [operatorCall, h, if_true, World.enter]
  cases passLoop (operatorCall env fuel) env a w.d.mWrappers.length 0
      { w with d := { w.d with mIsRunning := true } } with
  | none => rfl
  | some w2 =>
    simp only [Option.bind]
    cases RemoveLazyDeleted w2 with
    | none => rfl
    | some w3 => rfl

/-- The dispatch loop of a pass that starts on an idle delegate, when no user
function calls `Clear`. -/
theorem pass_loop {Args : Type} {w0 : World Args} (env : Env Args) (fuel : Nat) (a : Args)
    (h0 : IdleOk w0) (henv : ∀ c b, (env c b).NoClear) :
    ∃ (w2 : World Args) (T : List (Event Args)),
      passLoop (operatorCall env fuel) env a w0.d.mWrappers.length 0 w0.enter = some w2 ∧
      MidPass w0.enter w2 T ∧ PassLog w0.d.mWrappers a T w0.d.mWrappers.length ∧
      ((∀ c b, (env c b).NoRemoval) → removedIdx T = []) ∧
      ((∀ c b, (env c b).Inert) → w2.d = w0.enter.d ∧ w2.wrapperCounter = w0.wrapperCounter) := by
  obtain ⟨_, hp, hl⟩ := h0
  have hstart : MidPass w0.enter w0.enter [] := MidPass.at_start rfl hp
  obtain ⟨w2, T, hrun, h2, hlog, hno, hin⟩ :=
    @passLoop_spec Args w0.enter env a _ (noReentry_operatorCall env fuel) henv hl
      w0.d.mWrappers.length 0 w0.enter [] (by simp [World.enter]) hstart PassLog.start
  refine ⟨w2, T, hrun, h2, by simpa [World.enter] using hlog, ?_, ?_⟩
  · intro hnr; simpa [removedIdx] using hno hnr
  · intro hi; exact hin hi

/-- The slots left by the sweep at the end of a pass are as `Add` built them. -/
theorem sweep_live {Args : Type} {w0 w2 w3 : World Args} {T : List (Event Args)}
    (hl : ∀ x ∈ w0.d.mWrappers, x.Live) (h2 : MidPass w0 w2 T)
    (h3 : RemoveLazyDeleted w2 = some w3) : IdleOk w3.leave := by
  obtain ⟨hp, _, _, _, _, hsurv⟩ := RemoveLazyDeleted_spec h3
  refine ⟨rfl, hp, ?_⟩
  intro x hx
  obtain ⟨j, hj, hget⟩ := hsurv x hx
  by_cases hlt : j < w0.d.mWrappers.length
  · have hx0 : w0.d.mWrappers[j]? = some w0.d.mWrappers[j] := List.getElem?_eq_getElem hlt
    have := h2.old j _ hx0
    rw [hget, if_neg hj] at this
    have hxe : x = w0.d.mWrappers[j] := by simpa using this
    rw [hxe]
    exact hl _ (List.getElem_mem hlt)
  · have := h2.added j x (by omega) hget
    rw [if_neg hj] at this
    exact this

/-- A list that keeps every element of `xs` at its index starts with `xs`. -/
theorem append_of_getElem? {α : Type} (xs ys : List α)
    (h : ∀ (j : Nat) (x : α), xs[j]? = some x → ys[j]? = some x) :
    ∃ zs, ys = xs ++ zs := by
  induction xs generalizing ys with
  | nil => exact ⟨ys, rfl⟩
  | cons x xs ih =>
    cases ys with
    | nil => have := h 0 x (by simp); simp at this
    | cons y ys =>
      have h0 := h 0 x (by simp)
      have hxy : y = x := by simpa using h0
      obtain ⟨zs, hzs⟩ := ih ys (fun j z hz => by
        have := h (j + 1) z (by simpa using hz)
        simpa using this)
      exact ⟨zs, by rw [hxy, hzs]; rfl⟩

/-- A pass on an idle delegate whose user functions ask for no removal: it
ends, every slot that was there at the start has called its target once, in
the order of the list, and the list is the old one followed by the slots the
user functions added. -/
theorem pass_noRemoval {Args : Type} {w0 : World Args} (env : Env Args) (fuel : Nat) (a : Args)
    (h0 : IdleOk w0) (henv : ∀ c b, (env c b).NoRemoval) :
    ∃ (w1 : World Args) (added : List Wrapper),
      operatorCall env (fuel + 1) a w0 = some w1 ∧ IdleOk w1 ∧
      w1.d.mWrappers = w0.d.mWrappers ++ added ∧
      w1.trace = w0.trace ++ dispatchFrom a 0 w0.d.mWrappers ∧
      ((∀ c b, (env c b).Inert) → added = [] ∧ w1.wrapperCounter = w0.wrapperCounter) := by
  obtain ⟨w2, T, hrun, h2, hlog, hno, hin⟩ :=
    pass_loop env fuel a h0 (fun c b => (henv c b).noClear)
  have hT := hno henv
  have hp2 : w2.d.mToRemove = [] := by rw [h2.pending_eq, hT]
  have hsweep := RemoveLazyDeleted_nil w2 hp2
  have hcall : operatorCall env (fuel + 1) a w0 = some w2.leave := by
    rw [operatorCall_idle env fuel a w0 h0.1, hrun]
    simp [Option.bind, hsweep]
  obtain ⟨added, hadded⟩ := append_of_getElem? w0.d.mWrappers w2.d.mWrappers (by
    intro j x hx
    have := h2.old j x (by simpa [World.enter] using hx)
    rw [hp2] at this
    simpa using this)
  have hTeq := (hlog.eq_dispatchFrom hT).1
  rw [List.take_length] at hTeq
  refine ⟨w2.leave, added, hcall, ?_, hadded, ?_, ?_⟩
  · exact @sweep_live Args w0.enter w2 w2 T h0.2.2 h2 hsweep
  · show w2.trace = _
    rw [h2.trace_eq, hTeq]; rfl
  · intro hi
    obtain ⟨hd, hcnt⟩ := hin hi
    refine ⟨?_, hcnt⟩
    have : w2.d.mWrappers = w0.d.mWrappers := by rw [hd]; rfl
    rw [this] at hadded
    have := congrArg List.length hadded
    simpa using this

/-! ### C1: every slot fires once, in order -/

theorem IdleOk.of_fresh (Args : Type) (c : Nat) : IdleOk (World.fresh Args c) :=
  ⟨rfl, rfl, by simp [World.fresh]⟩

/-- An accepted `Add` appends one slot, as built by the constructor, that holds
the target. -/
theorem AddCall.run_ok {Args : Type} (c : AddCall) (hc : c.ok) (w : World Args) :
    ∃ x : Wrapper, x.Live ∧ x.target = c.callee ∧ x.id = w.wrapperCounter ∧
      c.run w = (x.id, w.emplace x) := by
  cases c with
  | func f =>
    have hf : f ≠ 0 := hc
    exact ⟨WrapperCFunc w.wrapperCounter f, WrapperCFunc_live _ _ hf, rfl, rfl,
      by simp [AddCall.run, AddFunc, hf]⟩
  | method o m =>
    have hom : o ≠ 0 ∧ m ≠ 0 := hc
    exact ⟨WrapperMethod w.wrapperCounter o m, WrapperMethod_live _ _ _ hom.1 hom.2, rfl, rfl,
      by simp [AddCall.run, AddMethod, hom.1, hom.2]⟩
  | lambda l =>
    exact ⟨WrapperLambda w.wrapperCounter l, WrapperLambda_live _ _, rfl, rfl,
      by simp [AddCall.run, AddLambda]⟩
  | stdFunction g =>
    exact ⟨WrapperStdFunction w.wrapperCounter g, WrapperStdFunction_live _ _, rfl, rfl,
      by simp [AddCall.run, AddStdFunction]⟩

theorem IdleOk.of_emplace {Args : Type} {w : World Args} (h : IdleOk w) {x : Wrapper}
    (hx : x.Live) : IdleOk (w.emplace x) := by
  obtain ⟨h1, h2, h3⟩ := h
  refine ⟨h1, h2, ?_⟩
  intro y hy
  simp only [World.emplace, List.mem_append, List.mem_singleton] at hy
  rcases hy with hy | hy
  · exact h3 y hy
  · rw [hy]; exact hx

/-- Accepted calls of `Add` on an idle delegate: the slots are appended in the
order of the calls, each holds the target of its call, and nothing else
changes. -/
theorem addAll_spec {Args : Type} :
    ∀ (cs : List AddCall) (w : World Args), (∀ c ∈ cs, c.ok) → IdleOk w →
      ∃ xs : List Wrapper, (addAll cs w).d.mWrappers = w.d.mWrappers ++ xs ∧
        xs.map Wrapper.target = cs.map AddCall.callee ∧ IdleOk (addAll cs w) ∧
        (addAll cs w).trace = w.trace
  | [], w, _, h => ⟨[], by simp [addAll], rfl, h, rfl⟩
  | c :: cs, w, hok, h => by
    obtain ⟨x, hx, ht, _, hrun⟩ := AddCall.run_ok c (hok c (by simp)) w
    obtain ⟨xs, h1, h2, h3, h4⟩ :=
      addAll_spec cs (w.emplace x) (fun c1 h1 => hok c1 (by simp [h1])) (h.of_emplace hx)
    refine ⟨x :: xs, ?_, ?_, ?_, ?_⟩
    · simp only [addAll, hrun]; rw [h1]; simp [World.emplace]
    · simp [ht, h2]
    · simpa only [addAll, hrun] using h3
    · simp only [addAll, hrun]; rw [h4]; rfl

/-- C1. A delegate is built from a newly constructed one by accepted calls of
`Add`, and no user function asks for a removal. Then the slots hold the
targets in the order of the calls, and one call of `operator()` with argument
`a` returns, leaves the delegate idle, and has made each slot call its target
with `a` exactly once, in the order of the slot list. With no slot (the last
part) it returns without any dispatch and changes nothing. -/
theorem C1_invoke_fires_each_slot_once_in_order {Args : Type} (env : Env Args)
    (henv : ∀ c b, (env c b).NoRemoval) (adds : List AddCall) (hok : ∀ c ∈ adds, c.ok)
    (counter fuel : Nat) (a : Args) :
    ((addAll adds (World.fresh Args counter)).d.mWrappers.map Wrapper.target
        = adds.map AddCall.callee) ∧
    (∃ w1 : World Args,
      operatorCall env (fuel + 1) a (addAll adds (World.fresh Args counter)) = some w1 ∧
      w1.trace = dispatchFrom a 0 (addAll adds (World.fresh Args counter)).d.mWrappers ∧
      w1.d.mIsRunning = false) ∧
    operatorCall env (fuel + 1) a (World.fresh Args counter) = some (World.fresh Args counter) := by
  obtain ⟨xs, h1, h2, h3, h4⟩ := addAll_spec adds (World.fresh Args counter) hok (IdleOk.of_fresh _ _)
  refine ⟨?_, ?_, ?_⟩
  · rw [h1]; simpa [World.fresh] using h2
  · obtain ⟨w1, _, hcall, hidle, _, htrace, _⟩ := pass_noRemoval env fuel a h3 henv
    refine ⟨w1, hcall, ?_, hidle.1⟩
    rw [htrace, h4]; simp [World.fresh]
  · simp [operatorCall, World.fresh, passLoop, RemoveLazyDeleted, eraseLoop]

/-- C1 at three registrations of three kinds. -/
theorem C1_witness :
    ((addAll [AddCall.func 10, AddCall.method 3 4, AddCall.lambda 5]
        (World.fresh Nat 0)).d.mWrappers.map Wrapper.target
        = [AddCall.func 10, AddCall.method 3 4, AddCall.lambda 5].map AddCall.callee) ∧
    (∃ w1 : World Nat,
      operatorCall (fun _ _ => Prog.ret) 1 7
        (addAll [AddCall.func 10, AddCall.method 3 4, AddCall.lambda 5] (World.fresh Nat 0))
        = some w1 ∧
      w1.trace = dispatchFrom 7 0
        (addAll [AddCall.func 10, AddCall.method 3 4, AddCall.lambda 5]
          (World.fresh Nat 0)).d.mWrappers ∧
      w1.d.mIsRunning = false) ∧
    operatorCall (fun _ _ => Prog.ret) 1 7 (World.fresh Nat 0) = some (World.fresh Nat 0) :=
  C1_invoke_fires_each_slot_once_in_order (fun _ _ => Prog.ret) (fun _ _ => trivial)
    [AddCall.func 10, AddCall.method 3 4, AddCall.lambda 5]
    (by
      intro c hc
      simp only [List.mem_cons, List.mem_singleton, List.not_mem_nil, or_false] at hc
      rcases hc with rfl | rfl | rfl <;> simp [AddCall.ok])
    0 0 7

/-! ### C3: `operator()` on a running delegate -/

/-- While the delegate is running, a call on the interface leaves it running. -/
theorem Op.exec_running {Args : Type} {call : Args → World Args → Option (World Args)}
    (hc : NoReentry call) {o : Op Args} {w w1 : World Args} {r : Ret}
    (hr : w.d.mIsRunning = true) (he : o.exec call w = some (r, w1)) :
    w1.d.mIsRunning = true := by
  rcases Op.exec_cases he with h1 | ⟨x, _, _, _, _, h1⟩ | ⟨k, x, _, _, _, h1⟩ | ⟨_, h1⟩ |
    ⟨a, _, h1⟩
  · rw [h1]; exact hr
  · rw [h1]; exact hr
  · rw [if_pos hr] at h1; rw [h1]; exact hr
  · rw [h1]; exact hr
  · rw [hc a w hr] at h1
    have : w1 = w := by simpa using h1.symm
    rw [this]; exact hr

/-- While the delegate is running, what a call on the interface does is the
same for every version of `operator()` that returns at once. -/
theorem Op.exec_congr {Args : Type} {c1 c2 : Args → World Args → Option (World Args)}
    (h1 : NoReentry c1) (h2 : NoReentry c2) (o : Op Args) {w : World Args}
    (hr : w.d.mIsRunning = true) : o.exec c1 w = o.exec c2 w := by
  cases o <;> simp [Op.exec, h1 _ w hr, h2 _ w hr]

theorem Prog.dropInvoke_op {Args : Type} (o : Op Args) (k : Ret → Prog Args)
    (h : ∀ b, o ≠ .invoke b) :
    (Prog.op o k).dropInvoke = .op o (fun r => (k r).dropInvoke) := by
  cases o with
  | invoke b => exact absurd rfl (h b)
  | _ => rfl

/-- While the delegate is running, a call of `operator()` by the caller is a
step that changes nothing. -/
theorem runProg_dropInvoke {Args : Type} {c1 c2 : Args → World Args → Option (World Args)}
    (h1 : NoReentry c1) (h2 : NoReentry c2) :
    ∀ (p : Prog Args) (w : World Args), w.d.mIsRunning = true →
      runProg c1 p w = runProg c2 p.dropInvoke w
  | .ret, _, _ => rfl
  | .throw, _, _ => rfl
  | .op o k, w, hr => by
    have hstep : ∀ (r : Ret) (w1 : World Args), o.exec c1 w = some (r, w1) →
        runProg c1 (k r) w1 = runProg c2 (k r).dropInvoke w1 :=
      fun r w1 he => runProg_dropInvoke h1 h2 (k r) w1 (Op.exec_running h1 hr he)
    by_cases hinv : ∃ b, o = .invoke b
    · obtain ⟨b, rfl⟩ := hinv
      have he : (Op.invoke b).exec c1 w = some (.unit, w) := by simp [Op.exec, h1 b w hr]
      simp only [Prog.dropInvoke, runProg, he]
      exact hstep _ _ he
    · have hne : ∀ b, o ≠ .invoke b := fun b e => hinv ⟨b, e⟩
      rw [Prog.dropInvoke_op o k hne]
      have hcongr := Op.exec_congr h1 h2 o hr
      cases he : o.exec c1 w with
      | none =>
        have he2 : o.exec c2 w = none := by rw [← hcongr]; exact he
        simp only [runProg, he, he2]
      | some rw1 =>
        obtain ⟨r, w1⟩ := rw1
        have he2 : o.exec c2 w = some (r, w1) := by rw [← hcongr]; exact he
        simp only [runProg, he, he2]
        exact hstep r w1 he

theorem Prog.dropInvoke_stdFunction {Args : Type} (env : Env Args) (c : Callee) (a : Args) :
    (c.body env a).dropInvoke = c.body (fun c1 x => (env c1 x).dropInvoke) a := by
  unfold Callee.body
  split <;> rfl

/-- While the delegate is running, a caller leaves it running. -/
theorem runProg_running {Args : Type} {call : Args → World Args → Option (World Args)}
    (hc : NoReentry call) :
    ∀ (p : Prog Args) (w w1 : World Args) (oc : Outcome), w.d.mIsRunning = true →
      runProg call p w = some (oc, w1) → w1.d.mIsRunning = true
  | .ret, w, w1, oc, hr, h => by
    simp [runProg] at h; rw [← h.2]; exact hr
  | .throw, w, w1, oc, hr, h => by
    simp [runProg] at h; rw [← h.2]; exact hr
  | .op o k, w, w1, oc, hr, h => by
    simp only [runProg] at h
    split at h
    · simp at h
    · rename_i r w2 he
      exact runProg_running hc (k r) w2 w1 oc (Op.exec_running hc hr he) h

/-- The dispatch loop does the same whether or not the user functions call
`operator()` while it runs. -/
theorem passLoop_dropInvoke {Args : Type} {c1 c2 : Args → World Args → Option (World Args)}
    (h1 : NoReentry c1) (h2 : NoReentry c2) (env : Env Args) (a : Args) :
    ∀ (todo i : Nat) (w : World Args), w.d.mIsRunning = true →
      passLoop c1 env a todo i w = passLoop c2 (fun c x => (env c x).dropInvoke) a todo i w
  | 0, _, _, _ => rfl
  | todo + 1, i, w, hr => by
    simp only [passLoop]
    split
    · rfl
    · rename_i x hx
      split
      · exact passLoop_dropInvoke h1 h2 env a todo (i + 1) _ hr
      · rename_i c hcall
        rw [← Prog.dropInvoke_stdFunction,
          ← runProg_dropInvoke h1 h2 (c.body env a) _ (by exact hr)]
        split
        · rfl
        · rename_i oc w2 hrun
          exact passLoop_dropInvoke h1 h2 env a todo (i + 1) w2
            (runProg_running h1 _ _ _ _ (by exact hr) hrun)

/-- A pass does the same whether or not the user functions call `operator()`
while it runs, and whatever the fuel. -/
theorem operatorCall_dropInvoke {Args : Type} (env : Env Args) (f1 f2 : Nat) (a : Args)
    (w : World Args) :
    operatorCall env (f1 + 1) a w =
      operatorCall (fun c x => (env c x).dropInvoke) (f2 + 1) a w := by
  by_cases hr : w.d.mIsRunning = true
  · rw [operatorCall_of_running _ _ _ _ hr, operatorCall_of_running _ _ _ _ hr]
  · have hi : w.d.mIsRunning = false := by simpa using hr
    rw [operatorCall_idle _ _ _ _ hi, operatorCall_idle _ _ _ _ hi,
      passLoop_dropInvoke (noReentry_operatorCall env f1)
        (noReentry_operatorCall (fun c x => (env c x).dropInvoke) f2) env a _ 0 w.enter rfl]

theorem Prog.Inert.noRemoval {Args : Type} {p : Prog Args} (h : p.Inert) : p.NoRemoval :=
  Prog.All.mono (fun _ ho => ho.2) h

theorem Delegate.eq_of_idleOk {Args : Type} {w0 w1 : World Args} (h0 : IdleOk w0)
    (h1 : IdleOk w1) (hw : w1.d.mWrappers = w0.d.mWrappers) : w1.d = w0.d := by
  obtain ⟨c0, ⟨ws0, p0, r0⟩, t0⟩ := w0
  obtain ⟨c1, ⟨ws1, p1, r1⟩, t1⟩ := w1
  obtain ⟨a0, b0, _⟩ := h0
  obtain ⟨a1, b1, _⟩ := h1
  simp only at a0 b0 a1 b1 hw
  simp [a0, b0, a1, b1, hw]

/-- C3. While the delegate is running, a call of `operator()` returns at once
with the state as it was: no slot is dispatched, slot list, pending list and
flag are unchanged. The caller that made it goes on as if it had not made
it. The pass around it is the pass that would run if no user function called
`operator()`. And a pass on an idle delegate whose user functions do nothing
but such calls returns, has dispatched every slot in order, and leaves the
delegate as it was. -/
theorem C3_reentrant_invoke_is_skipped {Args : Type} (env : Env Args) (fuel : Nat) (a : Args)
    (w : World Args) (hr : w.d.mIsRunning = true) :
    operatorCall env fuel a w = some w ∧
    (∀ k : Ret → Prog Args,
      runProg (operatorCall env fuel) (Prog.op (Op.invoke a) k) w =
        runProg (operatorCall env fuel) (k Ret.unit) w) ∧
    (∀ (b : Args) (w0 : World Args),
      operatorCall env (fuel + 1) b w0 =
        operatorCall (fun c x => (env c x).dropInvoke) (fuel + 1) b w0) ∧
    (∀ (b : Args) (w0 : World Args), IdleOk w0 → (∀ c x, (env c x).Inert) →
      ∃ w1 : World Args, operatorCall env (fuel + 1) b w0 = some w1 ∧ w1.d = w0.d ∧
        w1.trace = w0.trace ++ dispatchFrom b 0 w0.d.mWrappers) := by
  have h1 := operatorCall_of_running env fuel a w hr
  refine ⟨h1, ?_, ?_, ?_⟩
  · intro k
    simp [runProg, Op.exec, h1]
  · intro b w0
    exact operatorCall_dropInvoke env fuel fuel b w0
  · intro b w0 h0 hin
    obtain ⟨w1, added, hcall, hidle, hws, htrace, hadd⟩ :=
      pass_noRemoval env fuel b h0 (fun c x => (hin c x).noRemoval)
    refine ⟨w1, hcall, ?_, htrace⟩
    apply Delegate.eq_of_idleOk h0 hidle
    rw [hws, (hadd hin).1, List.append_nil]

/-- C3 at a running delegate with one slot. -/
theorem C3_witness :
    operatorCall (fun _ _ => Prog.ret) 0 (7 : Nat)
        (AddFunc 10 (World.fresh Nat 0)).2.enter
      = some (AddFunc 10 (World.fresh Nat 0)).2.enter :=
  (C3_reentrant_invoke_is_skipped (fun _ _ => Prog.ret) 0 7
    (AddFunc 10 (World.fresh Nat 0)).2.enter rfl).1

/-! ### C4: removal while running -/

theorem Stays.refl {Args : Type} (w : World Args) : Stays w w :=
  fun _ x h => ⟨x, h, rfl⟩

theorem Stays.trans {Args : Type} {w w1 w2 : World Args} (h1 : Stays w w1) (h2 : Stays w1 w2) :
    Stays w w2 := by
  intro j x hx
  obtain ⟨y, hy, hid⟩ := h1 j x hx
  obtain ⟨z, hz, hid2⟩ := h2 j y hy
  exact ⟨z, hz, hid2.trans hid⟩

theorem deferRemove_deferred {Args : Type} {w : World Args} {k : Nat} {x : Wrapper}
    (hr : w.d.mIsRunning = true) (hk : w.d.mWrappers[k]? = some x) :
    Deferred w (w.deferRemove k x) k x := by
  have hklt : k < w.d.mWrappers.length := (List.getElem?_eq_some.mp hk).1
  refine ⟨hk, by simp [World.deferRemove], ?_, ?_, rfl, hr, rfl⟩
  · intro j hj
    have : ¬ k = j := fun e => hj e.symm
    simp [World.deferRemove, List.getElem?_set, this]
  · simp [World.deferRemove, List.getElem?_set, hklt, Wrapper.ToBeRemoved]

theorem stays_deferRemove {Args : Type} {w : World Args} {k : Nat} {x : Wrapper}
    (hk : w.d.mWrappers[k]? = some x) : Stays w (w.deferRemove k x) := by
  have hklt : k < w.d.mWrappers.length := (List.getElem?_eq_some.mp hk).1
  intro j y hy
  by_cases hjk : k = j
  · subst hjk
    rw [hk] at hy
    have : y = x := by simpa using hy.symm
    subst this
    exact ⟨y.ToBeRemoved, by simp [World.deferRemove, List.getElem?_set, hklt], rfl⟩
  · exact ⟨y, by simp [World.deferRemove, List.getElem?_set, hjk, hy], rfl⟩

theorem stays_emplace {Args : Type} (w : World Args) (x : Wrapper) : Stays w (w.emplace x) := by
  intro j y hy
  have hlt : j < w.d.mWrappers.length := (List.getElem?_eq_some.mp hy).1
  exact ⟨y, by simp only [World.emplace]; rw [List.getElem?_append_left hlt]; exact hy, rfl⟩

theorem stays_same_delegate {Args : Type} {w w1 : World Args} (h : w1.d = w.d) : Stays w w1 := by
  intro j y hy
  exact ⟨y, by rw [h]; exact hy, rfl⟩

/-- While the delegate is running, a call on the interface other than `Clear`
leaves every slot at its index. -/
theorem stays_exec {Args : Type} {call : Args → World Args → Option (World Args)}
    (hc : NoReentry call) {o : Op Args} {w w1 : World Args} {r : Ret}
    (hr : w.d.mIsRunning = true) (ho : o.isClear = false) (he : o.exec call w = some (r, w1)) :
    Stays w w1 := by
  rcases Op.exec_cases he with h1 | ⟨x, _, _, _, _, h1⟩ | ⟨k, x, hk, _, _, h1⟩ | ⟨hcl, _⟩ |
    ⟨a, _, h1⟩
  · rw [h1]; exact Stays.refl w
  · rw [h1]; exact stays_emplace w x
  · rw [if_pos hr] at h1; rw [h1]; exact stays_deferRemove hk
  · subst hcl; simp [Op.isClear] at ho
  · rw [hc a w hr] at h1
    have : w1 = w := by simpa using h1.symm
    rw [this]; exact Stays.refl w

/-- While the delegate is running, a caller that never calls `Clear` leaves
every slot at its index. -/
theorem stays_runProg {Args : Type} {call : Args → World Args → Option (World Args)}
    (hc : NoReentry call) :
    ∀ (p : Prog Args) (w w1 : World Args) (oc : Outcome), p.NoClear → w.d.mIsRunning = true →
      runProg call p w = some (oc, w1) → Stays w w1
  | .ret, w, w1, oc, _, _, h => by
    simp [runProg] at h; rw [← h.2]; exact Stays.refl w
  | .throw, w, w1, oc, _, _, h => by
    simp [runProg] at h; rw [← h.2]; exact Stays.refl w
  | .op o k, w, w1, oc, hp, hr, h => by
    simp only [runProg] at h
    split at h
    · simp at h
    · rename_i r w2 he
      exact (stays_exec hc hr hp.1 he).trans
        (stays_runProg hc (k r) w2 w1 oc (hp.2 r) (Op.exec_running hc hr he) h)

/-- The dispatch loop leaves every slot at its index, when no user function
calls `Clear`. -/
theorem stays_passLoop {Args : Type} {call : Args → World Args → Option (World Args)}
    (hc : NoReentry call) {env : Env Args} (henv : ∀ c b, (env c b).NoClear) (a : Args) :
    ∀ (todo i : Nat) (w w1 : World Args), w.d.mIsRunning = true →
      passLoop call env a todo i w = some w1 → Stays w w1
  | 0, _, w, w1, _, h => by
    simp [passLoop] at h; rw [← h]; exact Stays.refl w
  | todo + 1, i, w, w1, hr, h => by
    simp only [passLoop] at h
    split at h
    · simp at h
    · rename_i x hx
      split at h
      · have h2 := stays_passLoop hc henv a todo (i + 1) _ w1 (by exact hr) h
        exact (stays_same_delegate rfl).trans h2
      · rename_i c hcall
        split at h
        · simp at h
        · rename_i oc w2 hrun
          have hs := stays_runProg hc _ _ w2 oc (Callee.body_all henv c a) (by exact hr) hrun
          have hr2 := runProg_running hc _ _ w2 oc (by exact hr) hrun
          have h2 := stays_passLoop hc henv a todo (i + 1) w2 w1 hr2 h
          exact ((stays_same_delegate rfl).trans hs).trans h2

/-- C4. While the delegate is running, `RemoveById`, `Remove(func)` and
`Remove(object, method)` that match a slot return `true` and defer the removal
of the first slot that matches: the list keeps its length and every other
slot, the matched slot stays at its index with its object and function
cleared and its flag off, and its index is appended to the pending list.
After that, whatever the user functions do short of `Clear`, in the rest of
their run and in the rest of the dispatch loop, every slot is still at its
index: nothing leaves the list before the sweep. -/
theorem C4_removal_while_running_is_deferred {Args : Type} (env : Env Args) (fuel : Nat)
    (w : World Args) (hr : w.d.mIsRunning = true) :
    (∀ id : Nat, (∃ x ∈ w.d.mWrappers, x.id = id) →
      ∃ (k : Nat) (x : Wrapper) (w1 : World Args), x.id = id ∧
        (∀ (j : Nat) (y : Wrapper), j < k → w.d.mWrappers[j]? = some y → y.id ≠ id) ∧
        RemoveById id w = some (true, w1) ∧ Deferred w w1 k x) ∧
    (∀ f : Nat, (∃ x ∈ w.d.mWrappers, x.func = f) →
      ∃ (k : Nat) (x : Wrapper) (w1 : World Args), x.func = f ∧
        (∀ (j : Nat) (y : Wrapper), j < k → w.d.mWrappers[j]? = some y → y.func ≠ f) ∧
        RemoveFunc f w = some (true, w1) ∧ Deferred w w1 k x) ∧
    (∀ o m : Nat, (∃ x ∈ w.d.mWrappers, x.object = o ∧ x.method = m) →
      ∃ (k : Nat) (x : Wrapper) (w1 : World Args), (x.object = o ∧ x.method = m) ∧
        (∀ (j : Nat) (y : Wrapper), j < k → w.d.mWrappers[j]? = some y →
          ¬ (y.object = o ∧ y.method = m)) ∧
        RemoveMethod o m w = some (true, w1) ∧ Deferred w w1 k x) ∧
    (∀ (p : Prog Args) (oc : Outcome) (w1 : World Args), p.NoClear →
      runProg (operatorCall env fuel) p w = some (oc, w1) → Stays w w1) ∧
    (∀ (a : Args) (todo i : Nat) (w1 : World Args), (∀ c b, (env c b).NoClear) →
      passLoop (operatorCall env fuel) env a todo i w = some w1 → Stays w w1) := by
  refine ⟨?_, ?_, ?_, ?_, ?_⟩
  · intro id ⟨x0, hx0, hid0⟩
    rw [RemoveById_eq]
    rcases RemoveIndex_findLoop (fun x => x.id == id) w with ⟨_, _, hnone⟩ |
      ⟨k, x, hk, hp, hlt, _, hrem⟩
    · have := hnone x0 hx0
      simp [hid0] at this
    · rw [if_pos hr] at hrem
      refine ⟨k, x, _, by simpa using hp, ?_, hrem, deferRemove_deferred hr hk⟩
      intro j y hj hy
      simpa using hlt j y hj hy
  · intro f ⟨x0, hx0, hf0⟩
    unfold RemoveFunc FindFunc
    rcases RemoveIndex_findLoop (fun x => x.func == f) w with ⟨_, _, hnone⟩ |
      ⟨k, x, hk, hp, hlt, _, hrem⟩
    · have := hnone x0 hx0
      simp [hf0] at this
    · rw [if_pos hr] at hrem
      refine ⟨k, x, _, by simpa using hp, ?_, hrem, deferRemove_deferred hr hk⟩
      intro j y hj hy
      simpa using hlt j y hj hy
  · intro o m ⟨x0, hx0, ho0, hm0⟩
    unfold RemoveMethod FindMethod
    rcases RemoveIndex_findLoop (fun x => x.object == o && x.method == m) w with
      ⟨_, _, hnone⟩ | ⟨k, x, hk, hp, hlt, _, hrem⟩
    · have := hnone x0 hx0
      simp [ho0, hm0] at this
    · rw [if_pos hr] at hrem
      refine ⟨k, x, _, by simpa using hp, ?_, hrem, deferRemove_deferred hr hk⟩
      intro j y hj hy
      simpa using hlt j y hj hy
  · intro p oc w1 hp hrun
    exact stays_runProg (noReentry_operatorCall env fuel) p w w1 oc hp hr hrun
  · intro a todo i w1 henv hrun
    exact stays_passLoop (noReentry_operatorCall env fuel) henv a todo i w w1 hr hrun

/-- C4 at a running delegate whose only slot, a closure, removes itself by id. -/
theorem C4_witness :
    ∃ (k : Nat) (x : Wrapper) (w1 : World Nat), x.id = 0 ∧
      (∀ (j : Nat) (y : Wrapper), j < k →
        (AddLambda 1 (World.fresh Nat 0)).2.enter.d.mWrappers[j]? = some y → y.id ≠ 0) ∧
      RemoveById 0 (AddLambda 1 (World.fresh Nat 0)).2.enter = some (true, w1) ∧
      Deferred (AddLambda 1 (World.fresh Nat 0)).2.enter w1 k x :=
  (C4_removal_while_running_is_deferred (fun _ _ => Prog.ret) 0
    (AddLambda 1 (World.fresh Nat 0)).2.enter rfl).1 0
    ⟨WrapperLambda 0 1, by simp [AddLambda, World.emplace, World.enter, World.fresh], rfl⟩

/-! ### C7: nothing pending when idle -/

/-- A call of `operator()` that returns either found the delegate running and
changed nothing, or leaves it idle with nothing pending. -/
theorem operatorCall_result {Args : Type} {env : Env Args} {fuel : Nat} {a : Args}
    {w w1 : World Args} (h : operatorCall env fuel a w = some w1) :
    (w.d.mIsRunning = true ∧ w1 = w) ∨ (w1.d.mIsRunning = false ∧ w1.d.mToRemove = []) := by
  by_cases hr : w.d.mIsRunning = true
  · left
    rw [operatorCall_of_running _ _ _ _ hr] at h
    exact ⟨hr, by simpa using h.symm⟩
  · right
    have hi : w.d.mIsRunning = false := by simpa using hr
    cases fuel with
    | zero => simp [operatorCall, hi] at h
    | succ fuel =>
      rw [operatorCall_idle _ _ _ _ hi] at h
      cases hloop : passLoop (operatorCall env fuel) env a w.d.mWrappers.length 0 w.enter with
      | none => simp [hloop] at h
      | some w2 =>
        cases hsweep : RemoveLazyDeleted w2 with
        | none => simp [hloop, hsweep] at h
        | some w3 =>
          simp [hloop, hsweep] at h
          rw [← h]
          exact ⟨rfl, (RemoveLazyDeleted_spec hsweep).1⟩

/-- C7. In every state that the program can reach from a newly constructed
delegate by calls of `Add`, `Remove`, `RemoveById`, `Clear`, `GetNumDelegates`
and `operator()`, made by the owner or by user functions in the middle of a pass,
the pending list is empty whenever the delegate is idle. -/
theorem C7_idle_implies_nothing_pending {Args : Type} (env : Env Args) (w : World Args)
    (h : Reachable env w) (hi : w.d.mIsRunning = false) : w.d.mToRemove = [] := by
  induction h with
  | fresh c => rfl
  | @call w w1 o r fuel _ he ih =>
    rcases Op.exec_cases he with h1 | ⟨x, _, _, _, _, h1⟩ | ⟨k, x, _, _, _, h1⟩ | ⟨_, h1⟩ |
      ⟨a, _, h1⟩
    · subst h1; exact ih hi
    · subst h1; exact ih hi
    · by_cases hr : w.d.mIsRunning = true
      · rw [if_pos hr] at h1
        subst h1
        simp [World.deferRemove, hr] at hi
      · rw [if_neg hr] at h1
        subst h1
        exact ih hi
    · subst h1; rfl
    · rcases operatorCall_result h1 with ⟨_, h2⟩ | ⟨_, h2⟩
      · subst h2; exact ih hi
      · exact h2
  | enter _ _ _ => simp [World.enter] at hi
  | turn e _ ih => exact ih hi

/-- C7 at the state after a pass in which a slot removed itself. -/
theorem C7_witness :
    Reachable selfRemover afterSelfRemoval ∧ afterSelfRemoval.d.mIsRunning = false ∧
      afterSelfRemoval.d.mToRemove = [] :=
  have hreach : Reachable selfRemover afterSelfRemoval :=
    Reachable.call (Op.invoke 7) Ret.unit 1
      (Reachable.call (Op.addLambda 1) (Ret.id 0) 0 (Reachable.fresh 0) rfl) rfl
  ⟨hreach, rfl, C7_idle_implies_nothing_pending selfRemover afterSelfRemoval hreach rfl⟩

/-! ### C9: `RemoveById` when idle -/

/-- In a list with pairwise distinct ids, two indices that hold the same id are equal. -/
theorem index_eq_of_id_eq {ws : List Wrapper} (hn : (ws.map Wrapper.id).Nodup) {j k : Nat}
    {x y : Wrapper} (hj : ws[j]? = some x) (hk : ws[k]? = some y) (hid : x.id = y.id) :
    j = k := by
  have hjlt : j < (ws.map Wrapper.id).length := by
    simpa using (List.getElem?_eq_some.mp hj).1
  have h1 : (ws.map Wrapper.id)[j]? = some x.id := by simp [hj]
  have h2 : (ws.map Wrapper.id)[k]? = some y.id := by simp [hk]
  exact List.getElem?_inj hjlt hn (by rw [h1, h2, hid])

/-- C9, amended. On an idle delegate whose slots have pairwise distinct ids (as
they are until the counter wraps), `RemoveById`
with the id of a slot, of whatever kind, returns `true` and erases that slot
and no other: the list is the old one without the element at that index, and
pending list, flag and counter are unchanged. -/
theorem C9_removeById_when_idle_erases_that_slot {Args : Type} (w : World Args)
    (hi : w.d.mIsRunning = false) (hn : (w.d.mWrappers.map Wrapper.id).Nodup)
    (k : Nat) (x : Wrapper) (hk : w.d.mWrappers[k]? = some x) :
    ∃ w1 : World Args, RemoveById x.id w = some (true, w1) ∧
      w1.d.mWrappers = w.d.mWrappers.eraseIdx k ∧
      (∀ j : Nat, j < k → w1.d.mWrappers[j]? = w.d.mWrappers[j]?) ∧
      (∀ j : Nat, k ≤ j → w1.d.mWrappers[j]? = w.d.mWrappers[j + 1]?) ∧
      w1.d.mWrappers.length + 1 = w.d.mWrappers.length ∧
      w1.d.mToRemove = w.d.mToRemove ∧ w1.d.mIsRunning = false ∧
      w1.wrapperCounter = w.wrapperCounter := by
  rw [RemoveById_eq]
  rcases RemoveIndex_findLoop (fun y => y.id == x.id) w with ⟨_, _, hnone⟩ |
    ⟨k1, y, hk1, hp, _, _, hrem⟩
  · have := hnone x (List.getElem?_mem hk)
    simp at this
  · have hr : ¬ w.d.mIsRunning = true := by simp [hi]
    rw [if_neg hr] at hrem
    have hid : y.id = x.id := by simpa using hp
    have hkk : k1 = k := index_eq_of_id_eq hn hk1 hk hid
    subst hkk
    have hklt : k1 < w.d.mWrappers.length := (List.getElem?_eq_some.mp hk).1
    refine ⟨_, hrem, rfl, ?_, ?_, ?_, rfl, hi, rfl⟩
    · intro j hj
      simp [World.eraseNow, List.getElem?_eraseIdx, hj]
    · intro j hj
      have : ¬ j < k1 := by omega
      simp [World.eraseNow, List.getElem?_eraseIdx, this]
    · simp only [World.eraseNow, List.length_eraseIdx, hklt, if_true]
      omega

/-- C9 at the middle one of three slots of three kinds. -/
theorem C9_witness :
    ∃ w1 : World Nat,
      RemoveById (WrapperMethod 1 3 4).id
          (addAll [AddCall.func 10, AddCall.method 3 4, AddCall.lambda 5] (World.fresh Nat 0))
        = some (true, w1) ∧
      w1.d.mWrappers = (addAll [AddCall.func 10, AddCall.method 3 4, AddCall.lambda 5]
        (World.fresh Nat 0)).d.mWrappers.eraseIdx 1 ∧
      (∀ j : Nat, j < 1 → w1.d.mWrappers[j]? =
        (addAll [AddCall.func 10, AddCall.method 3 4, AddCall.lambda 5]
          (World.fresh Nat 0)).d.mWrappers[j]?) ∧
      (∀ j : Nat, 1 ≤ j → w1.d.mWrappers[j]? =
        (addAll [AddCall.func 10, AddCall.method 3 4, AddCall.lambda 5]
          (World.fresh Nat 0)).d.mWrappers[j + 1]?) ∧
      w1.d.mWrappers.length + 1 =
        (addAll [AddCall.func 10, AddCall.method 3 4, AddCall.lambda 5]
          (World.fresh Nat 0)).d.mWrappers.length ∧
      w1.d.mToRemove = (addAll [AddCall.func 10, AddCall.method 3 4, AddCall.lambda 5]
        (World.fresh Nat 0)).d.mToRemove ∧
      w1.d.mIsRunning = false ∧
      w1.wrapperCounter = (addAll [AddCall.func 10, AddCall.method 3 4, AddCall.lambda 5]
        (World.fresh Nat 0)).wrapperCounter :=
  C9_removeById_when_idle_erases_that_slot
    (addAll [AddCall.func 10, AddCall.method 3 4, AddCall.lambda 5] (World.fresh Nat 0))
    rfl (by decide) 1 (WrapperMethod 1 3 4) rfl

/-! ### C2: a slot fires unless removed before its turn -/

theorem turns_dispatch {Args : Type} (T : List (Event Args)) (i id : Nat) (t : Option Callee)
    (a : Args) : turns (T ++ [Event.dispatch i id t a]) = turns T ++ [i] := by
  simp [turns, List.filterMap_append]

theorem turns_remove {Args : Type} (T : List (Event Args)) (k id : Nat) :
    turns (T ++ [Event.remove k id]) = turns T := by
  simp [turns, List.filterMap_append]

/-- In the log of a pass the slots have their turns in the order of the list. -/
theorem PassLog.turns_eq {Args : Type} {ws0 : List Wrapper} {a : Args} {T : List (Event Args)}
    {i : Nat} (h : PassLog ws0 a T i) : turns T = List.range i := by
  induction h with
  | start => rfl
  | @turn T i x0 _ _ ih => rw [turns_dispatch, ih, List.range_succ]
  | @removal T i k id _ ih => rw [turns_remove, ih]

theorem snoc_eq_append_cons {α : Type} {T pre post : List α} {e d : α}
    (h : T ++ [e] = pre ++ d :: post) :
    (post = [] ∧ T = pre ∧ e = d) ∨ ∃ post1, post = post1 ++ [e] ∧ T = pre ++ d :: post1 := by
  rcases List.eq_nil_or_concat post with rfl | ⟨post1, z, rfl⟩
  · left
    have := List.append_inj' h rfl
    exact ⟨rfl, this.1, by simpa using this.2⟩
  · right
    rw [List.concat_eq_append] at h ⊢
    have h2 : T ++ [e] = (pre ++ d :: post1) ++ [z] := by simpa using h
    have := List.append_inj' h2 rfl
    have hz : e = z := by simpa using this.2
    exact ⟨post1, by rw [hz], this.1⟩

/-- In the log of a pass, the slot whose turn it is calls its target exactly
when no removal of its index was logged before; the turn is logged with the id
of the slot and the argument of the pass. -/
theorem PassLog.turn_spec {Args : Type} {ws0 : List Wrapper} {a : Args}
    {T : List (Event Args)} {n : Nat} (h : PassLog ws0 a T n) :
    ∀ (pre post : List (Event Args)) (i id : Nat) (tgt : Option Callee) (b : Args),
      T = pre ++ Event.dispatch i id tgt b :: post →
      b = a ∧ ∃ x0 : Wrapper, ws0[i]? = some x0 ∧ id = x0.id ∧
        tgt = if i ∈ removedIdx pre then none else some x0.target := by
  induction h with
  | start =>
    intro pre post i id tgt b hT
    simp at hT
  | @turn T j x0 _ hx ih =>
    intro pre post i id tgt b hT
    rcases snoc_eq_append_cons hT with ⟨_, hpre, he⟩ | ⟨post1, _, hT1⟩
    · injection he with h1 h2 h3 h4
      subst hpre
      exact ⟨h4.symm, x0, by rw [← h1]; exact hx, h2.symm, by rw [← h3, ← h1]⟩
    · exact ih pre post1 i id tgt b hT1
  | @removal T j k id1 _ ih =>
    intro pre post i id tgt b hT
    rcases snoc_eq_append_cons hT with ⟨_, _, he⟩ | ⟨post1, _, hT1⟩
    · cases he
    · exact ih pre post1 i id tgt b hT1

/-- `RemoveById` with the id of a slot of the list returns `true`. -/
theorem RemoveById_true {Args : Type} (w : World Args) {x : Wrapper} (hx : x ∈ w.d.mWrappers) :
    ∃ w1 : World Args, RemoveById x.id w = some (true, w1) := by
  rw [RemoveById_eq]
  rcases RemoveIndex_findLoop (fun y => y.id == x.id) w with ⟨_, _, hnone⟩ |
    ⟨k1, y, _, _, _, _, hrem⟩
  · have := hnone x hx
    simp at this
  · exact ⟨_, hrem⟩

/-- `Remove(func)` with the function in the cell of a slot of the list returns `true`. -/
theorem RemoveFunc_true {Args : Type} (w : World Args) {x : Wrapper} (hx : x ∈ w.d.mWrappers) :
    ∃ w1 : World Args, RemoveFunc x.func w = some (true, w1) := by
  unfold RemoveFunc FindFunc
  rcases RemoveIndex_findLoop (fun y => y.func == x.func) w with ⟨_, _, hnone⟩ |
    ⟨k1, y, _, _, _, _, hrem⟩
  · have := hnone x hx
    simp at this
  · exact ⟨_, hrem⟩

/-- `Remove(object, method)` with the object and the method of a slot of the list
returns `true`. -/
theorem RemoveMethod_true {Args : Type} (w : World Args) {x : Wrapper}
    (hx : x ∈ w.d.mWrappers) :
    ∃ w1 : World Args, RemoveMethod x.object x.method w = some (true, w1) := by
  unfold RemoveMethod FindMethod
  rcases RemoveIndex_findLoop (fun y => y.object == x.object && y.method == x.method) w with
    ⟨_, _, hnone⟩ | ⟨k1, y, _, _, _, _, hrem⟩
  · have := hnone x hx
    simp at this
  · exact ⟨_, hrem⟩

/-- The erasing loop succeeds on strictly descending indices within the bounds. -/
theorem eraseLoop_isSome :
    ∀ (L : List Nat) (ws : List Wrapper), L.Pairwise (· > ·) → (∀ j ∈ L, j < ws.length) →
      (eraseLoop L ws).isSome
  | [], _, _, _ => rfl
  | i :: L, ws, hs, hb => by
    obtain ⟨hhead, htail⟩ := List.pairwise_cons.mp hs
    have hi : i < ws.length := hb i (by simp)
    simp only [eraseLoop, hi, if_true]
    apply eraseLoop_isSome L _ htail
    intro j hj
    have h1 := hhead j hj
    simp only [List.length_eraseIdx, hi, if_true]
    omega

/-- The sweep succeeds when the pending indices are pairwise distinct and within
the bounds of the list. -/
theorem RemoveLazyDeleted_isSome {Args : Type} (w : World Args) (hn : w.d.mToRemove.Nodup)
    (hb : ∀ j ∈ w.d.mToRemove, j < w.d.mWrappers.length) :
    ∃ w3 : World Args, RemoveLazyDeleted w = some w3 := by
  have hnd : ((w.d.mToRemove.insertionSort (· ≤ ·)).reverse).Nodup := by
    rw [List.nodup_reverse]
    exact (List.perm_insertionSort (· ≤ ·) w.d.mToRemove).nodup_iff.mpr hn
  have hs : ((w.d.mToRemove.insertionSort (· ≤ ·)).reverse).Pairwise (· > ·) := by
    have := (sortedDesc_pending w.d.mToRemove).and hnd
    refine this.imp ?_
    intro x y hxy
    have h1 : x ≥ y := hxy.1
    have h2 : x ≠ y := hxy.2
    omega
  have hsome := eraseLoop_isSome _ w.d.mWrappers hs (by
    intro j hj
    rw [List.mem_reverse, List.mem_insertionSort] at hj
    exact hb j hj)
  obtain ⟨ws, hws⟩ := Option.isSome_iff_exists.mp hsome
  exact ⟨{ w with d := { w.d with mWrappers := ws, mToRemove := [] } },
    by simp [RemoveLazyDeleted, hws]⟩

/-! ### C6: slots added during a pass -/

/-- The erasing loop, run on strictly descending indices, keeps every element
whose index is not one of them. -/
theorem eraseLoop_keeps :
    ∀ (L : List Nat) (ws ws1 : List Wrapper), L.Pairwise (· > ·) → eraseLoop L ws = some ws1 →
      ∀ (j : Nat) (x : Wrapper), j ∉ L → ws[j]? = some x → x ∈ ws1
  | [], ws, ws1, _, h => by
    simp [eraseLoop] at h; subst h
    intro j x _ hx
    exact List.getElem?_mem hx
  | i :: L, ws, ws1, hs, h => by
    simp only [eraseLoop] at h
    split at h
    · obtain ⟨hhead, htail⟩ := List.pairwise_cons.mp hs
      intro j x hj hx
      have hji : j ≠ i := fun e => hj (by simp [e])
      have hjL : j ∉ L := fun hm => hj (by simp [hm])
      by_cases hlt : j < i
      · refine eraseLoop_keeps L _ ws1 htail h j x hjL ?_
        rw [List.getElem?_eraseIdx, if_pos hlt]; exact hx
      · have hgt : i < j := by omega
        refine eraseLoop_keeps L _ ws1 htail h (j - 1) x ?_ ?_
        · intro hm
          have := hhead (j - 1) hm
          omega
        · rw [List.getElem?_eraseIdx, if_neg (by omega)]
          have : j - 1 + 1 = j := by omega
          rw [this]; exact hx
    · simp at h

/-- The sweep keeps every slot whose index is not pending, when the pending
indices are pairwise distinct. -/
theorem RemoveLazyDeleted_keeps {Args : Type} {w w3 : World Args} (hn : w.d.mToRemove.Nodup)
    (h : RemoveLazyDeleted w = some w3) (j : Nat) (x : Wrapper) (hj : j ∉ w.d.mToRemove)
    (hx : w.d.mWrappers[j]? = some x) : x ∈ w3.d.mWrappers := by
  have hnd : ((w.d.mToRemove.insertionSort (· ≤ ·)).reverse).Nodup := by
    rw [List.nodup_reverse]
    exact (List.perm_insertionSort (· ≤ ·) w.d.mToRemove).nodup_iff.mpr hn
  have hs : ((w.d.mToRemove.insertionSort (· ≤ ·)).reverse).Pairwise (· > ·) := by
    have := (sortedDesc_pending w.d.mToRemove).and hnd
    refine this.imp ?_
    intro x y hxy
    have h1 : x ≥ y := hxy.1
    have h2 : x ≠ y := hxy.2
    omega
  unfold RemoveLazyDeleted at h
  simp only at h
  split at h
  · simp at h
  · rename_i ws hws
    have hw3 : w3 = { w with d := { w.d with mWrappers := ws, mToRemove := [] } } := by
      simpa using h.symm
    subst hw3
    refine eraseLoop_keeps _ _ _ hs hws j x ?_ hx
    rw [List.mem_reverse, List.mem_insertionSort]
    exact hj

/-- In the log of a pass every slot of the list has its turn. -/
theorem PassLog.has_turn {Args : Type} {ws0 : List Wrapper} {a : Args}
    {T : List (Event Args)} {n : Nat} (h : PassLog ws0 a T n) :
    ∀ j : Nat, j < n → ∃ (pre post : List (Event Args)) (x0 : Wrapper), ws0[j]? = some x0 ∧
      T = pre ++ Event.dispatch j x0.id
        (if j ∈ removedIdx pre then none else some x0.target) a :: post := by
  induction h with
  | start => intro j hj; omega
  | @turn T i x0 _ hx ih =>
    intro j hj
    by_cases hji : j = i
    · subst hji
      exact ⟨T, [], x0, hx, rfl⟩
    · obtain ⟨pre, post, y0, hy, hT⟩ := ih j (by omega)
      refine ⟨pre, post ++
        [Event.dispatch i x0.id (if i ∈ removedIdx T then none else some x0.target) a],
        y0, hy, ?_⟩
      have := congrArg (fun l => l ++
        [Event.dispatch i x0.id (if i ∈ removedIdx T then none else some x0.target) a]) hT
      simpa using this
  | @removal T i k id _ ih =>
    intro j hj
    obtain ⟨pre, post, y0, hy, hT⟩ := ih j hj
    refine ⟨pre, post ++ [Event.remove k id], y0, hy, ?_⟩
    have := congrArg (fun l => l ++ [Event.remove k id]) hT
    simpa using this

/-- A pass on an idle delegate, with user functions that may add and remove
as they like but do not call `Clear`. An accepted `Add` made while the delegate
is running appends the slot and returns its id. The loop of the pass ends
and gives a turn to the slots that were in the list at the start and to no
other: a slot added during the pass, whose index is not below the length at
the start, has no turn. When no index was removed twice in the pass, the pass
returns, a slot added during it whose removal was not asked for is in the
list afterwards, and the loop of the next pass ends and gives every slot of
that list its turn, in which the slot calls its target unless it was removed
before. -/
theorem added_slot_waits_for_next_pass {Args : Type} (env : Env Args)
    (henv : ∀ c b, (env c b).NoClear) (fuel : Nat) (a : Args) (w0 : World Args)
    (h0 : IdleOk w0) :
    (∀ (w : World Args) (c : AddCall), w.d.mIsRunning = true → c.ok →
      ∃ x : Wrapper, x.target = c.callee ∧ x.isEnabled = true ∧
        (c.run w).1 = x.id ∧ (c.run w).2.d.mWrappers = w.d.mWrappers ++ [x] ∧
        (c.run w).2.d.mToRemove = w.d.mToRemove ∧ (c.run w).2.d.mIsRunning = true) ∧
    ∃ (w2 : World Args) (T : List (Event Args)),
      passLoop (operatorCall env fuel) env a w0.d.mWrappers.length 0 w0.enter = some w2 ∧
      w2.trace = w0.trace ++ T ∧
      turns T = List.range w0.d.mWrappers.length ∧
      (∀ j : Nat, w0.d.mWrappers.length ≤ j → j ∉ turns T) ∧
      ((removedIdx T).Nodup →
        ∃ w3 : World Args, operatorCall env (fuel + 1) a w0 = some w3 ∧ IdleOk w3 ∧
          (∀ (j : Nat) (x : Wrapper), w0.d.mWrappers.length ≤ j → w2.d.mWrappers[j]? = some x →
            j ∉ removedIdx T → x ∈ w3.d.mWrappers ∧ x.Live) ∧
          ∀ b : Args, ∃ (w4 : World Args) (T1 : List (Event Args)),
            passLoop (operatorCall env fuel) env b w3.d.mWrappers.length 0 w3.enter = some w4 ∧
            w4.trace = w3.trace ++ T1 ∧
            ∀ (j : Nat) (x : Wrapper), w3.d.mWrappers[j]? = some x →
              ∃ pre post : List (Event Args),
                T1 = pre ++ Event.dispatch j x.id
                  (if j ∈ removedIdx pre then none else some x.target) b :: post) := by
  refine ⟨?_, ?_⟩
  · intro w c hr hc
    obtain ⟨x, hx, ht, _, hrun⟩ := AddCall.run_ok c hc w
    refine ⟨x, ht, hx.1, ?_, ?_, ?_, ?_⟩ <;> rw [hrun]
    · rfl
    · rfl
    · exact hr
  · obtain ⟨w2, T, hrun, h2, hlog, _, _⟩ := pass_loop env fuel a h0 henv
    refine ⟨w2, T, hrun, by rw [h2.trace_eq]; rfl, hlog.turns_eq, ?_, ?_⟩
    · intro j hj hm
      rw [hlog.turns_eq, List.mem_range] at hm
      omega
    · intro hn
      have hn2 : w2.d.mToRemove.Nodup := by rw [h2.pending_eq]; exact hn
      obtain ⟨w3, h3⟩ := RemoveLazyDeleted_isSome w2 hn2 h2.pending_lt
      have hidle : IdleOk w3.leave := @sweep_live Args w0.enter w2 w3 T h0.2.2 h2 h3
      refine ⟨w3.leave, ?_, hidle, ?_, ?_⟩
      · rw [operatorCall_idle env fuel a w0 h0.1, hrun]
        simp [Option.bind, h3]
      · intro j x hj hx hnot
        have hnot2 : j ∉ w2.d.mToRemove := by rw [h2.pending_eq]; exact hnot
        refine ⟨RemoveLazyDeleted_keeps hn2 h3 j x hnot2 hx, ?_⟩
        have := h2.added j x hj hx
        rw [if_neg hnot2] at this
        exact this
      · intro b
        obtain ⟨w4, T1, hrun1, h4, hlog1, _, _⟩ := pass_loop env fuel b hidle henv
        refine ⟨w4, T1, hrun1, by rw [h4.trace_eq]; rfl, ?_⟩
        intro j x hx
        have hlt : j < w3.leave.d.mWrappers.length := (List.getElem?_eq_some.mp hx).1
        obtain ⟨pre, post, x0, hx0, hT⟩ := hlog1.has_turn j hlt
        have : x0 = x := by
          have h5 : w3.leave.d.mWrappers[j]? = some x := hx
          rw [hx0] at h5
          simpa using h5
        subst this
        exact ⟨pre, post, hT⟩

theorem adder_noClear (c : Callee) (b : Nat) : (adder c b).NoClear := by
  unfold adder
  split
  · exact ⟨rfl, fun _ => trivial⟩
  · trivial

theorem oneClosure_idleOk : IdleOk oneClosure := by
  refine ⟨rfl, rfl, ?_⟩
  intro x hx
  have : x = WrapperLambda 0 1 := by
    simpa [oneClosure, AddLambda, World.emplace, World.fresh] using hx
  rw [this]; exact WrapperLambda_live 0 1

/-- The same at a delegate whose only slot, a closure, adds a function when called. -/
theorem added_slot_waits_at_oneClosure :
    ∃ (w2 : World Nat) (T : List (Event Nat)),
      passLoop (operatorCall adder 0) adder 7 oneClosure.d.mWrappers.length 0 oneClosure.enter
        = some w2 ∧
      w2.trace = oneClosure.trace ++ T ∧
      turns T = List.range oneClosure.d.mWrappers.length ∧
      (∀ j : Nat, oneClosure.d.mWrappers.length ≤ j → j ∉ turns T) ∧
      ((removedIdx T).Nodup →
        ∃ w3 : World Nat, operatorCall adder 1 7 oneClosure = some w3 ∧ IdleOk w3 ∧
          (∀ (j : Nat) (x : Wrapper), oneClosure.d.mWrappers.length ≤ j →
            w2.d.mWrappers[j]? = some x → j ∉ removedIdx T → x ∈ w3.d.mWrappers ∧ x.Live) ∧
          ∀ b : Nat, ∃ (w4 : World Nat) (T1 : List (Event Nat)),
            passLoop (operatorCall adder 0) adder b w3.d.mWrappers.length 0 w3.enter = some w4 ∧
            w4.trace = w3.trace ++ T1 ∧
            ∀ (j : Nat) (x : Wrapper), w3.d.mWrappers[j]? = some x →
              ∃ pre post : List (Event Nat),
                T1 = pre ++ Event.dispatch j x.id
                  (if j ∈ removedIdx pre then none else some x.target) b :: post) :=
  (added_slot_waits_for_next_pass adder adder_noClear 0 7 oneClosure
    oneClosure_idleOk).2

/-! ### C5 and C8: the same index pending twice -/

/-- C5 fails on the code. The delegate holds the closure 1 (id 0), the function
10 (id 1) and the function 11 (id 2), and the closure calls `RemoveById(1)`
twice. Both calls return `true` and index 1 is pending twice, so the sweep
erases index 1 twice: after the pass the list holds the closure alone. The
slot of the function 11, whose removal nobody asked for and which was called
in this very pass, is gone. With one slot that calls `RemoveById` on itself
twice, the second erase is out of the bounds of the vector. -/
theorem C5_double_removal_erases_a_slot_nobody_removed :
    operatorCall doubleRemover 1 7 threeSlots =
      some { wrapperCounter := 3,
             d := { mWrappers := [WrapperLambda 0 1], mToRemove := [], mIsRunning := false },
             trace := [Event.dispatch 0 0 (some (Callee.lambda 1)) 7, Event.remove 1 1,
               Event.remove 1 1, Event.dispatch 1 1 none 7,
               Event.dispatch 2 2 (some (Callee.func 11)) 7] } ∧
    operatorCall doubleSelfRemover 1 7 oneClosure = none := by
  constructor <;> rfl

/-- C8 fails on the code. In the middle of the pass of C5, after the closure
has called `RemoveById(1)` twice, the list has three slots of which two are
enabled, and `GetNumDelegates` returns 1. With one slot that calls `RemoveById`
on itself twice no slot is enabled and `GetNumDelegates` returns `2 ^ 64 - 1`.
Both states are reachable. -/
theorem C8_count_differs_from_enabled_slots :
    (∃ w : World Nat,
      runProg (operatorCall doubleRemover 0) (doubleRemover (Callee.lambda 1) 7)
        threeSlots.enter = some (Outcome.returned, w) ∧
      Reachable doubleRemover w ∧ GetNumDelegates w = 1 ∧ enabledCount w = 2) ∧
    (∃ w : World Nat,
      runProg (operatorCall doubleSelfRemover 0) (doubleSelfRemover (Callee.lambda 1) 7)
        oneClosure.enter = some (Outcome.returned, w) ∧
      Reachable doubleSelfRemover w ∧ GetNumDelegates w = 2 ^ 64 - 1 ∧ enabledCount w = 0) := by
  constructor
  · refine ⟨_, rfl, ?_, by decide, by decide⟩
    refine Reachable.call (Op.removeById 1) (Ret.found true) 0
      (Reachable.call (Op.removeById 1) (Ret.found true) 0
        (Reachable.enter
          (Reachable.call (Op.addFunc 11) (Ret.id 2) 0
            (Reachable.call (Op.addFunc 10) (Ret.id 1) 0
              (Reachable.call (Op.addLambda 1) (Ret.id 0) 0 (Reachable.fresh 0) rfl) rfl) rfl)
          rfl) rfl) rfl
  · refine ⟨_, rfl, ?_, by decide, by decide⟩
    refine Reachable.call (Op.removeById 0) (Ret.found true) 0
      (Reachable.call (Op.removeById 0) (Ret.found true) 0
        (Reachable.enter
          (Reachable.call (Op.addLambda 1) (Ret.id 0) 0 (Reachable.fresh 0) rfl)
          rfl) rfl) rfl

/-! ### C10: the same function added twice -/

/-- In the log of a pass in which every slot calls its target, a user function is
called once for each slot that holds it. -/
theorem calls_dispatchFrom {Args : Type} (c : Callee) (a : Args) :
    ∀ (ws : List Wrapper) (i : Nat),
      calls c (dispatchFrom a i ws) = ws.countP (fun x => x.target == c)
  | [], _ => rfl
  | x :: xs, i => by
    have ih := calls_dispatchFrom c a xs (i + 1)
    unfold calls at ih ⊢
    simp only [dispatchFrom, List.countP_cons, ih]

theorem countP_eraseIdx_of_pos {α : Type} (p : α → Bool) :
    ∀ (l : List α) (k : Nat) (x : α), l[k]? = some x → p x = true →
      (l.eraseIdx k).countP p + 1 = l.countP p
  | [], k, x, h, _ => by simp at h
  | y :: ys, 0, x, h, hp => by
    have : y = x := by simpa using h
    subst this
    simp [List.countP_cons, hp]
  | y :: ys, k + 1, x, h, hp => by
    have ih := countP_eraseIdx_of_pos p ys k x (by simpa using h) hp
    simp only [List.eraseIdx_cons_succ, List.countP_cons]
    omega

/-- An immediate removal on an idle delegate leaves it as the interface should. -/
theorem IdleOk.of_eraseNow {Args : Type} {w : World Args} (h : IdleOk w) (k : Nat)
    (x : Wrapper) : IdleOk (w.eraseNow k x) := by
  obtain ⟨h1, h2, h3⟩ := h
  refine ⟨h1, h2, ?_⟩
  intro y hy
  exact h3 y ((List.eraseIdx_sublist _ _).subset hy)

/-- C10. On an idle delegate whose user functions neither add nor remove, with
a function `f` that is not null and that no slot of another kind holds in its
pointer cell: two calls `Add(f)` return different ids and append two slots
that hold `f`; one call of `operator()` then returns, leaves the list as it
is, and calls `f` twice more than the slots that were there before do;
`Remove(f)` then returns `true` and erases one slot, the first of the list that
holds `f`, and no other; and the next call of `operator()` returns and calls `f`
once less. -/
theorem C10_add_twice_remove_once {Args : Type} (env : Env Args)
    (henv : ∀ c x, (env c x).Inert) (fuel : Nat) (a b : Args) (w : World Args) (h0 : IdleOk w)
    (f : Nat) (hf : f ≠ 0)
    (hcell : ∀ x ∈ w.d.mWrappers, x.func = f → x.type = WrapperType.Function) :
    (AddFunc f w).1 ≠ (AddFunc f (AddFunc f w).2).1 ∧
    (AddFunc f (AddFunc f w).2).2.d.mWrappers =
      w.d.mWrappers ++ [WrapperCFunc (AddFunc f w).1 f,
        WrapperCFunc (AddFunc f (AddFunc f w).2).1 f] ∧
    ∃ w3 : World Args,
      operatorCall env (fuel + 1) a (AddFunc f (AddFunc f w).2).2 = some w3 ∧
      w3.d = (AddFunc f (AddFunc f w).2).2.d ∧
      w3.trace = (AddFunc f (AddFunc f w).2).2.trace ++ dispatchFrom a 0 w3.d.mWrappers ∧
      calls (Callee.func f) (dispatchFrom a 0 w3.d.mWrappers) =
        calls (Callee.func f) (dispatchFrom a 0 w.d.mWrappers) + 2 ∧
      ∃ (k : Nat) (x : Wrapper) (w4 : World Args),
        RemoveFunc f w3 = some (true, w4) ∧
        w3.d.mWrappers[k]? = some x ∧ x.func = f ∧
        (∀ (j : Nat) (y : Wrapper), j < k → w3.d.mWrappers[j]? = some y → y.func ≠ f) ∧
        w4.d.mWrappers = w3.d.mWrappers.eraseIdx k ∧
        w4.d.mToRemove = [] ∧ w4.d.mIsRunning = false ∧
        ∃ w5 : World Args,
          operatorCall env (fuel + 1) b w4 = some w5 ∧
          w5.trace = w4.trace ++ dispatchFrom b 0 w4.d.mWrappers ∧
          calls (Callee.func f) (dispatchFrom b 0 w4.d.mWrappers) + 1 =
            calls (Callee.func f) (dispatchFrom a 0 w3.d.mWrappers) := by
  have hA1 : AddFunc f w = (w.wrapperCounter, w.emplace (WrapperCFunc w.wrapperCounter f)) := by
    simp [AddFunc, hf, WrapperCFunc]
  have hA2 : AddFunc f (w.emplace (WrapperCFunc w.wrapperCounter f)) =
      ((w.wrapperCounter + 1) % SIZE_MOD,
        (w.emplace (WrapperCFunc w.wrapperCounter f)).emplace
          (WrapperCFunc ((w.wrapperCounter + 1) % SIZE_MOD) f)) := by
    simp [AddFunc, hf, WrapperCFunc, World.emplace]
  rw [hA1]
  simp only
  rw [hA2]
  simp only
  have hidle2 : IdleOk ((w.emplace (WrapperCFunc w.wrapperCounter f)).emplace
      (WrapperCFunc ((w.wrapperCounter + 1) % SIZE_MOD) f)) :=
    (h0.of_emplace (WrapperCFunc_live _ _ hf)).of_emplace (WrapperCFunc_live _ _ hf)
  refine ⟨?_, by simp [World.emplace], ?_⟩
  · unfold SIZE_MOD
    omega
  · obtain ⟨w3, added, hcall, hidle3, hws, htrace, hadd⟩ :=
      pass_noRemoval env fuel a hidle2 (fun c x => (henv c x).noRemoval)
    have hws3 : w3.d.mWrappers = w.d.mWrappers ++ [WrapperCFunc w.wrapperCounter f,
        WrapperCFunc ((w.wrapperCounter + 1) % SIZE_MOD) f] := by
      rw [hws, (hadd henv).1]; simp [World.emplace]
    have hd3 := Delegate.eq_of_idleOk hidle2 hidle3 (by rw [hws, (hadd henv).1, List.append_nil])
    have htype : ∀ y ∈ w3.d.mWrappers, y.func = f → y.target = Callee.func f := by
      intro y hy hyf
      have hlive := hidle3.2.2 y hy
      have hty : y.type = WrapperType.Function := by
        rw [hws3] at hy
        rcases List.mem_append.mp hy with hy | hy
        · exact hcell y hy hyf
        · simp only [List.mem_cons, List.mem_singleton, List.not_mem_nil, or_false] at hy
          rcases hy with rfl | rfl <;> rfl
      simp [Wrapper.target, hty, hyf]
    refine ⟨w3, hcall, hd3, ?_, ?_, ?_⟩
    · rw [htrace, hd3]
    · rw [calls_dispatchFrom, calls_dispatchFrom, hws3, List.countP_append]
      simp [List.countP_cons, Wrapper.target, WrapperCFunc]
    · unfold RemoveFunc FindFunc
      rcases RemoveIndex_findLoop (fun x => x.func == f) w3 with ⟨_, _, hnone⟩ |
        ⟨k, x, hk, hp, hlt, _, hrem⟩
      · have := hnone (WrapperCFunc w.wrapperCounter f) (by rw [hws3]; simp)
        simp [WrapperCFunc] at this
      · have hr : ¬ w3.d.mIsRunning = true := by simp [hidle3.1]
        rw [if_neg hr] at hrem
        have hxf : x.func = f := by simpa using hp
        have hidle4 : IdleOk (w3.eraseNow k x) := hidle3.of_eraseNow k x
        refine ⟨k, x, _, hrem, hk, hxf, ?_, rfl, hidle4.2.1, hidle4.1, ?_⟩
        · intro j y hj hy
          simpa using hlt j y hj hy
        · obtain ⟨w5, added5, hcall5, _, _, htrace5, _⟩ :=
            pass_noRemoval env fuel b hidle4 (fun c x => (henv c x).noRemoval)
          refine ⟨w5, hcall5, htrace5, ?_⟩
          rw [calls_dispatchFrom, calls_dispatchFrom]
          exact countP_eraseIdx_of_pos _ _ k x hk
            (by simp [htype x (List.getElem?_mem hk) hxf])

/-- C10 at a newly constructed delegate and the function 10. -/
theorem C10_witness :
    (AddFunc 10 (World.fresh Nat 0)).1 ≠ (AddFunc 10 (AddFunc 10 (World.fresh Nat 0)).2).1 ∧
    ∃ w3 : World Nat,
      operatorCall (fun _ _ => Prog.ret) 1 7 (AddFunc 10 (AddFunc 10 (World.fresh Nat 0)).2).2
        = some w3 ∧
      calls (Callee.func 10) (dispatchFrom 7 0 w3.d.mWrappers) =
        calls (Callee.func 10) (dispatchFrom 7 0 (World.fresh Nat 0).d.mWrappers) + 2 ∧
      ∃ (k : Nat) (x : Wrapper) (w4 : World Nat),
        RemoveFunc 10 w3 = some (true, w4) ∧
        w3.d.mWrappers[k]? = some x ∧ x.func = 10 ∧
        (∀ (j : Nat) (y : Wrapper), j < k → w3.d.mWrappers[j]? = some y → y.func ≠ 10) ∧
        w4.d.mWrappers = w3.d.mWrappers.eraseIdx k ∧
        w4.d.mToRemove = [] ∧ w4.d.mIsRunning = false ∧
        ∃ w5 : World Nat,
          operatorCall (fun _ _ => Prog.ret) 1 8 w4 = some w5 ∧
          w5.trace = w4.trace ++ dispatchFrom 8 0 w4.d.mWrappers ∧
          calls (Callee.func 10) (dispatchFrom 8 0 w4.d.mWrappers) + 1 =
            calls (Callee.func 10) (dispatchFrom 7 0 w3.d.mWrappers) :=
  have h := C10_add_twice_remove_once (fun _ _ => Prog.ret) (fun _ _ => trivial) 0 7 8
    (World.fresh Nat 0) (IdleOk.of_fresh Nat 0) 10 (by decide)
    (by intro x hx; simp [World.fresh] at hx)
  ⟨h.1, h.2.2.imp (fun _ hw3 => ⟨hw3.1, hw3.2.2.2.1, hw3.2.2.2.2⟩)⟩

/-! ### The idle states that can be reached -/

theorem Sound.of_idleOk {Args : Type} {w : World Args} (h : IdleOk w) : Sound w := by
  obtain ⟨_, hp, hl⟩ := h
  refine ⟨by simp [hp], ?_⟩
  intro j x hx
  simp only [hp, List.not_mem_nil, if_false]
  exact hl x (List.getElem?_mem hx)

theorem Sound.idleOk {Args : Type} {w : World Args} (h : Sound w)
    (hi : w.d.mIsRunning = false) (hp : w.d.mToRemove = []) : IdleOk w := by
  refine ⟨hi, hp, ?_⟩
  intro x hx
  obtain ⟨j, hj⟩ := List.mem_iff_getElem?.mp hx
  have := h.2 j x hj
  simpa [hp] using this

theorem Sound.keep_emplace {Args : Type} {w : World Args} (h : Sound w) {x : Wrapper}
    (hx : x.Live) : Sound (w.emplace x) := by
  refine ⟨?_, ?_⟩
  · intro j hj
    have := h.1 j (by simpa [World.emplace] using hj)
    simp [World.emplace]; omega
  · intro j y hy
    simp only [World.emplace] at hy ⊢
    by_cases hlt : j < w.d.mWrappers.length
    · rw [List.getElem?_append_left hlt] at hy
      exact h.2 j y hy
    · have hge : w.d.mWrappers.length ≤ j := by omega
      rw [List.getElem?_append_right hge] at hy
      have hnot : j ∉ w.d.mToRemove := fun hmem => hlt (h.1 j hmem)
      simp only [hnot, if_false]
      have hj0 : j - w.d.mWrappers.length = 0 := by
        by_contra hne
        have : 1 ≤ j - w.d.mWrappers.length := by omega
        rw [List.getElem?_eq_none (by simpa using this)] at hy
        exact absurd hy (by simp)
      rw [hj0] at hy
      simp at hy
      rw [← hy]; exact hx

theorem Sound.keep_deferRemove {Args : Type} {w : World Args} (h : Sound w) {k : Nat}
    {x : Wrapper} (hk : w.d.mWrappers[k]? = some x) : Sound (w.deferRemove k x) := by
  have hklt : k < w.d.mWrappers.length := (List.getElem?_eq_some.mp hk).1
  refine ⟨?_, ?_⟩
  · intro j hj
    simp only [World.deferRemove, List.mem_append, List.mem_singleton] at hj
    simp only [World.deferRemove, List.length_set]
    rcases hj with hj | hj
    · exact h.1 j hj
    · omega
  · intro j y hy
    simp only [World.deferRemove, List.getElem?_set, List.mem_append, List.mem_singleton] at hy ⊢
    by_cases hjk : k = j
    · subst hjk
      simp only [if_true, hklt] at hy
      have : y = x.ToBeRemoved := by simpa using hy.symm
      simp only [or_true, if_true, this]
      exact Wrapper.dead_toBeRemoved x
    · simp only [hjk, if_false] at hy
      have hjk1 : ¬ j = k := fun e => hjk e.symm
      simp only [hjk1, or_false]
      exact h.2 j y hy

theorem Sound.keep_clear {Args : Type} (w : World Args) : Sound (Clear w) :=
  ⟨by simp [Clear], by simp [Clear]⟩

/-- While the delegate is running, a call on the interface keeps the pending
list and the slots in agreement. -/
theorem Sound.keep_exec {Args : Type} {call : Args → World Args → Option (World Args)}
    (hc : NoReentry call) {o : Op Args} {w w1 : World Args} {r : Ret} (h : Sound w)
    (hr : w.d.mIsRunning = true) (he : o.exec call w = some (r, w1)) : Sound w1 := by
  rcases Op.exec_cases he with h1 | ⟨x, hx, _, _, _, h1⟩ | ⟨k, x, hk, _, _, h1⟩ | ⟨_, h1⟩ |
    ⟨a, _, h1⟩
  · rw [h1]; exact h
  · rw [h1]; exact h.keep_emplace hx
  · rw [if_pos hr] at h1; rw [h1]; exact h.keep_deferRemove hk
  · rw [h1]; exact Sound.keep_clear w
  · rw [hc a w hr] at h1
    have : w1 = w := by simpa using h1.symm
    rw [this]; exact h

theorem Sound.keep_runProg {Args : Type} {call : Args → World Args → Option (World Args)}
    (hc : NoReentry call) :
    ∀ (p : Prog Args) (w w1 : World Args) (oc : Outcome), Sound w → w.d.mIsRunning = true →
      runProg call p w = some (oc, w1) → Sound w1
  | .ret, w, w1, oc, hs, _, h => by
    simp [runProg] at h; rw [← h.2]; exact hs
  | .throw, w, w1, oc, hs, _, h => by
    simp [runProg] at h; rw [← h.2]; exact hs
  | .op o k, w, w1, oc, hs, hr, h => by
    simp only [runProg] at h
    split at h
    · simp at h
    · rename_i r w2 he
      exact Sound.keep_runProg hc (k r) w2 w1 oc (hs.keep_exec hc hr he)
        (Op.exec_running hc hr he) h

theorem Sound.keep_passLoop {Args : Type} {call : Args → World Args → Option (World Args)}
    (hc : NoReentry call) (env : Env Args) (a : Args) :
    ∀ (todo i : Nat) (w w1 : World Args), Sound w → w.d.mIsRunning = true →
      passLoop call env a todo i w = some w1 → Sound w1
  | 0, _, w, w1, hs, _, h => by
    simp [passLoop] at h; rw [← h]; exact hs
  | todo + 1, i, w, w1, hs, hr, h => by
    simp only [passLoop] at h
    split at h
    · simp at h
    · rename_i x hx
      split at h
      · exact Sound.keep_passLoop hc env a todo (i + 1) _ w1 (by exact hs) (by exact hr) h
      · rename_i c hcall
        split at h
        · simp at h
        · rename_i oc w2 hrun
          have hs2 := Sound.keep_runProg hc _ _ w2 oc (by exact hs) (by exact hr) hrun
          have hr2 := runProg_running hc _ _ w2 oc (by exact hr) hrun
          exact Sound.keep_passLoop hc env a todo (i + 1) w2 w1 hs2 hr2 h

/-- A pass that returns leaves an idle delegate as the interface should,
whatever the user functions do. -/
theorem operatorCall_idleOk {Args : Type} {env : Env Args} {fuel : Nat} {a : Args}
    {w w1 : World Args} (h0 : IdleOk w) (h : operatorCall env fuel a w = some w1) :
    IdleOk w1 := by
  cases fuel with
  | zero => simp [operatorCall, h0.1] at h
  | succ fuel =>
    rw [operatorCall_idle _ _ _ _ h0.1] at h
    cases hloop : passLoop (operatorCall env fuel) env a w.d.mWrappers.length 0 w.enter with
    | none => simp [hloop] at h
    | some w2 =>
      cases hsweep : RemoveLazyDeleted w2 with
      | none => simp [hloop, hsweep] at h
      | some w3 =>
        simp [hloop, hsweep] at h
        rw [← h]
        have hs : Sound w := Sound.of_idleOk h0
        have hs0 : Sound w.enter := hs
        have hs2 := Sound.keep_passLoop (noReentry_operatorCall env fuel) env a _ 0 w.enter w2
          hs0 rfl hloop
        obtain ⟨hp, _, _, _, _, hsurv⟩ := RemoveLazyDeleted_spec hsweep
        refine ⟨rfl, hp, ?_⟩
        intro x hx
        obtain ⟨j, hj, hget⟩ := hsurv x hx
        have := hs2.2 j x hget
        rw [if_neg hj] at this
        exact this

/-- Every idle state that the program can reach is as the interface should
leave it: nothing is pending and every slot is as `Add` built it. -/
theorem reachable_idleOk {Args : Type} (env : Env Args) (w : World Args)
    (h : Reachable env w) : Sound w ∧ (w.d.mIsRunning = false → IdleOk w) := by
  induction h with
  | fresh c => exact ⟨Sound.of_idleOk (IdleOk.of_fresh Args c), fun _ => IdleOk.of_fresh Args c⟩
  | @call w w1 o r fuel _ he ih =>
    by_cases hr : w.d.mIsRunning = true
    · have hr1 := Op.exec_running (noReentry_operatorCall env fuel) hr he
      exact ⟨ih.1.keep_exec (noReentry_operatorCall env fuel) hr he,
        fun hi => by rw [hr1] at hi; exact absurd hi (by simp)⟩
    · have hi : w.d.mIsRunning = false := by simpa using hr
      have h0 := ih.2 hi
      have h1 : IdleOk w1 := by
        rcases Op.exec_cases he with h1 | ⟨x, hx, _, _, _, h1⟩ | ⟨k, x, hk, _, _, h1⟩ |
          ⟨_, h1⟩ | ⟨a, _, h1⟩
        · rw [h1]; exact h0
        · rw [h1]; exact h0.of_emplace hx
        · rw [if_neg hr] at h1; rw [h1]; exact h0.of_eraseNow k x
        · rw [h1]; exact ⟨h0.1, rfl, by simp [Clear]⟩
        · exact operatorCall_idleOk h0 h1
      exact ⟨Sound.of_idleOk h1, fun _ => h1⟩
  | @enter w _ hi ih =>
    exact ⟨ih.1, fun h => by simp [World.enter] at h⟩
  | @turn w e _ ih =>
    exact ⟨ih.1, fun h => ih.2 h⟩

/-! ### C13 and C20: `Add` of a null pointer, `Clear` -/

/-- C13. In every state, `Add` with a null function, a null object or a null
method (and `Add(nullptr)`) returns `size_t(-1)`, which is `2 ^ 64 - 1`, and
leaves the state as it is: slot list, pending list, flag and counter. -/
theorem C13_add_null_is_rejected {Args : Type} (w : World Args) (object method : Nat) :
    invalidId = 2 ^ 64 - 1 ∧
    AddNullptr w = (invalidId, w) ∧
    AddFunc 0 w = (invalidId, w) ∧
    AddMethod 0 method w = (invalidId, w) ∧
    AddMethod object 0 w = (invalidId, w) ∧
    (Op.addFunc 0).exec (fun _ w1 => some w1) w = some (Ret.id invalidId, w) ∧
    (Op.addMethod 0 method).exec (fun _ w1 => some w1) w = some (Ret.id invalidId, w) ∧
    (Op.addMethod object 0).exec (fun _ w1 => some w1) w = some (Ret.id invalidId, w) := by
  refine ⟨rfl, rfl, ?_, ?_, ?_, ?_, ?_, ?_⟩ <;> simp [AddFunc, AddMethod, Op.exec]

/-- C20. On an idle delegate `Clear` leaves the slot list and the pending list
empty and touches nothing else; `GetNumDelegates` then returns 0, and a call of
`operator()` then returns without any dispatch and changes nothing. -/
theorem C20_clear_empties_the_delegate {Args : Type} (env : Env Args) (fuel : Nat) (a : Args)
    (w : World Args) (hi : w.d.mIsRunning = false) :
    (Clear w).d.mWrappers = [] ∧ (Clear w).d.mToRemove = [] ∧
    (Clear w).d.mIsRunning = false ∧ (Clear w).wrapperCounter = w.wrapperCounter ∧
    (Clear w).trace = w.trace ∧
    GetNumDelegates (Clear w) = 0 ∧
    operatorCall env (fuel + 1) a (Clear w) = some (Clear w) := by
  refine ⟨rfl, rfl, hi, rfl, rfl, ?_, ?_⟩
  · simp [GetNumDelegates, Clear, SIZE_MOD]
  · obtain ⟨c, ⟨ws, P, r⟩, t⟩ := w
    simp only at hi
    subst hi
    simp [operatorCall, Clear, passLoop, RemoveLazyDeleted, eraseLoop]

/-- C20 at a delegate with three slots. -/
theorem C20_witness :
    (Clear threeSlots).d.mWrappers = [] ∧ (Clear threeSlots).d.mToRemove = [] ∧
    (Clear threeSlots).d.mIsRunning = false ∧
    (Clear threeSlots).wrapperCounter = threeSlots.wrapperCounter ∧
    (Clear threeSlots).trace = threeSlots.trace ∧
    GetNumDelegates (Clear threeSlots) = 0 ∧
    operatorCall doubleRemover 1 7 (Clear threeSlots) = some (Clear threeSlots) :=
  C20_clear_empties_the_delegate doubleRemover 0 7 threeSlots rfl

/-! ### C11: `Remove(object, method)` when idle -/

/-- A slot as `Add` built it holds the object `o`, not null, and the method `m`
exactly when it was registered for them. -/
theorem Wrapper.target_method_iff {x : Wrapper} (hx : x.Live) {o m : Nat} (ho : o ≠ 0) :
    x.target = Callee.method o m ↔ (x.object = o ∧ x.method = m) := by
  obtain ⟨_, ht⟩ := hx
  unfold Wrapper.target
  cases hty : x.type <;> simp [hty] at ht ⊢
  · intro h1 _; rw [ht.1] at h1; exact ho h1.symm
  · intro h1 _; rw [ht.1] at h1; exact ho h1.symm
  · intro h1 _; rw [ht.1] at h1; exact ho h1.symm

/-- C11. On an idle delegate whose slots are as `Add` built them, with an object
`o` that is not null: `Remove(o, m)` returns `true` exactly when some slot was
registered for the object `o` and the method `m`. When there is none it
returns `false` and changes nothing. When there is one, the slot it removes
holds both `o` and `m` (so a slot that holds only one of them is not the one
removed), it is the first such slot of the list, and the list afterwards is
the old one without that one element; pending list, flag and counter are
unchanged. -/
theorem C11_remove_object_method_when_idle {Args : Type} (w : World Args) (h0 : IdleOk w)
    (o m : Nat) (ho : o ≠ 0) :
    (∀ x ∈ w.d.mWrappers, x.target = Callee.method o m ↔ (x.object = o ∧ x.method = m)) ∧
    ((¬ ∃ x ∈ w.d.mWrappers, x.target = Callee.method o m) →
      RemoveMethod o m w = some (false, w)) ∧
    ((∃ x ∈ w.d.mWrappers, x.target = Callee.method o m) →
      ∃ (k : Nat) (x : Wrapper) (w1 : World Args),
        RemoveMethod o m w = some (true, w1) ∧
        w.d.mWrappers[k]? = some x ∧ x.object = o ∧ x.method = m ∧
        x.target = Callee.method o m ∧
        (∀ (j : Nat) (y : Wrapper), j < k → w.d.mWrappers[j]? = some y →
          ¬ (y.object = o ∧ y.method = m)) ∧
        w1.d.mWrappers = w.d.mWrappers.eraseIdx k ∧
        (∀ j : Nat, j < k → w1.d.mWrappers[j]? = w.d.mWrappers[j]?) ∧
        (∀ j : Nat, k ≤ j → w1.d.mWrappers[j]? = w.d.mWrappers[j + 1]?) ∧
        w1.d.mToRemove = w.d.mToRemove ∧ w1.d.mIsRunning = false ∧
        w1.wrapperCounter = w.wrapperCounter) ∧
    (∀ (b : Bool) (w1 : World Args), RemoveMethod o m w = some (b, w1) →
      (b = true ↔ ∃ x ∈ w.d.mWrappers, x.target = Callee.method o m)) := by
  have hiff : ∀ x ∈ w.d.mWrappers,
      x.target = Callee.method o m ↔ (x.object = o ∧ x.method = m) :=
    fun x hx => Wrapper.target_method_iff (h0.2.2 x hx) ho
  have hr : ¬ w.d.mIsRunning = true := by simp [h0.1]
  have hcases := RemoveIndex_findLoop (fun x => x.object == o && x.method == m) w
  have hnone : (¬ ∃ x ∈ w.d.mWrappers, x.target = Callee.method o m) →
      RemoveMethod o m w = some (false, w) := by
    intro hno
    unfold RemoveMethod FindMethod
    rcases hcases with ⟨h1, _, _⟩ | ⟨k, x, hk, hp, _, _, _⟩
    · exact h1
    · exfalso
      apply hno
      have hx := List.getElem?_mem hk
      exact ⟨x, hx, (hiff x hx).mpr (by simpa using hp)⟩
  have hsome : (∃ x ∈ w.d.mWrappers, x.target = Callee.method o m) →
      ∃ (k : Nat) (x : Wrapper) (w1 : World Args),
        RemoveMethod o m w = some (true, w1) ∧
        w.d.mWrappers[k]? = some x ∧ x.object = o ∧ x.method = m ∧
        x.target = Callee.method o m ∧
        (∀ (j : Nat) (y : Wrapper), j < k → w.d.mWrappers[j]? = some y →
          ¬ (y.object = o ∧ y.method = m)) ∧
        w1.d.mWrappers = w.d.mWrappers.eraseIdx k ∧
        (∀ j : Nat, j < k → w1.d.mWrappers[j]? = w.d.mWrappers[j]?) ∧
        (∀ j : Nat, k ≤ j → w1.d.mWrappers[j]? = w.d.mWrappers[j + 1]?) ∧
        w1.d.mToRemove = w.d.mToRemove ∧ w1.d.mIsRunning = false ∧
        w1.wrapperCounter = w.wrapperCounter := by
    intro ⟨x0, hx0, ht0⟩
    unfold RemoveMethod FindMethod
    rcases hcases with ⟨_, _, hnone⟩ | ⟨k, x, hk, hp, hlt, _, hrem⟩
    · have := hnone x0 hx0
      have h2 := (hiff x0 hx0).mp ht0
      simp [h2.1, h2.2] at this
    · rw [if_neg hr] at hrem
      have hom : x.object = o ∧ x.method = m := by simpa using hp
      refine ⟨k, x, _, hrem, hk, hom.1, hom.2, (hiff x (List.getElem?_mem hk)).mpr hom,
        ?_, rfl, ?_, ?_, rfl, h0.1, rfl⟩
      · intro j y hj hy
        have := hlt j y hj hy
        simpa using this
      · intro j hj
        simp [World.eraseNow, List.getElem?_eraseIdx, hj]
      · intro j hj
        have : ¬ j < k := by omega
        simp [World.eraseNow, List.getElem?_eraseIdx, this]
  refine ⟨hiff, hnone, hsome, ?_⟩
  intro b w1 hrun
  by_cases hex : ∃ x ∈ w.d.mWrappers, x.target = Callee.method o m
  · obtain ⟨_, _, w2, hrm, _⟩ := hsome hex
    rw [hrm] at hrun
    have hb : true = b := (Prod.mk.inj (Option.some.inj hrun)).1
    simp [← hb, hex]
  · rw [hnone hex] at hrun
    have hb : false = b := (Prod.mk.inj (Option.some.inj hrun)).1
    simp [← hb, hex]

/-- Accepted calls of `Add` on a newly constructed delegate leave it idle, with
nothing pending and every slot as built. -/
theorem addAll_idleOk {Args : Type} (cs : List AddCall) (hok : ∀ c ∈ cs, c.ok) (counter : Nat) :
    IdleOk (addAll cs (World.fresh Args counter)) :=
  (addAll_spec cs (World.fresh Args counter) hok (IdleOk.of_fresh Args counter)).elim
    (fun _ h => h.2.2.1)

theorem fourSlots_ok :
    ∀ c ∈ [AddCall.func 10, AddCall.method 3 4, AddCall.method 3 5, AddCall.method 6 4],
      c.ok := by
  intro c hc
  simp only [List.mem_cons, List.mem_singleton, List.not_mem_nil, or_false] at hc
  rcases hc with rfl | rfl | rfl | rfl <;> simp [AddCall.ok]

/-- C11 at a delegate that holds the function 10 and the pairs (3, 4), (3, 5) and
(6, 4): `Remove(3, 5)`. -/
theorem C11_witness :
    ∃ (k : Nat) (x : Wrapper) (w1 : World Nat),
      RemoveMethod 3 5 fourSlots = some (true, w1) ∧
      fourSlots.d.mWrappers[k]? = some x ∧ x.object = 3 ∧ x.method = 5 ∧
      x.target = Callee.method 3 5 ∧
      (∀ (j : Nat) (y : Wrapper), j < k → fourSlots.d.mWrappers[j]? = some y →
        ¬ (y.object = 3 ∧ y.method = 5)) ∧
      w1.d.mWrappers = fourSlots.d.mWrappers.eraseIdx k ∧
      (∀ j : Nat, j < k → w1.d.mWrappers[j]? = fourSlots.d.mWrappers[j]?) ∧
      (∀ j : Nat, k ≤ j → w1.d.mWrappers[j]? = fourSlots.d.mWrappers[j + 1]?) ∧
      w1.d.mToRemove = fourSlots.d.mToRemove ∧ w1.d.mIsRunning = false ∧
      w1.wrapperCounter = fourSlots.wrapperCounter :=
  (C11_remove_object_method_when_idle fourSlots (addAll_idleOk _ fourSlots_ok 0) 3 5
    (by decide)).2.2.1 ⟨WrapperMethod 2 3 5, by decide, rfl⟩

/-! ### C12 and C17: closures and `Remove(func)` -/

/-- In a state in which pending list and slots agree, the pointer cell of a slot
of kind `Lambda` or `StdFunction` is null. -/
theorem Sound.closure_cell_null {Args : Type} {w : World Args} (hs : Sound w) {k : Nat}
    {x : Wrapper} (hk : w.d.mWrappers[k]? = some x)
    (hty : x.type = WrapperType.Lambda ∨ x.type = WrapperType.StdFunction) : x.func = 0 := by
  have h := hs.2 k x hk
  split at h
  · exact h.2.2
  · obtain ⟨_, ht⟩ := h
    rcases hty with hty | hty <;> simp [hty] at ht <;> exact ht.2

/-- `RemoveById` with the id that `Add` has just returned, when no older slot has
that id: the slot found is the new one, the last of the list. -/
theorem RemoveById_after_emplace {Args : Type} (w : World Args) (x : Wrapper)
    (hfresh : ∀ y ∈ w.d.mWrappers, y.id ≠ x.id) :
    ∃ w2 : World Args, RemoveById x.id (w.emplace x) = some (true, w2) ∧
      (w.d.mIsRunning = false → w2.d = w.d) ∧
      (w.d.mIsRunning = true →
        w2.d.mWrappers = w.d.mWrappers ++ [x.ToBeRemoved] ∧
        w2.d.mToRemove = w.d.mToRemove ++ [w.d.mWrappers.length] ∧ w2.d.mIsRunning = true) := by
  rw [RemoveById_eq]
  rcases RemoveIndex_findLoop (fun y => y.id == x.id) (w.emplace x) with ⟨_, _, hnone⟩ |
    ⟨k, y, hk, hp, _, _, hrem⟩
  · have := hnone x (by simp [World.emplace])
    simp at this
  · have hid : y.id = x.id := by simpa using hp
    have hk1 : (w.d.mWrappers ++ [x])[k]? = some y := hk
    have hkl : k = w.d.mWrappers.length := by
      by_cases hlt : k < w.d.mWrappers.length
      · rw [List.getElem?_append_left hlt] at hk1
        exact absurd hid (hfresh y (List.getElem?_mem hk1))
      · have hlt2 : k < (w.d.mWrappers ++ [x]).length := (List.getElem?_eq_some.mp hk1).1
        simp at hlt2
        omega
    subst hkl
    have hyx : y = x := by simpa using hk1.symm
    subst hyx
    refine ⟨_, hrem, ?_, ?_⟩
    · intro hi
      have hr : ¬ (w.emplace y).d.mIsRunning = true := by simp [World.emplace, hi]
      rw [if_neg hr]
      obtain ⟨c, ⟨ws, P, r⟩, t⟩ := w
      simp [World.eraseNow, World.emplace, List.eraseIdx_append_of_length_le]
    · intro hr
      have hr1 : (w.emplace y).d.mIsRunning = true := by simp [World.emplace, hr]
      rw [if_pos hr1]
      simp [World.deferRemove, World.emplace, hr]

/-- C12, amended. In a state in which pending list and slots agree (every
reachable state), with a function `f` that is not null: the pointer cell of a slot of
kind `Lambda` or `StdFunction` is not `f`, and `Find(f)` is not the index of such
a slot; when the delegate holds only such slots, `Remove(f)` returns `false` and
changes nothing. `RemoveById` with the id that `Add(closure)` or
`Add(std::function)` has just returned, when no older slot has that id, returns
`true` and removes the new slot: on an idle delegate the slot list, the
pending list and the flag are again what they were before the `Add`; on a
running one the new slot stays, cleared, and its index is pending. -/
theorem C12_closures_are_removed_by_id_only {Args : Type} (w : World Args) (hs : Sound w)
    (f : Nat) (hf : f ≠ 0) :
    (∀ (k : Nat) (x : Wrapper), w.d.mWrappers[k]? = some x →
      (x.type = WrapperType.Lambda ∨ x.type = WrapperType.StdFunction) →
      x.func ≠ f ∧ FindFunc f w ≠ (k : Int)) ∧
    ((∀ x ∈ w.d.mWrappers, x.type = WrapperType.Lambda ∨ x.type = WrapperType.StdFunction) →
      RemoveFunc f w = some (false, w)) ∧
    (∀ l : Nat, (∀ y ∈ w.d.mWrappers, y.id ≠ w.wrapperCounter) →
      (AddLambda l w).2.d.mWrappers = w.d.mWrappers ++ [WrapperLambda w.wrapperCounter l] ∧
      (AddLambda l w).1 = w.wrapperCounter ∧
      ∃ w2 : World Args, RemoveById (AddLambda l w).1 (AddLambda l w).2 = some (true, w2) ∧
        (w.d.mIsRunning = false → w2.d = w.d) ∧
        (w.d.mIsRunning = true →
          w2.d.mWrappers = w.d.mWrappers ++ [(WrapperLambda w.wrapperCounter l).ToBeRemoved] ∧
          w2.d.mToRemove = w.d.mToRemove ++ [w.d.mWrappers.length] ∧
          w2.d.mIsRunning = true)) ∧
    (∀ g : Nat, (∀ y ∈ w.d.mWrappers, y.id ≠ w.wrapperCounter) →
      (AddStdFunction g w).2.d.mWrappers =
        w.d.mWrappers ++ [WrapperStdFunction w.wrapperCounter g] ∧
      (AddStdFunction g w).1 = w.wrapperCounter ∧
      ∃ w2 : World Args,
        RemoveById (AddStdFunction g w).1 (AddStdFunction g w).2 = some (true, w2) ∧
        (w.d.mIsRunning = false → w2.d = w.d) ∧
        (w.d.mIsRunning = true →
          w2.d.mWrappers =
            w.d.mWrappers ++ [(WrapperStdFunction w.wrapperCounter g).ToBeRemoved] ∧
          w2.d.mToRemove = w.d.mToRemove ++ [w.d.mWrappers.length] ∧
          w2.d.mIsRunning = true)) := by
  have hcell : ∀ (k : Nat) (x : Wrapper), w.d.mWrappers[k]? = some x →
      (x.type = WrapperType.Lambda ∨ x.type = WrapperType.StdFunction) → x.func ≠ f := by
    intro k x hk hty h
    rw [hs.closure_cell_null hk hty] at h
    exact hf h.symm
  refine ⟨?_, ?_, ?_, ?_⟩
  · intro k x hk hty
    refine ⟨hcell k x hk hty, ?_⟩
    unfold FindFunc
    rcases findLoop_spec (fun y => y.func == f) w.d.mWrappers 0 with ⟨h1, _⟩ |
      ⟨k1, y, hk1, hp, hfl, _⟩
    · rw [h1]; omega
    · rw [hfl]
      intro hkk
      have hkk1 : k1 = k := by omega
      subst hkk1
      rw [hk] at hk1
      have hxy : x = y := by simpa using hk1
      subst hxy
      exact hcell k1 x hk hty (by simpa using hp)
  · intro hall
    unfold RemoveFunc FindFunc
    rcases RemoveIndex_findLoop (fun y => y.func == f) w with ⟨h1, _, _⟩ |
      ⟨k, x, hk, hp, _, _, _⟩
    · exact h1
    · exact absurd (by simpa using hp) (hcell k x hk (hall x (List.getElem?_mem hk)))
  · intro l hfresh
    exact ⟨rfl, rfl, RemoveById_after_emplace w (WrapperLambda w.wrapperCounter l) hfresh⟩
  · intro g hfresh
    exact ⟨rfl, rfl, RemoveById_after_emplace w (WrapperStdFunction w.wrapperCounter g) hfresh⟩

/-- C12 at a delegate whose only slot is a closure, with the id 0 and the counter
at 1: `Remove` of the function 10 returns `false`, and `RemoveById` with the id
that `Add` of another closure returns removes that closure. -/
theorem C12_witness :
    RemoveFunc 10 oneClosure = some (false, oneClosure) ∧
    ∃ w2 : World Nat,
      RemoveById (AddLambda 2 oneClosure).1 (AddLambda 2 oneClosure).2 = some (true, w2) ∧
      w2.d = oneClosure.d :=
  ⟨(C12_closures_are_removed_by_id_only oneClosure (Sound.of_idleOk oneClosure_idleOk) 10
      (by decide)).2.1 (by
        intro x hx
        have : x = WrapperLambda 0 1 := by
          simpa [oneClosure, AddLambda, World.emplace, World.fresh] using hx
        left; rw [this]; rfl),
    ((C12_closures_are_removed_by_id_only oneClosure (Sound.of_idleOk oneClosure_idleOk) 10
      (by decide)).2.2.1 2 (by
        intro y hy
        have : y = WrapperLambda 0 1 := by
          simpa [oneClosure, AddLambda, World.emplace, World.fresh] using hy
        rw [this]
        decide)).2.2.imp (fun _ h => ⟨h.1, h.2.1 rfl⟩)⟩

/-- C17 fails on the code. `Remove(nullptr)` returns `false` and changes nothing.
But `Remove(func)` with a null `func` compares `wrapper->func == func` for every
slot, and the cell of a closure (and of a `std::function`, and of a slot cleared
by `ToBeRemoved`) is null: on a delegate whose only slot is a closure it
returns `true` and, idle, erases the closure; running, clears it and makes its
index pending. -/
theorem C17_remove_null_function_removes_a_closure :
    RemoveNullptr oneClosure = some (false, oneClosure) ∧
    FindFunc 0 oneClosure = 0 ∧
    RemoveFunc 0 oneClosure =
      some (true,
        { wrapperCounter := 1,
          d := { mWrappers := [], mToRemove := [], mIsRunning := false },
          trace := [Event.remove 0 0] }) ∧
    RemoveFunc 0 oneClosure.enter =
      some (true,
        { wrapperCounter := 1,
          d := { mWrappers := [(WrapperLambda 0 1).ToBeRemoved], mToRemove := [0],
                 mIsRunning := true },
          trace := [Event.remove 0 0] }) := by
  refine ⟨rfl, rfl, rfl, rfl⟩

/-! ### C18: user functions that throw -/

/-- A caller that throws leaves the state that it would leave by returning at
the same place. -/
theorem runProg_catchAll {Args : Type} (call : Args → World Args → Option (World Args)) :
    ∀ (p : Prog Args) (w : World Args),
      (runProg call p.catchAll w).map Prod.snd = (runProg call p w).map Prod.snd
  | .ret, _ => rfl
  | .throw, _ => rfl
  | .op o k, w => by
    simp only [Prog.catchAll, runProg]
    cases o.exec call w with
    | none => rfl
    | some rw1 => exact runProg_catchAll call (k rw1.1) rw1.2

theorem Callee.body_catchAll {Args : Type} (call : Args → World Args → Option (World Args))
    (env : Env Args) (c : Callee) (a : Args) (w : World Args) :
    (runProg call (c.body (fun c1 x => (env c1 x).catchAll) a) w).map Prod.snd =
      (runProg call (c.body env a) w).map Prod.snd := by
  unfold Callee.body
  split
  · rfl
  · exact runProg_catchAll call _ w

/-- The dispatch loop does the same whether a user function throws or returns. -/
theorem passLoop_catchAll {Args : Type} (call : Args → World Args → Option (World Args))
    (env : Env Args) (a : Args) :
    ∀ (todo i : Nat) (w : World Args),
      passLoop call (fun c x => (env c x).catchAll) a todo i w = passLoop call env a todo i w
  | 0, _, _ => rfl
  | todo + 1, i, w => by
    simp only [passLoop]
    split
    · rfl
    · rename_i x hx
      split
      · exact passLoop_catchAll call env a todo (i + 1) _
      · rename_i c hcall
        have h := Callee.body_catchAll call env c a
          { w with trace := w.trace ++ [Event.dispatch i x.id x.operatorCall a] }
        cases h1 : runProg call (c.body (fun c1 x => (env c1 x).catchAll) a)
            { w with trace := w.trace ++ [Event.dispatch i x.id x.operatorCall a] } with
        | none =>
          cases h2 : runProg call (c.body env a)
              { w with trace := w.trace ++ [Event.dispatch i x.id x.operatorCall a] } with
          | none => rfl
          | some r2 => rw [h1, h2] at h; simp at h
        | some r1 =>
          cases h2 : runProg call (c.body env a)
              { w with trace := w.trace ++ [Event.dispatch i x.id x.operatorCall a] } with
          | none => rw [h1, h2] at h; simp at h
          | some r2 =>
            rw [h1, h2] at h
            have h12 : r1.2 = r2.2 := by simpa using h
            simp only [h12]
            exact passLoop_catchAll call env a todo (i + 1) r2.2

/-- A pass does the same whether a user function throws or returns. -/
theorem operatorCall_catchAll {Args : Type} (env : Env Args) :
    ∀ fuel : Nat, operatorCall (fun c x => (env c x).catchAll) fuel = operatorCall env fuel
  | 0 => by
    funext a w
    simp [operatorCall]
  | fuel + 1 => by
    funext a w
    simp only [operatorCall]
    rw [operatorCall_catchAll env fuel, passLoop_catchAll]

/-- C18. A user function that throws (any user function, at any place of its
run) changes nothing in what `operator()` does: the pass is the pass in which
it returns at that place instead. A caller of `operator()` goes on after the
call as after a return, so nothing propagates. On an idle delegate whose user
functions ask for no removal the pass returns whoever throws, every slot that
was there at the start has been dispatched, in order, and the delegate is
idle with nothing pending; so it is when every user function throws at once.
And when the user functions remove as well (but do not call `Clear`), the loop
still gives every slot its turn, and the sweep runs and the delegate is idle
afterwards whenever no index is pending twice. -/
theorem C18_throwing_target_does_not_stop_the_pass {Args : Type} (env : Env Args)
    (fuel : Nat) (a : Args) (w : World Args) :
    operatorCall env fuel a w = operatorCall (fun c x => (env c x).catchAll) fuel a w ∧
    runProg (operatorCall env fuel) (Prog.op (Op.invoke a) (fun _ => Prog.ret)) w =
      (operatorCall env fuel a w).map (fun w1 => (Outcome.returned, w1)) ∧
    (IdleOk w → (∀ c x, (env c x).NoRemoval) →
      ∃ (w1 : World Args) (added : List Wrapper),
        operatorCall env (fuel + 1) a w = some w1 ∧
        w1.d.mIsRunning = false ∧ w1.d.mToRemove = [] ∧
        w1.d.mWrappers = w.d.mWrappers ++ added ∧
        w1.trace = w.trace ++ dispatchFrom a 0 w.d.mWrappers) ∧
    (IdleOk w →
      ∃ w1 : World Args,
        operatorCall (fun _ _ => Prog.throw) (fuel + 1) a w = some w1 ∧ w1.d = w.d ∧
        w1.trace = w.trace ++ dispatchFrom a 0 w.d.mWrappers) ∧
    (IdleOk w → (∀ c x, (env c x).NoClear) →
      ∃ (w2 : World Args) (T : List (Event Args)),
        passLoop (operatorCall env fuel) env a w.d.mWrappers.length 0 w.enter = some w2 ∧
        w2.trace = w.trace ++ T ∧ turns T = List.range w.d.mWrappers.length ∧
        ((removedIdx T).Nodup →
          ∃ w3 : World Args, operatorCall env (fuel + 1) a w = some w3 ∧ IdleOk w3)) := by
  refine ⟨?_, ?_, ?_, ?_, ?_⟩
  · rw [operatorCall_catchAll]
  · simp only [runProg, Op.exec]
    cases operatorCall env fuel a w <;> rfl
  · intro h0 henv
    obtain ⟨w1, added, hcall, hidle, hws, htrace, _⟩ := pass_noRemoval env fuel a h0 henv
    exact ⟨w1, added, hcall, hidle.1, hidle.2.1, hws, htrace⟩
  · intro h0
    have hin : ∀ (c : Callee) (x : Args), (Prog.throw : Prog Args).Inert := fun _ _ => trivial
    obtain ⟨w1, added, hcall, hidle, hws, htrace, hadd⟩ :=
      pass_noRemoval (fun _ _ => Prog.throw) fuel a h0 (fun c x => (hin c x).noRemoval)
    refine ⟨w1, hcall, ?_, htrace⟩
    apply Delegate.eq_of_idleOk h0 hidle
    rw [hws, (hadd hin).1, List.append_nil]
  · intro h0 henv
    obtain ⟨w2, T, hrun, h2, hlog, _, _⟩ := pass_loop env fuel a h0 henv
    refine ⟨w2, T, hrun, by rw [h2.trace_eq]; rfl, hlog.turns_eq, ?_⟩
    intro hn
    obtain ⟨w3, h3⟩ := RemoveLazyDeleted_isSome w2 (by rw [h2.pending_eq]; exact hn)
      h2.pending_lt
    refine ⟨w3.leave, ?_, @sweep_live Args w.enter w2 w3 T h0.2.2 h2 h3⟩
    rw [operatorCall_idle env fuel a w h0.1, hrun]
    simp [Option.bind, h3]

/-- C18 at a delegate with three slots whose user functions all throw. -/
theorem C18_witness :
    ∃ w1 : World Nat,
      operatorCall throwers 1 7 threeSlots = some w1 ∧
      w1.d.mIsRunning = false ∧ w1.d.mToRemove = [] ∧
      w1.d.mWrappers = threeSlots.d.mWrappers ∧
      w1.trace = threeSlots.trace ++ dispatchFrom 7 0 threeSlots.d.mWrappers :=
  ((C18_throwing_target_does_not_stop_the_pass throwers 0 7 threeSlots).2.2.2.1
    (addAll_idleOk _ (by
      intro c hc
      simp only [List.mem_cons, List.mem_singleton, List.not_mem_nil, or_false] at hc
      rcases hc with rfl | rfl | rfl <;> simp [AddCall.ok]) 0)).imp
    (fun w1 h => ⟨h.1, by rw [h.2.1]; rfl, by rw [h.2.1]; rfl, by rw [h.2.1], h.2.2⟩)

/-! ### C19: successive passes -/

theorem turns_append {Args : Type} (T E : List (Event Args)) :
    turns (T ++ E) = turns T ++ turns E := by
  simp [turns, List.filterMap_append]

theorem calls_append {Args : Type} (c : Callee) (T E : List (Event Args)) :
    calls c (T ++ E) = calls c T + calls c E := by
  simp [calls, List.countP_append]

theorem length_dispatchFrom {Args : Type} (a : Args) :
    ∀ (ws : List Wrapper) (i : Nat), (dispatchFrom a i ws).length = ws.length
  | [], _ => rfl
  | x :: xs, i => by simp [dispatchFrom, length_dispatchFrom a xs (i + 1)]

theorem turns_dispatchFrom {Args : Type} (a : Args) :
    ∀ (ws : List Wrapper) (i : Nat), turns (dispatchFrom a i ws) = List.range' i ws.length
  | [], _ => rfl
  | x :: xs, i => by
    have ih := turns_dispatchFrom a xs (i + 1)
    simp only [turns] at ih ⊢
    simp only [dispatchFrom, List.filterMap_cons, List.length_cons, List.range'_succ, ih]

theorem count_turns_dispatchFrom {Args : Type} (a : Args) (ws : List Wrapper) (i : Nat)
    (hi : i < ws.length) : (turns (dispatchFrom a 0 ws)).count i = 1 := by
  rw [turns_dispatchFrom, ← List.range_eq_range']
  exact List.count_eq_one_of_mem (List.nodup_range _) (List.mem_range.mpr hi)

/-- The log of successive passes: its length, the turns of a slot, the calls of a
user function. -/
theorem logAll_counts {Args : Type} (ws : List Wrapper) :
    ∀ as : List Args,
      (logAll ws as).length = ws.length * as.length ∧
      (∀ i : Nat, i < ws.length → (turns (logAll ws as)).count i = as.length) ∧
      (∀ c : Callee, calls c (logAll ws as) = as.length * ws.countP (fun x => x.target == c))
  | [] => ⟨by simp [logAll], fun _ _ => by simp [logAll, turns], fun _ => by simp [logAll, calls]⟩
  | a :: as => by
    obtain ⟨h1, h2, h3⟩ := logAll_counts ws as
    refine ⟨?_, ?_, ?_⟩
    · simp only [logAll, List.length_append, length_dispatchFrom, h1, List.length_cons]
      rw [Nat.mul_succ]; omega
    · intro i hi
      simp only [logAll, turns_append, List.count_append, count_turns_dispatchFrom a ws i hi,
        h2 i hi, List.length_cons]
      omega
    · intro c
      simp only [logAll, calls_append, calls_dispatchFrom, h3 c, List.length_cons]
      rw [Nat.succ_mul]; omega

/-- Successive passes on an idle delegate whose user functions neither add nor
remove. -/
theorem invokeAll_inert {Args : Type} (env : Env Args) (henv : ∀ c x, (env c x).Inert)
    (fuel : Nat) :
    ∀ (as : List Args) (w : World Args), IdleOk w →
      ∃ w1 : World Args, invokeAll env fuel as w = some w1 ∧ w1.d = w.d ∧
        w1.wrapperCounter = w.wrapperCounter ∧
        w1.trace = w.trace ++ logAll w.d.mWrappers as
  | [], w, _ => ⟨w, rfl, rfl, rfl, by simp [logAll]⟩
  | a :: as, w, h0 => by
    obtain ⟨w1, added, hcall, hidle, hws, htrace, hadd⟩ :=
      pass_noRemoval env fuel a h0 (fun c x => (henv c x).noRemoval)
    have hd : w1.d = w.d :=
      Delegate.eq_of_idleOk h0 hidle (by rw [hws, (hadd henv).1, List.append_nil])
    obtain ⟨w2, hrun, hd2, hc2, ht2⟩ := invokeAll_inert env henv fuel as w1 hidle
    refine ⟨w2, ?_, by rw [hd2, hd], by rw [hc2, (hadd henv).2], ?_⟩
    · simp only [invokeAll, hcall]; exact hrun
    · rw [ht2, htrace, hd]; simp [logAll]

/-- C19. On an idle delegate with `n` slots whose user functions neither add nor
remove, successive calls of `operator()`, as many as the list `as` has
arguments, all return: none is skipped. The delegate is afterwards as it
was, idle. The log is the log of as many full passes, each over all the
slots in order: it has `n` times as many dispatches as there were calls, every
slot has had as many turns as there were calls, and every user function has
been called that many times for each slot that holds it. -/
theorem C19_k_invocations_dispatch_each_slot_k_times {Args : Type} (env : Env Args)
    (henv : ∀ c x, (env c x).Inert) (fuel : Nat) (as : List Args) (w : World Args)
    (h0 : IdleOk w) :
    ∃ w1 : World Args, invokeAll env fuel as w = some w1 ∧ w1.d = w.d ∧
      w1.d.mIsRunning = false ∧ w1.wrapperCounter = w.wrapperCounter ∧
      w1.trace = w.trace ++ logAll w.d.mWrappers as ∧
      (logAll w.d.mWrappers as).length = w.d.mWrappers.length * as.length ∧
      (∀ i : Nat, i < w.d.mWrappers.length →
        (turns (logAll w.d.mWrappers as)).count i = as.length) ∧
      (∀ c : Callee, calls c (logAll w.d.mWrappers as) =
        as.length * w.d.mWrappers.countP (fun x => x.target == c)) := by
  obtain ⟨w1, hrun, hd, hc, ht⟩ := invokeAll_inert env henv fuel as w h0
  obtain ⟨h1, h2, h3⟩ := logAll_counts w.d.mWrappers as
  exact ⟨w1, hrun, hd, by rw [hd]; exact h0.1, hc, ht, h1, h2, h3⟩

/-- C19 at a delegate with three slots and five calls with the same argument. -/
theorem C19_witness :
    ∃ w1 : World Nat,
      invokeAll (fun _ _ => Prog.ret) 0 (List.replicate 5 7) threeSlots = some w1 ∧
      w1.d = threeSlots.d ∧
      w1.d.mIsRunning = false ∧ w1.wrapperCounter = threeSlots.wrapperCounter ∧
      w1.trace = threeSlots.trace ++ logAll threeSlots.d.mWrappers (List.replicate 5 7) ∧
      (logAll threeSlots.d.mWrappers (List.replicate 5 7)).length =
        threeSlots.d.mWrappers.length * (List.replicate 5 7).length ∧
      (∀ i : Nat, i < threeSlots.d.mWrappers.length →
        (turns (logAll threeSlots.d.mWrappers (List.replicate 5 7))).count i =
          (List.replicate 5 7).length) ∧
      (∀ c : Callee, calls c (logAll threeSlots.d.mWrappers (List.replicate 5 7)) =
        (List.replicate 5 7).length *
          threeSlots.d.mWrappers.countP (fun x => x.target == c)) :=
  C19_k_invocations_dispatch_each_slot_k_times (fun _ _ => Prog.ret) (fun _ _ => trivial) 0
    (List.replicate 5 7) threeSlots
    (addAll_idleOk _ (by
      intro c hc
      simp only [List.mem_cons, List.mem_singleton, List.not_mem_nil, or_false] at hc
      rcases hc with rfl | rfl | rfl <;> simp [AddCall.ok]) 0)

/-! ### C14, C15 and C16: the ids of two delegates -/

theorem World2.view_put {Args : Type} (s : World2 Args) (i : Which) (w : World Args) :
    (s.put i w).view i = w := by
  cases i <;> rfl

theorem World2.view_put_other {Args : Type} (s : World2 Args) {i j : Which} (h : i ≠ j)
    (w : World Args) : ((s.put j w).view i).d = (s.view i).d := by
  cases i <;> cases j <;> first | rfl | exact absurd rfl h

theorem World2.counter_put {Args : Type} (s : World2 Args) (i : Which) (w : World Args) :
    (s.put i w).wrapperCounter = w.wrapperCounter := by
  cases i <;> rfl

theorem World2.counter_view {Args : Type} (s : World2 Args) (i : Which) :
    (s.view i).wrapperCounter = s.wrapperCounter := by
  cases i <;> rfl

theorem ids_deferRemove {Args : Type} {w : World Args} {k : Nat} {x : Wrapper}
    (hk : w.d.mWrappers[k]? = some x) :
    (w.deferRemove k x).d.mWrappers.map Wrapper.id = w.d.mWrappers.map Wrapper.id := by
  apply List.ext_getElem?
  intro j
  simp only [World.deferRemove, List.getElem?_map, List.getElem?_set]
  by_cases hjk : k = j
  · subst hjk
    have hklt : k < w.d.mWrappers.length := (List.getElem?_eq_some.mp hk).1
    simp [hklt, hk, Wrapper.ToBeRemoved]
  · simp [hjk]

theorem noReentry_skipIfRunning {Args : Type} : NoReentry (skipIfRunning : Args → _) :=
  fun _ w h => by simp [skipIfRunning, h]

theorem skipIfRunning_eq {Args : Type} {a : Args} {w w1 : World Args}
    (h : skipIfRunning a w = some w1) : w1 = w := by
  unfold skipIfRunning at h
  split at h
  · exact (Option.some.inj h).symm
  · exact absurd h (by simp)

/-- What a call on the interface does to the counter and to the ids held: a call
of `Add` with no null argument returns the counter, appends a slot with this
id and increments the counter; every other call leaves the counter and drops
ids at most. -/
theorem Op.exec_ids {Args : Type} {o : Op Args} {w w1 : World Args} {r : Ret}
    (he : o.exec skipIfRunning w = some (r, w1)) :
    (o.creates = true ∧ o.isAdd = true ∧ r = Ret.id w.wrapperCounter ∧
      ∃ x : Wrapper, x.id = w.wrapperCounter ∧ w1 = w.emplace x) ∨
    (o.creates = false ∧ w1.wrapperCounter = w.wrapperCounter ∧
      (w1.d.mWrappers.map Wrapper.id).Sublist (w.d.mWrappers.map Wrapper.id)) := by
  have hrem : ∀ p : Wrapper → Bool,
      (RemoveIndex (findLoop p w.d.mWrappers 0) w).map (fun q => (Ret.found q.1, q.2))
        = some (r, w1) →
      w1.wrapperCounter = w.wrapperCounter ∧
      (w1.d.mWrappers.map Wrapper.id).Sublist (w.d.mWrappers.map Wrapper.id) := by
    intro p h
    rcases RemoveIndex_findLoop p w with ⟨h1, _⟩ | ⟨k, x, hk, _, _, _, h1⟩
    · rw [h1] at h
      simp at h
      rw [← h.2]
      exact ⟨rfl, List.Sublist.refl _⟩
    · rw [h1] at h
      simp at h
      rw [← h.2]
      split
      · exact ⟨rfl, by rw [ids_deferRemove hk]⟩
      · exact ⟨rfl, (List.eraseIdx_sublist _ _).map _⟩
  cases o with
  | addNullptr =>
    simp [Op.exec, AddNullptr] at he
    right; rw [← he.2]; exact ⟨rfl, rfl, List.Sublist.refl _⟩
  | addFunc f =>
    by_cases hf : f = 0
    · simp [Op.exec, AddFunc, hf] at he
      right; rw [← he.2]; exact ⟨by simp [Op.creates, hf], rfl, List.Sublist.refl _⟩
    · simp [Op.exec, AddFunc, hf] at he
      left
      exact ⟨by simp [Op.creates, hf], rfl, by rw [← he.1]; rfl, _, rfl, he.2.symm⟩
  | addMethod ob m =>
    by_cases hz : ob = 0 ∨ m = 0
    · simp [Op.exec, AddMethod, hz] at he
      right; rw [← he.2]
      refine ⟨?_, rfl, List.Sublist.refl _⟩
      rcases hz with hz | hz <;> simp [Op.creates, hz]
    · simp [Op.exec, AddMethod, hz] at he
      have hz1 : ob ≠ 0 ∧ m ≠ 0 :=
        ⟨fun h0 => hz (Or.inl h0), fun h0 => hz (Or.inr h0)⟩
      left
      exact ⟨by simp [Op.creates, hz1.1, hz1.2], rfl, by rw [← he.1]; rfl, _, rfl, he.2.symm⟩
  | addLambda l =>
    simp [Op.exec, AddLambda] at he
    left
    exact ⟨rfl, rfl, by rw [← he.1]; rfl, _, rfl, he.2.symm⟩
  | addStdFunction g =>
    simp [Op.exec, AddStdFunction] at he
    left
    exact ⟨rfl, rfl, by rw [← he.1]; rfl, _, rfl, he.2.symm⟩
  | removeNullptr =>
    simp [Op.exec, RemoveNullptr] at he
    right; rw [← he.2]; exact ⟨rfl, rfl, List.Sublist.refl _⟩
  | removeFunc f =>
    right
    exact ⟨rfl, hrem (fun x => x.func == f) he⟩
  | removeMethod ob m =>
    right
    exact ⟨rfl, hrem (fun x => x.object == ob && x.method == m) he⟩
  | removeById id =>
    right
    simp only [Op.exec, RemoveById_eq] at he
    exact ⟨rfl, hrem (fun x => x.id == id) he⟩
  | invoke a =>
    simp only [Op.exec] at he
    cases hc : skipIfRunning a w with
    | none => simp [hc] at he
    | some w2 =>
      simp [hc] at he
      right
      rw [← he.2, skipIfRunning_eq hc]
      exact ⟨rfl, rfl, List.Sublist.refl _⟩
  | getNumDelegates =>
    simp [Op.exec] at he
    right; rw [← he.2]; exact ⟨rfl, rfl, List.Sublist.refl _⟩
  | clear =>
    simp [Op.exec] at he
    right; rw [← he.2]; exact ⟨rfl, rfl, by simp [Clear]⟩

theorem World2.ids_put_first {Args : Type} (s : World2 Args) (w : World Args) :
    (s.put Which.first w).ids =
      w.d.mWrappers.map Wrapper.id ++ s.second.mWrappers.map Wrapper.id := by
  simp [World2.put, World2.ids]

theorem World2.ids_put_second {Args : Type} (s : World2 Args) (w : World Args) :
    (s.put Which.second w).ids =
      s.first.mWrappers.map Wrapper.id ++ w.d.mWrappers.map Wrapper.id := by
  simp [World2.put, World2.ids]

theorem World2.ids_eq {Args : Type} (s : World2 Args) :
    s.ids = s.first.mWrappers.map Wrapper.id ++ s.second.mWrappers.map Wrapper.id := by
  simp [World2.ids]

/-- What one step does to the counter and to the ids held by the two delegates:
a step that creates a slot gives it the counter as id and increments the
counter; every other step leaves the counter and drops ids at most. -/
theorem Act.step_ids {Args : Type} {a : Act Args} {s s1 : World2 Args} {r : Ret}
    (he : a.exec s = some (r, s1)) :
    (created [a] = 1 ∧ s1.wrapperCounter = (s.wrapperCounter + 1) % SIZE_MOD ∧
      s1.ids.Perm (s.wrapperCounter :: s.ids)) ∨
    (created [a] = 0 ∧ s1.wrapperCounter = s.wrapperCounter ∧ s1.ids.Sublist s.ids) := by
  cases a with
  | call i o =>
    simp only [Act.exec] at he
    split at he
    · simp at he
    · rename_i r1 w1 hex
      have hs1 : s1 = s.put i w1 := (Prod.mk.inj (Option.some.inj he)).2.symm
      subst hs1
      rcases Op.exec_ids hex with ⟨hcr, _, _, x, hx, hw1⟩ | ⟨hcr, hcnt, hsub⟩
      · left
        refine ⟨by simp [created, hcr], ?_, ?_⟩
        · rw [World2.counter_put, hw1]
          simp [World.emplace, World2.counter_view]
        · rw [World2.counter_view] at hx
          subst hw1
          cases i
          · rw [World2.ids_put_first, World2.ids_eq, ← hx]
            simp only [World.emplace, List.map_append, List.map_cons, List.map_nil,
              List.append_assoc, List.singleton_append]
            exact List.perm_middle
          · rw [World2.ids_put_second, World2.ids_eq, ← hx]
            simp only [World.emplace, List.map_append, List.map_cons, List.map_nil]
            rw [← List.append_assoc]
            exact List.perm_append_singleton _ _
      · right
        refine ⟨by simp [created, hcr], ?_, ?_⟩
        · rw [World2.counter_put, hcnt, World2.counter_view]
        · cases i
          · rw [World2.ids_put_first, World2.ids_eq]
            exact List.Sublist.append hsub (List.Sublist.refl _)
          · rw [World2.ids_put_second, World2.ids_eq]
            exact List.Sublist.append (List.Sublist.refl _) hsub
  | enter i =>
    simp only [Act.exec] at he
    split at he
    · have hs1 : s1 = s.put i (s.view i).enter := (Prod.mk.inj (Option.some.inj he)).2.symm
      subst hs1
      right
      refine ⟨rfl, ?_, ?_⟩
      · rw [World2.counter_put]; cases i <;> rfl
      · cases i <;> exact List.Sublist.refl _
    · simp at he
  | turn e =>
    simp only [Act.exec] at he
    have hs1 : s1 = { s with trace := s.trace ++ [e] } := (Prod.mk.inj (Option.some.inj he)).2.symm
    subst hs1
    right
    exact ⟨rfl, rfl, List.Sublist.refl _⟩
  | finish i =>
    simp only [Act.exec] at he
    split at he
    · split at he
      · simp at he
      · rename_i w3 h3
        have hs1 : s1 = s.put i w3.leave := (Prod.mk.inj (Option.some.inj he)).2.symm
        subst hs1
        obtain ⟨_, _, _, hcnt, hsub, _⟩ := RemoveLazyDeleted_spec h3
        right
        refine ⟨rfl, ?_, ?_⟩
        · rw [World2.counter_put]
          show w3.wrapperCounter = _
          rw [hcnt, World2.counter_view]
        · cases i
          · rw [World2.ids_put_first, World2.ids_eq]
            exact List.Sublist.append (hsub.map _) (List.Sublist.refl _)
          · rw [World2.ids_put_second, World2.ids_eq]
            exact List.Sublist.append (List.Sublist.refl _) (hsub.map _)
    · simp at he

theorem created_cons {Args : Type} (a : Act Args) (as : List (Act Args)) :
    created (a :: as) = created [a] + created as := by
  cases a <;> simp [created]

/-- The counter after a run: it has gone up by one, modulo `2 ^ 64`, for each slot
created. -/
theorem run2_counter {Args : Type} :
    ∀ (acts : List (Act Args)) (s s1 : World2 Args), run2 acts s = some s1 →
      s1.wrapperCounter % SIZE_MOD = (s.wrapperCounter + created acts) % SIZE_MOD
  | [], s, s1, h => by
    simp [run2] at h; subst h; simp [created]
  | a :: as, s, s1, h => by
    simp only [run2] at h
    split at h
    · simp at h
    · rename_i r s2 hex
      have ih := run2_counter as s2 s1 h
      rw [created_cons, ih]
      rcases Act.step_ids hex with ⟨hc, hcnt, _⟩ | ⟨hc, hcnt, _⟩
      · rw [hc, hcnt]
        unfold SIZE_MOD
        omega
      · rw [hc, hcnt]
        unfold SIZE_MOD
        omega

/-- The ids held after a run from a state whose ids are pairwise distinct and
lie between `c0` and `c0 + n`, where the counter is then `c0 + n`: as long as
the counter does not pass `2 ^ 64` they stay so. -/
theorem run2_ids {Args : Type} (c0 : Nat) :
    ∀ (acts : List (Act Args)) (s s1 : World2 Args) (n : Nat), run2 acts s = some s1 →
      c0 + n + created acts ≤ SIZE_MOD →
      s.wrapperCounter = (c0 + n) % SIZE_MOD → s.ids.Nodup →
      (∀ id ∈ s.ids, c0 ≤ id ∧ id < c0 + n) →
      s1.ids.Nodup ∧ ∀ id ∈ s1.ids, c0 ≤ id ∧ id < c0 + (n + created acts)
  | [], s, s1, n, h, _, _, hn, hb => by
    simp [run2] at h; subst h
    exact ⟨hn, by simpa [created] using hb⟩
  | a :: as, s, s1, n, h, hle, hc, hn, hb => by
    simp only [run2] at h
    split at h
    · simp at h
    · rename_i r s2 hex
      rw [created_cons] at hle ⊢
      rcases Act.step_ids hex with ⟨hcr, hcnt, hperm⟩ | ⟨hcr, hcnt, hsub⟩
      · rw [hcr] at hle ⊢
        have hlt : c0 + n < SIZE_MOD := by omega
        have hceq : s.wrapperCounter = c0 + n := by rw [hc, Nat.mod_eq_of_lt hlt]
        have h2 := run2_ids c0 as s2 s1 (n + 1) h (by omega)
          (by rw [hcnt, hceq]; rfl)
          (by
            rw [hperm.nodup_iff, List.nodup_cons]
            refine ⟨?_, hn⟩
            intro hm
            have := (hb _ hm).2
            omega)
          (by
            intro id hid
            rcases List.mem_cons.mp (hperm.mem_iff.mp hid) with e | hm
            · omega
            · have := hb id hm
              omega)
        refine ⟨h2.1, ?_⟩
        intro id hid
        have := h2.2 id hid
        omega
      · rw [hcr] at hle ⊢
        have h2 := run2_ids c0 as s2 s1 n h (by omega) (by rw [hcnt, hc])
          (hn.sublist hsub) (fun id hid => hb id (hsub.subset hid))
        refine ⟨h2.1, ?_⟩
        intro id hid
        have := h2.2 id hid
        omega

theorem run2_counter_lt {Args : Type} :
    ∀ (acts : List (Act Args)) (s s1 : World2 Args), run2 acts s = some s1 →
      s.wrapperCounter < SIZE_MOD → s1.wrapperCounter < SIZE_MOD
  | [], s, s1, h, hlt => by
    simp [run2] at h; subst h; exact hlt
  | a :: as, s, s1, h, hlt => by
    simp only [run2] at h
    split at h
    · simp at h
    · rename_i r s2 hex
      refine run2_counter_lt as s2 s1 h ?_
      rcases Act.step_ids hex with ⟨_, hcnt, _⟩ | ⟨_, hcnt, _⟩
      · rw [hcnt]; exact Nat.mod_lt _ (by unfold SIZE_MOD; omega)
      · rw [hcnt]; exact hlt

theorem run2_append {Args : Type} :
    ∀ (as bs : List (Act Args)) (s : World2 Args),
      run2 (as ++ bs) s = (run2 as s).bind (run2 bs)
  | [], bs, s => by simp [run2]
  | a :: as, bs, s => by
    simp only [List.cons_append, run2]
    split
    · simp
    · exact run2_append as bs _

theorem addReturns_cons {Args : Type} (i : Which) (a : Act Args) (as : List (Act Args))
    {s s1 : World2 Args} {r : Ret} (he : a.exec s = some (r, s1)) :
    addReturns i (a :: as) s = addReturns i [a] s ++ addReturns i as s1 := by
  simp [addReturns, he]

theorem addReturns_append {Args : Type} (i : Which) :
    ∀ (as bs : List (Act Args)) (s s1 : World2 Args), run2 as s = some s1 →
      addReturns i (as ++ bs) s = addReturns i as s ++ addReturns i bs s1
  | [], bs, s, s1, h => by
    simp [run2] at h; subst h; simp [addReturns]
  | a :: as, bs, s, s1, h => by
    simp only [run2] at h
    split at h
    · simp at h
    · rename_i r s2 hex
      rw [List.cons_append, addReturns_cons i a (as ++ bs) hex, addReturns_cons i a as hex,
        addReturns_append i as bs s2 s1 h, List.append_assoc]

/-- One step and the ids held by one delegate: an id held after the step was
held before it, or the step is a call of `Add` on this delegate that returns
it. -/
theorem Act.step_held {Args : Type} (i : Which) {a : Act Args} {s s1 : World2 Args} {r : Ret}
    (he : a.exec s = some (r, s1)) :
    ∀ id ∈ (s1.view i).d.mWrappers.map Wrapper.id,
      id ∈ (s.view i).d.mWrappers.map Wrapper.id ∨ id ∈ addReturns i [a] s := by
  intro id hid
  cases a with
  | call j o =>
    have he0 := he
    simp only [Act.exec] at he
    split at he
    · simp at he
    · rename_i r1 w1 hex
      have hr : r1 = r := (Prod.mk.inj (Option.some.inj he)).1
      have hs1 : s1 = s.put j w1 := (Prod.mk.inj (Option.some.inj he)).2.symm
      subst hs1 hr
      by_cases hij : i = j
      · subst hij
        rw [World2.view_put] at hid
        rcases Op.exec_ids hex with ⟨_, hadd, hret, x, hx, hw1⟩ | ⟨_, _, hsub⟩
        · subst hw1
          simp only [World.emplace, List.map_append, List.map_cons, List.map_nil,
            List.mem_append, List.mem_singleton] at hid
          rcases hid with hid | hid
          · exact Or.inl hid
          · right
            simp [addReturns, he0, hret, hadd, hid, hx]
        · exact Or.inl (hsub.subset hid)
      · rw [World2.view_put_other s hij] at hid
        exact Or.inl hid
  | enter j =>
    simp only [Act.exec] at he
    split at he
    · have hs1 : s1 = s.put j (s.view j).enter := (Prod.mk.inj (Option.some.inj he)).2.symm
      subst hs1
      left
      by_cases hij : i = j
      · subst hij
        rw [World2.view_put] at hid
        exact hid
      · rw [World2.view_put_other s hij] at hid
        exact hid
    · simp at he
  | turn e =>
    simp only [Act.exec] at he
    have hs1 : s1 = { s with trace := s.trace ++ [e] } := (Prod.mk.inj (Option.some.inj he)).2.symm
    subst hs1
    left
    cases i <;> exact hid
  | finish j =>
    simp only [Act.exec] at he
    split at he
    · split at he
      · simp at he
      · rename_i w3 h3
        have hs1 : s1 = s.put j w3.leave := (Prod.mk.inj (Option.some.inj he)).2.symm
        subst hs1
        obtain ⟨_, _, _, _, hsub, _⟩ := RemoveLazyDeleted_spec h3
        left
        by_cases hij : i = j
        · subst hij
          rw [World2.view_put] at hid
          exact (hsub.map Wrapper.id).subset hid
        · rw [World2.view_put_other s hij] at hid
          exact hid
    · simp at he

/-- The ids held by one delegate after a run: each was held before the run or is
the value that a call of `Add` on this delegate returned in the run. -/
theorem run2_held {Args : Type} (i : Which) :
    ∀ (acts : List (Act Args)) (s s1 : World2 Args), run2 acts s = some s1 →
      ∀ id ∈ (s1.view i).d.mWrappers.map Wrapper.id,
        id ∈ (s.view i).d.mWrappers.map Wrapper.id ∨ id ∈ addReturns i acts s
  | [], s, s1, h, id, hid => by
    simp [run2] at h; subst h; exact Or.inl hid
  | a :: as, s, s1, h, id, hid => by
    simp only [run2] at h
    split at h
    · simp at h
    · rename_i r s2 hex
      rw [addReturns_cons i a as hex]
      rcases run2_held i as s2 s1 h id hid with h2 | h2
      · rcases Act.step_held i hex id h2 with h3 | h3
        · exact Or.inl h3
        · exact Or.inr (List.mem_append_left _ h3)
      · exact Or.inr (List.mem_append_right _ h2)

/-- The steps of `churn` on an empty idle second delegate: the counter goes up by
`n` modulo `2 ^ 64`, nothing else changes. -/
theorem run2_churn {Args : Type} (d1 : Delegate) (t : List (Event Args)) :
    ∀ (n c : Nat), c < SIZE_MOD →
      run2 (churn Args n)
          { wrapperCounter := c, first := d1,
            second := { mWrappers := [], mToRemove := [], mIsRunning := false }, trace := t }
        = some { wrapperCounter := (c + n) % SIZE_MOD, first := d1,
                 second := { mWrappers := [], mToRemove := [], mIsRunning := false },
                 trace := t }
  | 0, c, hc => by
    simp [churn, run2, Nat.mod_eq_of_lt hc]
  | n + 1, c, hc => by
    have ih := run2_churn d1 t n ((c + 1) % SIZE_MOD)
      (Nat.mod_lt _ (by unfold SIZE_MOD; omega))
    have hm : ((c + 1) % SIZE_MOD + n) % SIZE_MOD = (c + (n + 1)) % SIZE_MOD := by
      unfold SIZE_MOD; omega
    rw [hm] at ih
    rw [← ih]
    simp [churn, run2, Act.exec, Op.exec, AddFunc, Clear, World2.view, World2.put,
      World.emplace, WrapperCFunc]

/-- The calls of `Add` in `churn` are on the second delegate: the first one gets
no id from them. -/
theorem addReturns_churn {Args : Type} :
    ∀ (n : Nat) (s : World2 Args), addReturns Which.first (churn Args n) s = []
  | 0, s => by simp [churn, addReturns]
  | n + 1, s => by
    simp only [churn, addReturns, Act.exec, Op.exec, Clear]
    simp [addReturns_churn n]

/-- Claim C14, refuted as stated: from the counter at `0`, after `2 ^ 64 - 2` slots
were created and cleared, `Add` on the first delegate returns `2 ^ 64 - 2`, `Add`
on the second returns `2 ^ 64 - 1` and the counter wraps, and the next `Add` on
the first returns `0`, which is smaller than both. -/
theorem C14_add_after_wrap_returns_smaller_id :
    addReturns Which.first idsAcrossWrap (World2.fresh Nat 0) = [SIZE_MOD - 2, 0] ∧
    ∃ s : World2 Nat, run2 idsAcrossWrap (World2.fresh Nat 0) = some s ∧
      s.first.mWrappers.map Wrapper.id = [SIZE_MOD - 2, 0] ∧
      s.second.mWrappers.map Wrapper.id = [SIZE_MOD - 1] ∧ s.wrapperCounter = 1 := by
  have hch := @run2_churn Nat { mWrappers := [], mToRemove := [], mIsRunning := false } []
    (SIZE_MOD - 2) 0 (by decide)
  have hm : (0 + (SIZE_MOD - 2)) % SIZE_MOD = 18446744073709551614 := by decide
  rw [hm] at hch
  constructor
  · unfold idsAcrossWrap World2.fresh
    rw [addReturns_append Which.first _ _ _ _ hch, addReturns_churn]
    rfl
  · unfold idsAcrossWrap
    rw [run2_append]
    unfold World2.fresh
    rw [hch]
    exact ⟨_, rfl, rfl, rfl, rfl⟩


/-- Claim C14, amended: of two calls of `Add` that create a slot, on the same
delegate or on two delegates of the same call signature, with any steps in
between, the first returns the counter, the second returns the counter plus one
plus the number of slots created in between, and so a strictly greater id, as
long as this number stays below `2 ^ 64`, that is, the shared counter does not
wrap around between the two calls. -/
theorem C14_later_add_returns_greater_id_until_wrap {Args : Type} (s : World2 Args)
    (i1 i2 : Which) (c1 c2 : AddCall) (hok1 : c1.ok) (hok2 : c2.ok) (mid : List (Act Args))
    (s2 : World2 Args)
    (hmid : run2 mid (s.put i1 (c1.run (s.view i1)).2) = some s2)
    (hnowrap : s.wrapperCounter + 1 + created mid < SIZE_MOD) :
    (c1.run (s.view i1)).1 = s.wrapperCounter ∧
    (c2.run (s2.view i2)).1 = s.wrapperCounter + 1 + created mid ∧
    (c1.run (s.view i1)).1 < (c2.run (s2.view i2)).1 := by
  obtain ⟨x1, _, _, hx1, hrun1⟩ := AddCall.run_ok c1 hok1 (s.view i1)
  obtain ⟨x2, _, _, hx2, hrun2⟩ := AddCall.run_ok c2 hok2 (s2.view i2)
  rw [World2.counter_view] at hx1 hx2
  have h1 : (c1.run (s.view i1)).1 = s.wrapperCounter := by rw [hrun1]; exact hx1
  have hcnt : (s.put i1 (c1.run (s.view i1)).2).wrapperCounter
      = (s.wrapperCounter + 1) % SIZE_MOD := by
    rw [World2.counter_put, hrun1]
    show ((s.view i1).wrapperCounter + 1) % SIZE_MOD = _
    rw [World2.counter_view]
  have hlt := run2_counter_lt mid _ s2 hmid
    (by rw [hcnt]; exact Nat.mod_lt _ (by unfold SIZE_MOD; omega))
  have hc := run2_counter mid _ s2 hmid
  rw [Nat.mod_eq_of_lt hlt, hcnt] at hc
  have h2 : (c2.run (s2.view i2)).1 = s.wrapperCounter + 1 + created mid := by
    rw [hrun2]
    show x2.id = _
    rw [hx2, hc]
    unfold SIZE_MOD at hnowrap ⊢
    omega
  refine ⟨h1, h2, ?_⟩
  rw [h1, h2]
  omega

theorem C14_witness :
    ∃ s2 : World2 Nat,
      run2 mixedRun ((World2.fresh Nat 0).put Which.first
        ((AddCall.func 1).run ((World2.fresh Nat 0).view Which.first)).2) = some s2 ∧
      ((AddCall.func 1).run ((World2.fresh Nat 0).view Which.first)).1
        < ((AddCall.lambda 2).run (s2.view Which.second)).1 :=
  ⟨_, rfl, (C14_later_add_returns_greater_id_until_wrap (World2.fresh Nat 0) Which.first
    Which.second (AddCall.func 1) (AddCall.lambda 2) (by simp [AddCall.ok]) trivial mixedRun _ rfl
    (by decide)).2.2⟩

/-- Claim C15, refuted as stated: `Add` on the first delegate returns `0`; after
`2 ^ 64 - 1` more slots were created and cleared the counter is `0` again, and
the next `Add` returns `0` too: on the first delegate, which then holds two
slots with the id `0`, or on the second, and then both delegates hold the id
`0`. -/
theorem C15_id_is_issued_twice_after_wrap :
    (∃ s : World2 Nat, run2 (sameIdTwice Which.first) (World2.fresh Nat 0) = some s ∧
      s.first.mWrappers.map Wrapper.id = [0, 0] ∧ ¬ (s.first.mWrappers.map Wrapper.id).Nodup) ∧
    (∃ s : World2 Nat, run2 (sameIdTwice Which.second) (World2.fresh Nat 0) = some s ∧
      s.first.mWrappers.map Wrapper.id = [0] ∧ s.second.mWrappers.map Wrapper.id = [0]) := by
  have hch := @run2_churn Nat
    { mWrappers := [WrapperCFunc 0 1], mToRemove := [], mIsRunning := false } []
    (SIZE_MOD - 1) 1 (by decide)
  have hm : (1 + (SIZE_MOD - 1)) % SIZE_MOD = 0 := by decide
  rw [hm] at hch
  have h1 : ∀ i : Which, run2 (sameIdTwice i) (World2.fresh Nat 0)
      = run2 [Act.call i (Op.addFunc 2)]
          { wrapperCounter := 0,
            first := { mWrappers := [WrapperCFunc 0 1], mToRemove := [], mIsRunning := false },
            second := { mWrappers := [], mToRemove := [], mIsRunning := false },
            trace := [] } := by
    intro i
    have h0 : run2 [Act.call Which.first (Op.addFunc 1)] (World2.fresh Nat 0)
        = some { wrapperCounter := 1,
                 first := { mWrappers := [WrapperCFunc 0 1], mToRemove := [],
                            mIsRunning := false },
                 second := { mWrappers := [], mToRemove := [], mIsRunning := false },
                 trace := [] } := rfl
    have hsplit : sameIdTwice i = [Act.call Which.first (Op.addFunc 1)] ++
        (churn Nat (SIZE_MOD - 1) ++ [Act.call i (Op.addFunc 2)]) := rfl
    rw [hsplit, run2_append, h0, Option.some_bind, run2_append, hch, Option.some_bind]
  refine ⟨⟨_, (h1 Which.first).trans rfl, rfl, by decide⟩,
    ⟨_, (h1 Which.second).trans rfl, rfl, rfl⟩⟩

/-- Claim C15, amended: in a state reached from two new delegates by any steps
that create at most `2 ^ 64` slots counted from the counter at `0`, that is,
before the shared counter has come back to a value it had, the slots of each
delegate have pairwise distinct ids and no id is held by both delegates. -/
theorem C15_ids_are_distinct_until_wrap {Args : Type} (c0 : Nat) (acts : List (Act Args))
    (s : World2 Args) (hrun : run2 acts (World2.fresh Args c0) = some s)
    (hc0 : c0 < SIZE_MOD) (hnowrap : c0 + created acts ≤ SIZE_MOD) :
    (s.first.mWrappers.map Wrapper.id).Nodup ∧ (s.second.mWrappers.map Wrapper.id).Nodup ∧
    (∀ id ∈ s.first.mWrappers.map Wrapper.id, id ∉ s.second.mWrappers.map Wrapper.id) ∧
    (∀ id ∈ s.ids, c0 ≤ id ∧ id < c0 + created acts) := by
  have h := run2_ids c0 acts (World2.fresh Args c0) s 0 hrun (by omega)
    (by rw [Nat.add_zero, Nat.mod_eq_of_lt hc0]; rfl)
    (by simp [World2.ids, World2.fresh])
    (by simp [World2.ids, World2.fresh])
  rw [Nat.zero_add] at h
  have hn := h.1
  rw [World2.ids_eq, List.nodup_append] at hn
  exact ⟨hn.1, hn.2.1, fun id h1 h2 => hn.2.2 h1 h2, h.2⟩

theorem C15_witness :
    ∃ s : World2 Nat, run2 mixedRun (World2.fresh Nat 0) = some s ∧
      (s.first.mWrappers.map Wrapper.id).Nodup ∧ (s.second.mWrappers.map Wrapper.id).Nodup ∧
      (∀ id ∈ s.first.mWrappers.map Wrapper.id, id ∉ s.second.mWrappers.map Wrapper.id) ∧
      (∀ id ∈ s.ids, 0 ≤ id ∧ id < 0 + created mixedRun) :=
  ⟨_, rfl, C15_ids_are_distinct_until_wrap 0 mixedRun _ rfl (by decide) (by decide)⟩

/-- Claim C16: in a state reached from two new delegates by any steps, in or out
of a pass, `RemoveById` with an id that no call of `Add` on the delegate has
returned gives `false` and leaves the delegate as it is: the slot list, the
pending list, the flag, the counter. -/
theorem C16_removeById_of_id_never_returned {Args : Type} (c0 : Nat) (acts : List (Act Args))
    (s : World2 Args) (hrun : run2 acts (World2.fresh Args c0) = some s) (i : Which) (id : Nat)
    (hid : id ∉ addReturns i acts (World2.fresh Args c0)) :
    RemoveById id (s.view i) = some (false, s.view i) ∧
    Op.exec skipIfRunning (Op.removeById id) (s.view i) = some (Ret.found false, s.view i) := by
  have hheld := run2_held i acts (World2.fresh Args c0) s hrun
  have hno : ∀ x ∈ (s.view i).d.mWrappers, (x.id == id) = false := by
    intro x hx
    have hne : x.id ≠ id := by
      intro he
      rcases hheld x.id (List.mem_map_of_mem _ hx) with h | h
      · cases i <;> simp [World2.view, World2.fresh] at h
      · exact hid (he ▸ h)
    simpa using hne
  have hrem : RemoveById id (s.view i) = some (false, s.view i) := by
    rw [RemoveById_eq]
    rcases RemoveIndex_findLoop (fun x => x.id == id) (s.view i) with ⟨h, _⟩ | ⟨k, x, hk, hp, _⟩
    · exact h
    · have := hno x (List.getElem?_mem hk)
      simp [this] at hp
  exact ⟨hrem, by simp [Op.exec, hrem]⟩

theorem C16_witness :
    ∃ s : World2 Nat, run2 mixedRun (World2.fresh Nat 0) = some s ∧
      RemoveById 7 (s.view Which.first) = some (false, s.view Which.first) :=
  ⟨_, rfl, (C16_removeById_of_id_never_returned 0 mixedRun _ rfl Which.first 7
    (by decide)).1⟩

/-! ### A pass as a run of steps -/

theorem World2.put_view {Args : Type} (s : World2 Args) (i : Which) : s.put i (s.view i) = s := by
  cases i <;> rfl

theorem World2.put_put {Args : Type} (s : World2 Args) (i : Which) (w w1 : World Args) :
    (s.put i w).put i w1 = s.put i w1 := by
  cases i <;> rfl

theorem passLoop_running {Args : Type} {call : Args → World Args → Option (World Args)}
    (hc : NoReentry call) (env : Env Args) (a : Args) :
    ∀ (todo i : Nat) (w w1 : World Args), w.d.mIsRunning = true →
      passLoop call env a todo i w = some w1 → w1.d.mIsRunning = true
  | 0, i, w, w1, hr, h => by
    simp [passLoop] at h; rw [← h]; exact hr
  | todo + 1, i, w, w1, hr, h => by
    simp only [passLoop] at h
    split at h
    · simp at h
    · rename_i x hx
      split at h
      · exact passLoop_running hc env a todo (i + 1) _ w1 (by exact hr) h
      · rename_i c hcal
        split at h
        · simp at h
        · rename_i oc w2 hrun
          exact passLoop_running hc env a todo (i + 1) w2 w1
            (runProg_running hc _ _ w2 oc (by exact hr) hrun) h

/-- A caller that runs on one of the two delegates is a run of steps, when each
of its calls of `operator()` is one. -/
theorem runProg_steps {Args : Type} (i : Which)
    {call : Args → World Args → Option (World Args)}
    (hcall : ∀ (a : Args) (s : World2 Args) (w1 : World Args), call a (s.view i) = some w1 →
      ∃ acts : List (Act Args), run2 acts s = some (s.put i w1)) :
    ∀ (p : Prog Args) (s : World2 Args) (oc : Outcome) (w1 : World Args),
      runProg call p (s.view i) = some (oc, w1) →
      ∃ acts : List (Act Args), run2 acts s = some (s.put i w1)
  | .ret, s, oc, w1, h => by
    simp [runProg] at h
    exact ⟨[], by rw [← h.2, World2.put_view]; rfl⟩
  | .throw, s, oc, w1, h => by
    simp [runProg] at h
    exact ⟨[], by rw [← h.2, World2.put_view]; rfl⟩
  | .op o k, s, oc, w1, h => by
    simp only [runProg] at h
    split at h
    · simp at h
    · rename_i r w2 he
      have h1 : ∃ acts : List (Act Args), run2 acts s = some (s.put i w2) := by
        by_cases hinv : ∃ b, o = Op.invoke b
        · obtain ⟨b, rfl⟩ := hinv
          simp only [Op.exec, Option.map_eq_some'] at he
          obtain ⟨w3, hw3, he3⟩ := he
          have : w3 = w2 := (Prod.mk.inj he3).2
          subst this
          exact hcall b s w3 hw3
        · refine ⟨[Act.call i o], ?_⟩
          have he2 : o.exec skipIfRunning (s.view i) = some (r, w2) := by
            rw [← he]
            cases o with
            | invoke b => exact absurd ⟨b, rfl⟩ hinv
            | _ => rfl
          simp [run2, Act.exec, he2]
      obtain ⟨acts1, hacts1⟩ := h1
      have h2 := runProg_steps i hcall (k r) (s.put i w2) oc w1
        (by rw [World2.view_put]; exact h)
      obtain ⟨acts2, hacts2⟩ := h2
      refine ⟨acts1 ++ acts2, ?_⟩
      rw [run2_append, hacts1, Option.some_bind, hacts2, World2.put_put]

/-- The loop of a pass on one of the two delegates is a run of steps, when each
call of `operator()` by a user function is one. -/
theorem passLoop_steps {Args : Type} (i : Which)
    {call : Args → World Args → Option (World Args)} (env : Env Args) (a : Args)
    (hcall : ∀ (a : Args) (s : World2 Args) (w1 : World Args), call a (s.view i) = some w1 →
      ∃ acts : List (Act Args), run2 acts s = some (s.put i w1)) :
    ∀ (todo idx : Nat) (s : World2 Args) (w1 : World Args),
      passLoop call env a todo idx (s.view i) = some w1 →
      ∃ acts : List (Act Args), run2 acts s = some (s.put i w1)
  | 0, idx, s, w1, h => by
    simp [passLoop] at h
    exact ⟨[], by rw [← h, World2.put_view]; rfl⟩
  | todo + 1, idx, s, w1, h => by
    simp only [passLoop] at h
    split at h
    · simp at h
    · rename_i x hx
      have hturn : ∀ e : Event Args,
          ({ s with trace := s.trace ++ [e] } : World2 Args).view i
            = { s.view i with trace := (s.view i).trace ++ [e] } := by
        intro e; cases i <;> rfl
      have hput : ∀ (e : Event Args) (w : World Args),
          ({ s with trace := s.trace ++ [e] } : World2 Args).put i w = s.put i w := by
        intro e w; cases i <;> rfl
      split at h
      · obtain ⟨acts, hacts⟩ := passLoop_steps i env a hcall todo (idx + 1)
          { s with trace := s.trace ++ [Event.dispatch idx x.id x.operatorCall a] } w1
          (by rw [hturn]; exact h)
        refine ⟨Act.turn (Event.dispatch idx x.id x.operatorCall a) :: acts, ?_⟩
        simp only [run2, Act.exec]
        rw [hacts, hput]
      · rename_i c hcal
        split at h
        · simp at h
        · rename_i oc w2 hrun
          obtain ⟨acts1, hacts1⟩ := runProg_steps i hcall (c.body env a)
            { s with trace := s.trace ++ [Event.dispatch idx x.id x.operatorCall a] } oc w2
            (by rw [hturn]; exact hrun)
          rw [hput] at hacts1
          obtain ⟨acts2, hacts2⟩ := passLoop_steps i env a hcall todo (idx + 1)
            (s.put i w2) w1 (by rw [World2.view_put]; exact h)
          rw [World2.put_put] at hacts2
          refine ⟨Act.turn (Event.dispatch idx x.id x.operatorCall a) :: (acts1 ++ acts2), ?_⟩
          simp only [run2, Act.exec]
          rw [run2_append, hacts1, Option.some_bind, hacts2]

/-- A call of `operator()` on one of the two delegates, with everything that the
user functions do on this delegate in the pass, is a run of steps. -/
theorem operatorCall_steps {Args : Type} (i : Which) (env : Env Args) :
    ∀ (fuel : Nat) (a : Args) (s : World2 Args) (w1 : World Args),
      operatorCall env fuel a (s.view i) = some w1 →
      ∃ acts : List (Act Args), run2 acts s = some (s.put i w1)
  | 0, a, s, w1, h => by
    simp only [operatorCall] at h
    split at h
    · simp at h
    · exact ⟨[], by rw [← Option.some.inj h, World2.put_view]; rfl⟩
  | fuel + 1, a, s, w1, h => by
    simp only [operatorCall] at h
    split at h
    · rename_i hidle
      split at h
      · simp at h
      · rename_i w2 hloop
        split at h
        · simp at h
        · rename_i w3 hsweep
          have hw1 : w1 = w3.leave := (Option.some.inj h).symm
          subst hw1
          obtain ⟨acts, hacts⟩ := passLoop_steps i env a (operatorCall_steps i env fuel)
            (s.view i).d.mWrappers.length 0 (s.put i (s.view i).enter) w2
            (by rw [World2.view_put]; exact hloop)
          rw [World2.put_put] at hacts
          have hr2 : w2.d.mIsRunning = true :=
            passLoop_running (noReentry_operatorCall env fuel) env a _ _ _ w2 rfl hloop
          refine ⟨Act.enter i :: (acts ++ [Act.finish i]), ?_⟩
          simp only [run2, Act.exec, hidle, if_true]
          rw [run2_append, hacts, Option.some_bind]
          simp only [run2, Act.exec, World2.view_put, hr2, if_true, hsweep, World2.put_put]
    · exact ⟨[], by rw [← Option.some.inj h, World2.put_view]; rfl⟩

/-! ### C25 and C26: a removed slot, the last value of the counter -/

/-- Claim C25. A wrapper of any kind to which `ToBeRemoved` has been applied calls no
user function, whatever the arguments: its object and its function cell are
null and its flag is off. What stops each kind: `WrapperCFunc` calls nothing
exactly when the function cell is null, `WrapperMethod` exactly when the object
is null, `WrapperLambda` and `WrapperStdFunction` exactly when the flag is off,
the base `Wrapper` exactly when object and function cell are both null. In the
loop of `operator()` the turn of such a slot is logged as calling nothing and
changes nothing else. -/
theorem C25_removed_slot_calls_no_target {Args : Type}
    (call : Args → World Args → Option (World Args)) (env : Env Args) (a : Args) (todo : Nat)
    (x : Wrapper) (pre post : List Wrapper) (counter : Nat) (pending : List Nat)
    (running : Bool) (t : List (Event Args)) :
    x.ToBeRemoved.operatorCall = none ∧
    (x.ToBeRemoved.object = 0 ∧ x.ToBeRemoved.func = 0 ∧ x.ToBeRemoved.method = 0 ∧
      x.ToBeRemoved.isEnabled = false ∧ x.ToBeRemoved.type = x.type ∧
      x.ToBeRemoved.id = x.id) ∧
    (({ x with type := WrapperType.Function } : Wrapper).operatorCall = none ↔ x.func = 0) ∧
    (({ x with type := WrapperType.Method } : Wrapper).operatorCall = none ↔ x.object = 0) ∧
    (({ x with type := WrapperType.Lambda } : Wrapper).operatorCall = none ↔
      x.isEnabled = false) ∧
    (({ x with type := WrapperType.StdFunction } : Wrapper).operatorCall = none ↔
      x.isEnabled = false) ∧
    (({ x with type := WrapperType.Unknown } : Wrapper).operatorCall = none ↔
      (x.object = 0 ∧ x.func = 0)) ∧
    passLoop call env a (todo + 1) pre.length
        { wrapperCounter := counter,
          d := { mWrappers := pre ++ x.ToBeRemoved :: post, mToRemove := pending,
                 mIsRunning := running },
          trace := t } =
      passLoop call env a todo (pre.length + 1)
        { wrapperCounter := counter,
          d := { mWrappers := pre ++ x.ToBeRemoved :: post, mToRemove := pending,
                 mIsRunning := running },
          trace := t ++ [Event.dispatch pre.length x.id none a] } := by
  refine ⟨Wrapper.operatorCall_toBeRemoved x, ⟨rfl, rfl, rfl, rfl, rfl, rfl⟩, ?_, ?_, ?_, ?_,
    ?_, ?_⟩
  · simp [Wrapper.operatorCall]
  · simp [Wrapper.operatorCall]
  · simp [Wrapper.operatorCall]
  · simp [Wrapper.operatorCall]
  · simp only [Wrapper.operatorCall]
    by_cases ho : x.object = 0 <;> by_cases hf : x.func = 0 <;> simp [ho, hf]
  · simp only [passLoop, List.getElem?_append_right (Nat.le_refl _), Nat.sub_self,
      List.getElem?_cons_zero, Wrapper.operatorCall_toBeRemoved]
    rfl

/-- Claim C26, refuted as stated: after `2 ^ 64 - 1` slots were created (and
cleared) the counter is `2 ^ 64 - 1`, and the next `Add` of a function that is
not null creates a slot and returns its id, `2 ^ 64 - 1`, which is `size_t(-1)`:
the value that `Add` of a null function returns for a rejected argument. -/
theorem C26_add_returns_the_sentinel_at_the_last_counter_value :
    ∃ s : World2 Nat, run2 (churn Nat (SIZE_MOD - 1)) (World2.fresh Nat 0) = some s ∧
      s.wrapperCounter = invalidId ∧
      (AddFunc 1 (s.view Which.first)).1 = invalidId ∧
      (AddFunc 1 (s.view Which.first)).2.d.mWrappers = [WrapperCFunc invalidId 1] ∧
      (AddFunc 0 (s.view Which.first)).1 = invalidId ∧
      (AddFunc 0 (s.view Which.first)).2.d.mWrappers = [] := by
  have hch := @run2_churn Nat { mWrappers := [], mToRemove := [], mIsRunning := false } []
    (SIZE_MOD - 1) 0 (by decide)
  have hm : (0 + (SIZE_MOD - 1)) % SIZE_MOD = 18446744073709551615 := by decide
  rw [hm] at hch
  unfold World2.fresh
  rw [hch]
  exact ⟨_, rfl, rfl, rfl, rfl, rfl, rfl⟩

/-- Claim C26, amended: a call of `Add` that creates a slot returns the value of the
counter, so the id differs from `size_t(-1)` exactly when the counter is not
`2 ^ 64 - 1`: for every value of the counter but the last one. -/
theorem C26_add_returns_no_sentinel_below_the_last_counter_value {Args : Type}
    (c : AddCall) (hok : c.ok) (w : World Args) (hlast : w.wrapperCounter ≠ invalidId) :
    (c.run w).1 = w.wrapperCounter ∧ (c.run w).1 ≠ invalidId ∧
    ∃ x : Wrapper, (c.run w).2.d.mWrappers = w.d.mWrappers ++ [x] ∧ x.id = (c.run w).1 ∧
      x.id ≠ invalidId := by
  obtain ⟨x, _, _, hx, hrun⟩ := AddCall.run_ok c hok w
  have h1 : (c.run w).1 = w.wrapperCounter := by rw [hrun]; exact hx
  refine ⟨h1, by rw [h1]; exact hlast, x, by rw [hrun]; rfl, by rw [hrun], ?_⟩
  rw [hx]; exact hlast

theorem C26_witness :
    ((AddCall.lambda 5).run threeSlots).1 = threeSlots.wrapperCounter ∧
    ((AddCall.lambda 5).run threeSlots).1 ≠ invalidId ∧
    ∃ x : Wrapper, ((AddCall.lambda 5).run threeSlots).2.d.mWrappers
        = threeSlots.d.mWrappers ++ [x] ∧
      x.id = ((AddCall.lambda 5).run threeSlots).1 ∧ x.id ≠ invalidId :=
  C26_add_returns_no_sentinel_below_the_last_counter_value (AddCall.lambda 5) trivial
    threeSlots (by decide)

/-! ### C22: the sweep -/

theorem withoutIndices_congr {P Q : List Nat} (h : ∀ j, j ∈ P ↔ j ∈ Q) :
    ∀ (ws : List Wrapper) (i : Nat), withoutIndices P i ws = withoutIndices Q i ws
  | [], _ => rfl
  | x :: xs, i => by
    simp only [withoutIndices, h i, withoutIndices_congr h xs (i + 1)]

theorem withoutIndices_of_lt {P : List Nat} :
    ∀ (ws : List Wrapper) (k : Nat), (∀ j ∈ P, j < k) → withoutIndices P k ws = ws
  | [], _, _ => rfl
  | x :: xs, k, h => by
    have hk : k ∉ P := fun hm => Nat.lt_irrefl k (h k hm)
    simp only [withoutIndices, hk, if_false]
    rw [withoutIndices_of_lt xs (k + 1) (fun j hj => Nat.lt_succ_of_lt (h j hj))]

/-- Erasing the element at an index above all the indices of `L` and then leaving
out those of `L` is leaving out that index and those of `L`. -/
theorem withoutIndices_eraseIdx {L : List Nat} :
    ∀ (ws : List Wrapper) (i k : Nat), (∀ j ∈ L, j < k + i) → i < ws.length →
      withoutIndices L k (ws.eraseIdx i) = withoutIndices ((k + i) :: L) k ws
  | [], _, _, _, h => by simp at h
  | x :: xs, 0, k, hL, _ => by
    simp only [List.eraseIdx_cons_zero, withoutIndices, Nat.add_zero, List.mem_cons, true_or,
      if_true]
    rw [withoutIndices_of_lt xs k hL, withoutIndices_of_lt xs (k + 1)]
    intro j hj
    rcases List.mem_cons.mp hj with e | hm
    · omega
    · have := hL j hm
      omega
  | x :: xs, i + 1, k, hL, hi => by
    have hne : k ≠ k + (i + 1) := by omega
    have ih := withoutIndices_eraseIdx xs i (k + 1) (fun j hj => by have := hL j hj; omega)
      (by simpa using hi)
    have he : k + 1 + i = k + (i + 1) := by omega
    rw [he] at ih
    simp only [List.eraseIdx_cons_succ, withoutIndices, List.mem_cons, hne, false_or, ih]

/-- The erasing loop, run on strictly descending indices within the bounds,
leaves the list without the elements at these indices. -/
theorem eraseLoop_eq_withoutIndices :
    ∀ (L : List Nat) (ws : List Wrapper), L.Pairwise (· > ·) → (∀ j ∈ L, j < ws.length) →
      eraseLoop L ws = some (withoutIndices L 0 ws)
  | [], ws, _, _ => by
    simp only [eraseLoop]
    rw [withoutIndices_of_lt ws 0 (by simp)]
  | i :: L, ws, hs, hb => by
    obtain ⟨hhead, htail⟩ := List.pairwise_cons.mp hs
    have hi : i < ws.length := hb i (by simp)
    simp only [eraseLoop, hi, if_true]
    rw [eraseLoop_eq_withoutIndices L (ws.eraseIdx i) htail (by
      intro j hj
      have h1 := hhead j hj
      simp only [List.length_eraseIdx, hi, if_true]
      omega)]
    have := withoutIndices_eraseIdx ws i 0 (by
      intro j hj
      have h1 := hhead j hj
      omega) hi
    rw [Nat.zero_add] at this
    rw [this]

theorem eraseLoop_length :
    ∀ (L : List Nat) (ws ws1 : List Wrapper), eraseLoop L ws = some ws1 →
      ws1.length + L.length = ws.length
  | [], ws, ws1, h => by
    simp [eraseLoop] at h; subst h; rfl
  | i :: L, ws, ws1, h => by
    simp only [eraseLoop] at h
    split at h
    · rename_i hi
      have := eraseLoop_length L _ ws1 h
      simp only [List.length_eraseIdx, hi, if_true] at this
      simp only [List.length_cons]
      omega
    · simp at h

theorem withoutIndices_sublist (P : List Nat) :
    ∀ (ws : List Wrapper) (i : Nat), (withoutIndices P i ws).Sublist ws
  | [], _ => List.Sublist.slnil
  | x :: xs, i => by
    simp only [withoutIndices]
    split
    · exact (withoutIndices_sublist P xs (i + 1)).cons x
    · exact (withoutIndices_sublist P xs (i + 1)).cons₂ x

/-- The elements of `withoutIndices`: those of the list whose index is not in
`P`. -/
theorem mem_withoutIndices (P : List Nat) :
    ∀ (ws : List Wrapper) (i : Nat) (x : Wrapper),
      x ∈ withoutIndices P i ws ↔ ∃ j : Nat, i + j ∉ P ∧ ws[j]? = some x
  | [], _, x => by simp [withoutIndices]
  | y :: ys, i, x => by
    have ih := mem_withoutIndices P ys (i + 1) x
    simp only [withoutIndices]
    constructor
    · intro h
      have hx : (i ∉ P ∧ x = y) ∨ x ∈ withoutIndices P (i + 1) ys := by
        split at h
        · exact Or.inr h
        · rename_i hi
          rcases List.mem_cons.mp h with e | h
          · exact Or.inl ⟨hi, e⟩
          · exact Or.inr h
      rcases hx with ⟨hi, e⟩ | hx
      · exact ⟨0, by simpa using hi, by simp [e]⟩
      · obtain ⟨j, hj, hget⟩ := ih.mp hx
        exact ⟨j + 1, by rw [← Nat.add_assoc, Nat.add_right_comm]; exact hj, by simpa using hget⟩
    · rintro ⟨j, hj, hget⟩
      cases j with
      | zero =>
        have hi : i ∉ P := by simpa using hj
        have e : y = x := by simpa using hget
        simp [hi, e]
      | succ j =>
        have hx : x ∈ withoutIndices P (i + 1) ys :=
          ih.mpr ⟨j, by rw [Nat.add_assoc, Nat.add_comm 1 j]; exact hj, by simpa using hget⟩
        split
        · exact hx
        · exact List.mem_cons_of_mem _ hx

/-- Claim C22. For every slot list and every pending list of pairwise distinct
indices below the length of the slot list, in any order, `RemoveLazyDeleted`
returns, and leaves the slot list without the slots at the pending indices,
the others in their order, and the pending list empty; flag, counter and log
are as they were. The list left is a sublist of the old one, shorter by the
number of pending indices, and its elements are the slots whose index was not
pending. -/
theorem C22_sweep_deletes_exactly_the_pending_slots {Args : Type} (w : World Args)
    (hn : w.d.mToRemove.Nodup) (hb : ∀ j ∈ w.d.mToRemove, j < w.d.mWrappers.length) :
    RemoveLazyDeleted w =
      some { w with d := { w.d with
        mWrappers := withoutIndices w.d.mToRemove 0 w.d.mWrappers, mToRemove := [] } } ∧
    (withoutIndices w.d.mToRemove 0 w.d.mWrappers).Sublist w.d.mWrappers ∧
    (withoutIndices w.d.mToRemove 0 w.d.mWrappers).length + w.d.mToRemove.length
      = w.d.mWrappers.length ∧
    (∀ x : Wrapper, x ∈ withoutIndices w.d.mToRemove 0 w.d.mWrappers ↔
      ∃ j : Nat, j ∉ w.d.mToRemove ∧ w.d.mWrappers[j]? = some x) := by
  have hnd : ((w.d.mToRemove.insertionSort (· ≤ ·)).reverse).Nodup := by
    rw [List.nodup_reverse]
    exact (List.perm_insertionSort (· ≤ ·) w.d.mToRemove).nodup_iff.mpr hn
  have hs : ((w.d.mToRemove.insertionSort (· ≤ ·)).reverse).Pairwise (· > ·) := by
    have := (sortedDesc_pending w.d.mToRemove).and hnd
    refine this.imp ?_
    intro x y hxy
    have h1 : x ≥ y := hxy.1
    have h2 : x ≠ y := hxy.2
    omega
  have hmem : ∀ j, j ∈ (w.d.mToRemove.insertionSort (· ≤ ·)).reverse ↔ j ∈ w.d.mToRemove := by
    intro j
    rw [List.mem_reverse, List.mem_insertionSort]
  have hloop := eraseLoop_eq_withoutIndices _ w.d.mWrappers hs
    (fun j hj => hb j ((hmem j).mp hj))
  rw [withoutIndices_congr hmem] at hloop
  refine ⟨by simp [RemoveLazyDeleted, hloop], withoutIndices_sublist _ _ _, ?_, ?_⟩
  · have := eraseLoop_length _ _ _ hloop
    simpa [List.length_insertionSort] using this
  · intro x
    simpa using mem_withoutIndices w.d.mToRemove w.d.mWrappers 0 x

theorem C22_witness :
    RemoveLazyDeleted twoPending =
      some { wrapperCounter := 4,
             d := { mWrappers := [WrapperCFunc 1 11, WrapperMethod 3 5 6], mToRemove := [],
                    mIsRunning := true },
             trace := [] } :=
  (C22_sweep_deletes_exactly_the_pending_slots twoPending (by decide) (by decide)).1

/-! ### C24: `RemoveById` after `Add` -/

/-- Claim C24, refuted as stated: the first delegate holds the function 1 with the
id `0`, and after `2 ^ 64 - 1` more slots were created and cleared the counter
is `0` again; the delegate is idle. `Add` of the function 2 then returns `0`,
and `RemoveById(0)` returns `true` and erases the first slot with that id, the
old one: the list holds the function 2 instead of the function 1. -/
theorem C24_removeById_after_add_erases_an_older_slot :
    ∃ s : World2 Nat, run2 onceAround (World2.fresh Nat 0) = some s ∧
      (s.view Which.first).d =
        { mWrappers := [WrapperCFunc 0 1], mToRemove := [], mIsRunning := false } ∧
      (AddFunc 2 (s.view Which.first)).1 = 0 ∧
      ∃ w2 : World Nat,
        RemoveById (AddFunc 2 (s.view Which.first)).1 (AddFunc 2 (s.view Which.first)).2
          = some (true, w2) ∧
        w2.d.mWrappers = [WrapperCFunc 0 2] ∧
        w2.d.mWrappers ≠ (s.view Which.first).d.mWrappers := by
  have hch := @run2_churn Nat
    { mWrappers := [WrapperCFunc 0 1], mToRemove := [], mIsRunning := false } []
    (SIZE_MOD - 1) 1 (by decide)
  have hm : (1 + (SIZE_MOD - 1)) % SIZE_MOD = 0 := by decide
  rw [hm] at hch
  have h0 : run2 [Act.call Which.first (Op.addFunc 1)] (World2.fresh Nat 0)
      = some { wrapperCounter := 1,
               first := { mWrappers := [WrapperCFunc 0 1], mToRemove := [],
                          mIsRunning := false },
               second := { mWrappers := [], mToRemove := [], mIsRunning := false },
               trace := [] } := rfl
  have hsplit : onceAround = [Act.call Which.first (Op.addFunc 1)] ++
      churn Nat (SIZE_MOD - 1) := rfl
  rw [hsplit, run2_append, h0, Option.some_bind, hch]
  exact ⟨_, rfl, rfl, rfl, _, rfl, rfl, by decide⟩

/-- The ids held in a state reached before the counter wraps are below the
counter. -/
theorem run2_ids_lt_counter {Args : Type} (c0 : Nat) (acts : List (Act Args))
    (s : World2 Args) (hrun : run2 acts (World2.fresh Args c0) = some s)
    (hnowrap : c0 + created acts < SIZE_MOD) :
    s.wrapperCounter = c0 + created acts ∧ ∀ id ∈ s.ids, id < s.wrapperCounter := by
  have hc0 : c0 < SIZE_MOD := by omega
  have hlt := run2_counter_lt acts _ s hrun (by exact hc0)
  have hc := run2_counter acts _ s hrun
  rw [Nat.mod_eq_of_lt hlt] at hc
  have hcnt : s.wrapperCounter = c0 + created acts := by
    rw [hc]
    exact Nat.mod_eq_of_lt hnowrap
  have h := run2_ids c0 acts (World2.fresh Args c0) s 0 hrun (by omega)
    (by rw [Nat.add_zero, Nat.mod_eq_of_lt hc0]; rfl)
    (by simp [World2.ids, World2.fresh])
    (by simp [World2.ids, World2.fresh])
  rw [Nat.zero_add] at h
  exact ⟨hcnt, fun id hid => by rw [hcnt]; exact (h.2 id hid).2⟩

/-- Claim C24, amended: in a state reached from two new delegates by any steps that
leave the shared counter short of `2 ^ 64`, on a delegate that is idle, for
every call of `Add` with no null argument: no slot held has the id that `Add`
returns, and `RemoveById` with this id returns `true` and leaves the delegate
as it was before the `Add`: the same slots with the same ids in the same
order, nothing pending, idle. The counter stays one up. -/
theorem C24_removeById_undoes_add_until_wrap {Args : Type} (c0 : Nat) (acts : List (Act Args))
    (s : World2 Args) (hrun : run2 acts (World2.fresh Args c0) = some s)
    (hnowrap : c0 + created acts < SIZE_MOD) (i : Which)
    (hidle : (s.view i).d.mIsRunning = false) (c : AddCall) (hok : c.ok) :
    (∀ y ∈ (s.view i).d.mWrappers, y.id ≠ (c.run (s.view i)).1) ∧
    ∃ w2 : World Args,
      RemoveById (c.run (s.view i)).1 (c.run (s.view i)).2 = some (true, w2) ∧
      w2.d = (s.view i).d ∧ w2.d.mWrappers = (s.view i).d.mWrappers ∧
      w2.wrapperCounter = (s.wrapperCounter + 1) % SIZE_MOD := by
  obtain ⟨x, _, _, hx, hrun1⟩ := AddCall.run_ok c hok (s.view i)
  obtain ⟨_, hids⟩ := run2_ids_lt_counter c0 acts s hrun hnowrap
  have hfresh : ∀ y ∈ (s.view i).d.mWrappers, y.id ≠ x.id := by
    intro y hy
    rw [hx, World2.counter_view]
    have hmem : y.id ∈ s.ids := by
      rw [World2.ids_eq]
      cases i
      · exact List.mem_append_left _ (List.mem_map_of_mem _ hy)
      · exact List.mem_append_right _ (List.mem_map_of_mem _ hy)
    exact Nat.ne_of_lt (hids _ hmem)
  obtain ⟨w2, hrem, hd, _⟩ := RemoveById_after_emplace (s.view i) x hfresh
  rw [hrun1]
  refine ⟨hfresh, w2, hrem, hd hidle, by rw [hd hidle], ?_⟩
  have hcases := RemoveIndex_findLoop (fun y => y.id == x.id) ((s.view i).emplace x)
  rw [RemoveById_eq] at hrem
  rcases hcases with ⟨h1, _, _⟩ | ⟨k, y, _, _, _, _, h2⟩
  · rw [h1] at hrem
    exact absurd (Prod.mk.inj (Option.some.inj hrem)).1 (by decide)
  · rw [h2] at hrem
    have hw2 := (Prod.mk.inj (Option.some.inj hrem)).2
    rw [← hw2]
    split
    · show ((s.view i).wrapperCounter + 1) % SIZE_MOD = _
      rw [World2.counter_view]
    · show ((s.view i).wrapperCounter + 1) % SIZE_MOD = _
      rw [World2.counter_view]

theorem C24_witness :
    ∃ s : World2 Nat, run2 mixedRun (World2.fresh Nat 0) = some s ∧
      ∃ w2 : World Nat,
        RemoveById ((AddCall.method 8 9).run (s.view Which.first)).1
          ((AddCall.method 8 9).run (s.view Which.first)).2 = some (true, w2) ∧
        w2.d = (s.view Which.first).d :=
  ⟨_, rfl, (C24_removeById_undoes_add_until_wrap 0 mixedRun _ rfl (by decide) Which.first
    rfl (AddCall.method 8 9) (by simp [AddCall.ok])).2.imp (fun _ h => ⟨h.1, h.2.1⟩)⟩

/-! ### C23: the pending list while running -/

/-- In every state that the program can reach, in or out of a pass, each pending
index is below the length of the slot list and the slot it points to has its
flag `isEnabled` off. -/
theorem reachable_pending_sound {Args : Type} (env : Env Args) (w : World Args)
    (h : Reachable env w) :
    ∀ j ∈ w.d.mToRemove, j < w.d.mWrappers.length ∧
      ∀ x : Wrapper, w.d.mWrappers[j]? = some x → x.isEnabled = false := by
  obtain ⟨hs, _⟩ := reachable_idleOk env w h
  intro j hj
  refine ⟨hs.1 j hj, ?_⟩
  intro x hx
  have := hs.2 j x hx
  rw [if_pos hj] at this
  exact this.1

/-- Claim C23 fails on the code. In the middle of a pass on the closure 1 (id 0), the
function 10 (id 1) and the function 11 (id 2), after the closure has called
`RemoveById(1)` twice, the delegate is running and the pending list is
`[1, 1]`: the second call finds the slot again, since `ToBeRemoved` keeps its
id, and appends its index again. The two other parts of the claim hold in this
state: index 1 is below the length 3, and the slot at index 1 is disabled. -/
theorem C23_pending_index_is_listed_twice :
    ∃ w : World Nat,
      runProg (operatorCall doubleRemover 0) (doubleRemover (Callee.lambda 1) 7)
        threeSlots.enter = some (Outcome.returned, w) ∧
      Reachable doubleRemover w ∧ w.d.mIsRunning = true ∧
      w.d.mToRemove = [1, 1] ∧ ¬ w.d.mToRemove.Nodup ∧
      w.d.mWrappers = [WrapperLambda 0 1, (WrapperCFunc 1 10).ToBeRemoved, WrapperCFunc 2 11] ∧
      w.d.mWrappers.length = 3 ∧
      (w.d.mWrappers[1]?).map Wrapper.isEnabled = some false := by
  refine ⟨_, rfl, ?_, rfl, rfl, by decide, rfl, rfl, rfl⟩
  refine Reachable.call (Op.removeById 1) (Ret.found true) 0
    (Reachable.call (Op.removeById 1) (Ret.found true) 0
      (Reachable.enter
        (Reachable.call (Op.addFunc 11) (Ret.id 2) 0
          (Reachable.call (Op.addFunc 10) (Ret.id 1) 0
            (Reachable.call (Op.addLambda 1) (Ret.id 0) 0 (Reachable.fresh 0) rfl) rfl) rfl)
        rfl) rfl) rfl

/-! ### C21: two threads in `operator()` -/

theorem World.enter_of_running {Args : Type} (w : World Args) (h : w.d.mIsRunning = true) :
    w.enter = w := by
  obtain ⟨c, ⟨ws, P, r⟩, t⟩ := w
  simp only at h
  subst h
  rfl

theorem Pc.run_add {Args : Type} (env : Env Args) (fuel : Nat) :
    ∀ (m n : Nat) (pc : Pc Args) (w : World Args),
      Pc.run env fuel (m + n) pc w = (Pc.run env fuel m pc w).bind
        (fun q => Pc.run env fuel n q.1 q.2)
  | 0, n, pc, w => by simp [Pc.run]
  | m + 1, n, pc, w => by
    rw [Nat.add_right_comm]
    simp only [Pc.run]
    split
    · rfl
    · exact Pc.run_add env fuel m n _ _

/-- The steps of a user function are those of `runProg`. -/
theorem Pc.run_body {Args : Type} (env : Env Args) (fuel : Nat) (a : Args) (size i : Nat) :
    ∀ (p : Prog Args) (w w1 : World Args) (oc : Outcome),
      runProg (operatorCall env fuel) p w = some (oc, w1) →
      ∃ n : Nat, Pc.run env fuel n (Pc.body a size i p) w = some (Pc.loop a size (i + 1), w1)
  | .ret, w, w1, oc, h => by
    simp [runProg] at h
    exact ⟨1, by simp [Pc.run, Pc.step, h.2]⟩
  | .throw, w, w1, oc, h => by
    simp [runProg] at h
    exact ⟨1, by simp [Pc.run, Pc.step, h.2]⟩
  | .op o k, w, w1, oc, h => by
    simp only [runProg] at h
    split at h
    · simp at h
    · rename_i r w2 he
      obtain ⟨n, hn⟩ := Pc.run_body env fuel a size i (k r) w2 w1 oc h
      exact ⟨n + 1, by simp only [Pc.run, Pc.step, he]; exact hn⟩

/-- The steps of the loop are those of `passLoop`. -/
theorem Pc.run_loop {Args : Type} (env : Env Args) (fuel : Nat) (a : Args) :
    ∀ (todo i : Nat) (w w1 : World Args),
      passLoop (operatorCall env fuel) env a todo i w = some w1 →
      ∃ n : Nat, Pc.run env fuel n (Pc.loop a (i + todo) i) w = some (Pc.sweep, w1)
  | 0, i, w, w1, h => by
    simp [passLoop] at h
    exact ⟨1, by simp [Pc.run, Pc.step, h]⟩
  | todo + 1, i, w, w1, h => by
    simp only [passLoop] at h
    have hlt : i < i + (todo + 1) := by omega
    have hsz : i + 1 + todo = i + (todo + 1) := by omega
    split at h
    · simp at h
    · rename_i x hx
      split at h
      · rename_i hcal
        obtain ⟨n, hn⟩ := Pc.run_loop env fuel a todo (i + 1) _ w1 h
        rw [hsz] at hn
        have hstep : (Pc.loop a (i + (todo + 1)) i).step env fuel w
            = some (Pc.loop a (i + (todo + 1)) (i + 1),
                { w with trace := w.trace ++ [Event.dispatch i x.id x.operatorCall a] }) := by
          simp only [Pc.step, hlt, if_true, hx]
          split
          · rfl
          · rename_i c hc
            rw [hcal] at hc
            exact absurd hc (by simp)
        exact ⟨n + 1, by simp only [Pc.run, hstep]; exact hn⟩
      · rename_i c hcal
        split at h
        · simp at h
        · rename_i oc w2 hrun
          obtain ⟨m, hm⟩ := Pc.run_body env fuel a (i + (todo + 1)) i _ _ w2 oc hrun
          obtain ⟨n, hn⟩ := Pc.run_loop env fuel a todo (i + 1) w2 w1 h
          rw [hsz] at hn
          have hstep : (Pc.loop a (i + (todo + 1)) i).step env fuel w
              = some (Pc.body a (i + (todo + 1)) i (c.body env a),
                  { w with trace := w.trace ++ [Event.dispatch i x.id x.operatorCall a] }) := by
            simp only [Pc.step, hlt, if_true, hx]
            split
            · rename_i hc
              rw [hcal] at hc
              exact absurd hc (by simp)
            · rename_i c1 hc
              have hcc : c1 = c := by
                rw [hcal] at hc
                exact (Option.some.inj hc).symm
              rw [hcc]
          refine ⟨(m + n) + 1, ?_⟩
          simp only [Pc.run, hstep]
          rw [Pc.run_add, hm]
          exact hn

/-- A thread that runs alone does what `operator()` does: on an idle delegate it
makes the pass and returns, on a running one it returns at its first step. -/
theorem Pc.run_call {Args : Type} (env : Env Args) (fuel : Nat) (a : Args)
    (w w1 : World Args) (h : operatorCall env (fuel + 1) a w = some w1) :
    (w.d.mIsRunning = false →
      ∃ n : Nat, Pc.run env fuel n (Pc.call a) w = some (Pc.returned true, w1)) ∧
    (w.d.mIsRunning = true →
      w1 = w ∧ Pc.run env fuel 1 (Pc.call a) w = some (Pc.returned false, w)) := by
  constructor
  · intro hidle
    simp only [operatorCall, hidle, if_true] at h
    split at h
    · simp at h
    · rename_i w2 hloop
      split at h
      · simp at h
      · rename_i w3 hsweep
        have hw1 : w1 = w3.leave := (Option.some.inj h).symm
        subst hw1
        obtain ⟨n, hn⟩ := Pc.run_loop env fuel a w.d.mWrappers.length 0 _ w2 hloop
        rw [Nat.zero_add] at hn
        refine ⟨2 + (n + 2), ?_⟩
        rw [Pc.run_add]
        have h2 : Pc.run env fuel 2 (Pc.call a) w
            = some (Pc.loop a w.d.mWrappers.length 0, w.enter) := by
          simp [Pc.run, Pc.step, hidle, World.enter]
        rw [h2, Option.some_bind, Pc.run_add]
        have hn2 : Pc.run env fuel n (Pc.loop a w.d.mWrappers.length 0) w.enter
            = some (Pc.sweep, w2) := hn
        rw [hn2, Option.some_bind]
        simp [Pc.run, Pc.step, hsweep]
  · intro hr
    have hw : w1 = w := by
      rw [operatorCall_of_running env (fuel + 1) a w hr] at h
      exact (Option.some.inj h).symm
    refine ⟨hw, ?_⟩
    simp [Pc.run, Pc.step, hr, World.enter_of_running w hr]

theorem Pc.step_body {Args : Type} (env : Env Args) (fuel : Nat) {a : Args} {size i : Nat}
    {p : Prog Args} {pc1 : Pc Args} {w w1 : World Args}
    (h : (Pc.body a size i p).step env fuel w = some (pc1, w1)) :
    pc1.inPass = true ∧ (w.d.mIsRunning = true → w1.d.mIsRunning = true) := by
  cases p with
  | ret =>
    simp only [Pc.step] at h
    have h1 := (Prod.mk.inj (Option.some.inj h)).1
    have h2 := (Prod.mk.inj (Option.some.inj h)).2
    subst h1 h2
    exact ⟨rfl, id⟩
  | throw =>
    simp only [Pc.step] at h
    have h1 := (Prod.mk.inj (Option.some.inj h)).1
    have h2 := (Prod.mk.inj (Option.some.inj h)).2
    subst h1 h2
    exact ⟨rfl, id⟩
  | op o k =>
    simp only [Pc.step] at h
    split at h
    · simp at h
    · rename_i r w2 he
      have h1 := (Prod.mk.inj (Option.some.inj h)).1
      have h2 := (Prod.mk.inj (Option.some.inj h)).2
      subst h1 h2
      exact ⟨rfl, fun hr => Op.exec_running (noReentry_operatorCall env fuel) hr he⟩

/-- One step of a thread and the flag: a thread that is in its pass and makes a
step there leaves the flag set, unless the step is the store that ends the
pass; a thread that enters found the flag clear. -/
theorem Pc.step_flag {Args : Type} (env : Env Args) (fuel : Nat) {pc pc1 : Pc Args}
    {w w1 : World Args} (h : pc.step env fuel w = some (pc1, w1)) :
    (pc.inPass = false → pc1.inPass = true → w.d.mIsRunning = false) ∧
    (pc.inPass = false → w.d.mIsRunning = true → w1 = w ∧ pc1.inPass = false) ∧
    (pc1.inPass = true → (pc.inPass = true → w.d.mIsRunning = true) →
      w1.d.mIsRunning = true) ∧
    (pc.inPass = true → pc1.inPass = false → w1.d.mIsRunning = false) := by
  cases pc with
  | call a =>
    simp only [Pc.step] at h
    have h1 := (Prod.mk.inj (Option.some.inj h)).1
    have h2 := (Prod.mk.inj (Option.some.inj h)).2
    subst h1 h2
    refine ⟨?_, ?_, ?_, ?_⟩
    · intro _ hin
      by_cases hr : w.d.mIsRunning = false
      · exact hr
      · rw [if_neg hr] at hin
        exact absurd hin (by simp [Pc.inPass])
    · intro _ hr
      refine ⟨World.enter_of_running w hr, ?_⟩
      simp [hr, Pc.inPass]
    · intro _ _
      rfl
    · intro hin
      exact absurd hin (by simp [Pc.inPass])
  | entered a =>
    simp only [Pc.step] at h
    have h1 := (Prod.mk.inj (Option.some.inj h)).1
    have h2 := (Prod.mk.inj (Option.some.inj h)).2
    subst h1 h2
    refine ⟨fun hin => absurd hin (by simp [Pc.inPass]),
      fun hin => absurd hin (by simp [Pc.inPass]), fun _ hr => hr rfl,
      fun _ hout => absurd hout (by simp [Pc.inPass])⟩
  | loop a size i =>
    have hpc1 : pc1.inPass = true ∧ w1.d.mIsRunning = w.d.mIsRunning := by
      simp only [Pc.step] at h
      split at h
      · split at h
        · simp at h
        · split at h
          · have h1 := (Prod.mk.inj (Option.some.inj h)).1
            have h2 := (Prod.mk.inj (Option.some.inj h)).2
            subst h1 h2
            exact ⟨rfl, rfl⟩
          · have h1 := (Prod.mk.inj (Option.some.inj h)).1
            have h2 := (Prod.mk.inj (Option.some.inj h)).2
            subst h1 h2
            exact ⟨rfl, rfl⟩
      · have h1 := (Prod.mk.inj (Option.some.inj h)).1
        have h2 := (Prod.mk.inj (Option.some.inj h)).2
        subst h1 h2
        exact ⟨rfl, rfl⟩
    refine ⟨fun hin => absurd hin (by simp [Pc.inPass]),
      fun hin => absurd hin (by simp [Pc.inPass]), fun _ hr => by rw [hpc1.2]; exact hr rfl,
      fun _ hout => absurd hpc1.1 (by simp [hout])⟩
  | body a size i p =>
    have hpc1 := Pc.step_body env fuel h
    refine ⟨fun hin => absurd hin (by simp [Pc.inPass]),
      fun hin => absurd hin (by simp [Pc.inPass]), fun _ hr => hpc1.2 (hr rfl),
      fun _ hout => absurd hpc1.1 (by simp [hout])⟩
  | sweep =>
    simp only [Pc.step] at h
    split at h
    · simp at h
    · rename_i w3 h3
      have h1 := (Prod.mk.inj (Option.some.inj h)).1
      have h2 := (Prod.mk.inj (Option.some.inj h)).2
      subst h1 h2
      obtain ⟨_, hflag, _⟩ := RemoveLazyDeleted_spec h3
      refine ⟨fun hin => absurd hin (by simp [Pc.inPass]),
        fun hin => absurd hin (by simp [Pc.inPass]), fun _ hr => by rw [hflag]; exact hr rfl,
        fun _ hout => absurd hout (by simp [Pc.inPass])⟩
  | clear =>
    simp only [Pc.step] at h
    have h1 := (Prod.mk.inj (Option.some.inj h)).1
    have h2 := (Prod.mk.inj (Option.some.inj h)).2
    subst h1 h2
    refine ⟨fun hin => absurd hin (by simp [Pc.inPass]),
      fun hin => absurd hin (by simp [Pc.inPass]),
      fun hin => absurd hin (by simp [Pc.inPass]), fun _ _ => rfl⟩
  | returned ran =>
    simp [Pc.step] at h

theorem Threads.exclusive_step {Args : Type} (env : Env Args) (fuel : Nat) (t : Which)
    {c c1 : Threads Args} (hinv : c.Exclusive) (h : Threads.step env fuel t c = some c1) :
    c1.Exclusive := by
  obtain ⟨h1, h2⟩ := hinv
  cases t with
  | first =>
    simp only [Threads.step] at h
    split at h
    · simp at h
    · rename_i pc1 w1 hstep
      have hc1 : c1 = { c with first := pc1, w := w1 } := (Option.some.inj h).symm
      subst hc1
      obtain ⟨ha, hb, hc, _⟩ := Pc.step_flag env fuel hstep
      have hsecond : pc1.inPass = true → c.second.inPass = false := by
        intro hin
        by_cases hp : c.first.inPass = true
        · exact h1 hp
        · have hflag := ha (by simpa using hp) hin
          by_cases hs : c.second.inPass = true
          · have := h2 (Or.inr hs)
            rw [hflag] at this
            exact absurd this (by simp)
          · simpa using hs
      refine ⟨hsecond, ?_⟩
      intro hor
      show w1.d.mIsRunning = true
      by_cases hin : pc1.inPass = true
      · exact hc hin (fun hp => h2 (Or.inl hp))
      · rcases hor with h3 | h3
        · exact absurd h3 hin
        · have hflag := h2 (Or.inr h3)
          have hp : c.first.inPass = false := by
            by_cases hp : c.first.inPass = true
            · have := h1 hp
              rw [h3] at this
              exact absurd this (by simp)
            · simpa using hp
          rw [(hb hp hflag).1]
          exact hflag
  | second =>
    simp only [Threads.step] at h
    split at h
    · simp at h
    · rename_i pc1 w1 hstep
      have hc1 : c1 = { c with second := pc1, w := w1 } := (Option.some.inj h).symm
      subst hc1
      obtain ⟨ha, hb, hc, _⟩ := Pc.step_flag env fuel hstep
      have hfirst : c.first.inPass = true → pc1.inPass = false := by
        intro hf
        by_cases hin : pc1.inPass = true
        · have hs := h1 hf
          have hflag := ha hs hin
          have := h2 (Or.inl hf)
          rw [hflag] at this
          exact absurd this (by simp)
        · simpa using hin
      refine ⟨hfirst, ?_⟩
      intro hor
      show w1.d.mIsRunning = true
      by_cases hin : pc1.inPass = true
      · exact hc hin (fun hp => h2 (Or.inr hp))
      · rcases hor with h3 | h3
        · have hflag := h2 (Or.inl h3)
          rw [(hb (h1 h3) hflag).1]
          exact hflag
        · exact absurd h3 hin

theorem Threads.exclusive_run {Args : Type} (env : Env Args) (fuel : Nat) :
    ∀ (sched : List Which) (c c1 : Threads Args), c.Exclusive →
      Threads.run env fuel sched c = some c1 → c1.Exclusive
  | [], c, c1, hinv, h => by
    simp [Threads.run] at h; subst h; exact hinv
  | t :: ts, c, c1, hinv, h => by
    simp only [Threads.run] at h
    split at h
    · simp at h
    · rename_i c2 hstep
      exact Threads.exclusive_run env fuel ts c2 c1 (Threads.exclusive_step env fuel t hinv hstep) h

/-- Claim C21. Two threads call `operator()` of the same delegate, with any user
functions and in any state of the delegate, and make their steps in any
order. In every state they reach, at most one of them is between its
exchange on the flag, which returned `false`, and its store of `false`: their
passes never overlap. While one is there the flag is set, and the exchange of
the other one returns `true`: its call returns in this one step, without
waiting, and leaves the delegate as it is. -/
theorem C21_concurrent_invocations_do_not_interleave {Args : Type} (env : Env Args)
    (fuel : Nat) (a b : Args) (w : World Args) (sched : List Which) (c : Threads Args)
    (hrun : Threads.run env fuel sched (Threads.start a b w) = some c) :
    ¬ (c.first.inPass = true ∧ c.second.inPass = true) ∧
    ((c.first.inPass = true ∨ c.second.inPass = true) → c.w.d.mIsRunning = true) ∧
    (∀ x : Args, c.first.inPass = true → c.second = Pc.call x →
      Threads.step env fuel Which.second c = some { c with second := Pc.returned false }) ∧
    (∀ x : Args, c.second.inPass = true → c.first = Pc.call x →
      Threads.step env fuel Which.first c = some { c with first := Pc.returned false }) := by
  have hstart : (Threads.start a b w).Exclusive :=
    ⟨fun h => absurd h (by simp [Threads.start, Pc.inPass]),
      fun h => absurd h (by simp [Threads.start, Pc.inPass])⟩
  obtain ⟨h1, h2⟩ := Threads.exclusive_run env fuel sched _ c hstart hrun
  refine ⟨?_, h2, ?_, ?_⟩
  · rintro ⟨hf, hs⟩
    rw [h1 hf] at hs
    exact absurd hs (by simp)
  · intro x hf hs
    have hflag := h2 (Or.inl hf)
    simp only [Threads.step, hs, Pc.step, hflag, World.enter_of_running c.w hflag]
    simp
  · intro x hs hf
    have hflag := h2 (Or.inr hs)
    simp only [Threads.step, hf, Pc.step, hflag, World.enter_of_running c.w hflag]
    simp

theorem C21_witness :
    ∃ c : Threads Nat,
      Threads.run idlers 0 [Which.first, Which.second, Which.first, Which.first]
        (Threads.start 7 8 threeSlots) = some c ∧
      c.first.inPass = true ∧ c.second.inPass = false ∧
      ¬ (c.first.inPass = true ∧ c.second.inPass = true) ∧
      ((c.first.inPass = true ∨ c.second.inPass = true) → c.w.d.mIsRunning = true) :=
  ⟨_, rfl, rfl, rfl,
    (C21_concurrent_invocations_do_not_interleave idlers 0 7 8 threeSlots
      [Which.first, Which.second, Which.first, Which.first] _ rfl).1,
    (C21_concurrent_invocations_do_not_interleave idlers 0 7 8 threeSlots
      [Which.first, Which.second, Which.first, Which.first] _ rfl).2.1⟩

/-! ### C2: the removal calls and the turns of a pass -/


/-- While the delegate is running, a removal whose scan finds no slot returns
`false` and changes nothing. -/
theorem RemoveIndex_no_match {Args : Type} (p : Wrapper → Bool) (w : World Args)
    (hno : ∀ x ∈ w.d.mWrappers, p x = false) :
    RemoveIndex (findLoop p w.d.mWrappers 0) w = some (false, w) := by
  rcases RemoveIndex_findLoop p w with ⟨h1, _, _⟩ | ⟨k, x, hk, hp, _, _, _⟩
  · exact h1
  · rw [hno x (List.getElem?_mem hk)] at hp
    exact absurd hp (by simp)

/-- While the delegate is running, a removal whose scan finds the slot `x` at
index `k` first returns `true`, clears this slot, appends `k` to the pending
list and logs the removal. -/
theorem RemoveIndex_first_match {Args : Type} (p : Wrapper → Bool) (w : World Args)
    (hr : w.d.mIsRunning = true) (k : Nat) (x : Wrapper) (hk : w.d.mWrappers[k]? = some x)
    (hp : p x = true)
    (hfirst : ∀ (j : Nat) (y : Wrapper), j < k → w.d.mWrappers[j]? = some y → p y = false) :
    RemoveIndex (findLoop p w.d.mWrappers 0) w = some (true, w.deferRemove k x) := by
  rcases RemoveIndex_findLoop p w with ⟨_, _, hno⟩ | ⟨k1, x1, hk1, hp1, hfirst1, _, hrem⟩
  · rw [hno x (List.getElem?_mem hk)] at hp
    exact absurd hp (by simp)
  · have hkk : k1 = k := by
      rcases Nat.lt_trichotomy k1 k with h | h | h
      · rw [hfirst k1 x1 h hk1] at hp1
        exact absurd hp1 (by simp)
      · exact h
      · rw [hfirst1 k x h hk] at hp
        exact absurd hp (by simp)
    subst hkk
    have hxx : x1 = x := by
      rw [hk] at hk1
      exact (Option.some.inj hk1).symm
    subst hxx
    rw [hrem, if_pos hr]

/-- While the delegate is running, a call that is neither a removal nor `Clear`
logs nothing, leaves the pending list, and leaves every slot as it is. -/
theorem Op.exec_keeps {Args : Type} {call : Args → World Args → Option (World Args)}
    (hc : NoReentry call) {o : Op Args} {w w1 : World Args} {r : Ret}
    (hr : w.d.mIsRunning = true) (ho : o.isRemoval = false)
    (he : o.exec call w = some (r, w1)) :
    w1.trace = w.trace ∧ w1.d.mToRemove = w.d.mToRemove ∧
    ∀ (j : Nat) (x : Wrapper), w.d.mWrappers[j]? = some x → w1.d.mWrappers[j]? = some x := by
  rcases Op.exec_cases he with h1 | ⟨x, _, _, _, _, h1⟩ | ⟨k, x, _, _, hrem, _⟩ | ⟨hcl, _⟩ |
    ⟨a, _, h1⟩
  · subst h1
    exact ⟨rfl, rfl, fun _ _ h => h⟩
  · subst h1
    refine ⟨rfl, rfl, ?_⟩
    intro j y hy
    have hlt : j < w.d.mWrappers.length := (List.getElem?_eq_some.mp hy).1
    show (w.d.mWrappers ++ [x])[j]? = some y
    rw [List.getElem?_append_left hlt]
    exact hy
  · rw [ho] at hrem
    exact absurd hrem (by simp)
  · subst hcl
    exact absurd ho (by simp [Op.isRemoval])
  · rw [hc a w hr] at h1
    have : w1 = w := (Option.some.inj h1).symm
    subst this
    exact ⟨rfl, rfl, fun _ _ h => h⟩

theorem crossRemover_noClear (c : Callee) (b : Nat) : (crossRemover c b).NoClear := by
  unfold crossRemover
  split
  · exact ⟨rfl, fun _ => trivial⟩
  · exact ⟨rfl, fun _ => trivial⟩
  · trivial

theorem threeSlots_idleOk : IdleOk threeSlots :=
  addAll_idleOk _ (by
    intro c hc
    simp only [List.mem_cons, List.mem_singleton, List.not_mem_nil, or_false] at hc
    rcases hc with rfl | rfl | rfl <;> simp [AddCall.ok]) 0

/-- Claim C2. A pass on an idle delegate, with user functions that may add and remove
as they like but do not call `Clear`.

What the calls do while the delegate is running. A call of `Remove` or
`RemoveById` whose scan finds no slot returns `false` and changes nothing.
One whose scan finds a slot, the first at index `k`, returns `true`, whether or
not this slot has had its turn; it clears this slot, which then calls no
target, appends `k` to the pending list and logs the removal of `k`, and
changes nothing else. These are all the removal calls but `Clear`. Every other
call logs nothing and leaves every slot and the pending list as they are. So
a removal of index `k` is in the log exactly when a call of `Remove` or
`RemoveById` has found the slot at `k` and returned `true`.

What the pass does. Its loop ends. Every slot that was there at the start has
its turn, once, in the order of the list. At its turn the slot calls its
target if and only if no removal of its index was logged before. Every slot
that was there at the start is still at its index at the end of the loop, and
the pending list is the list of the removals logged. The sweep that ends the
pass succeeds when no index was logged twice. And when it succeeds, the
pass returns, the delegate is idle, and no slot whose removal was logged is
left in the list, so that no later pass can dispatch it. -/
theorem C2_slot_fires_unless_removed_before_its_turn {Args : Type} (env : Env Args)
    (henv : ∀ c b, (env c b).NoClear) (fuel : Nat) (a : Args) (w0 : World Args)
    (h0 : IdleOk w0) :
    (∀ (c : RemoveCall) (w : World Args), w.d.mIsRunning = true →
      ((∀ x ∈ w.d.mWrappers, c.hits x = false) →
        c.op.exec (operatorCall env fuel) w = some (Ret.found false, w)) ∧
      (∀ (k : Nat) (x : Wrapper), w.d.mWrappers[k]? = some x → c.hits x = true →
        (∀ (j : Nat) (y : Wrapper), j < k → w.d.mWrappers[j]? = some y → c.hits y = false) →
        c.op.exec (operatorCall env fuel) w =
          some (Ret.found true,
            { w with
              d := { w.d with
                mWrappers := w.d.mWrappers.set k x.ToBeRemoved,
                mToRemove := w.d.mToRemove ++ [k] },
              trace := w.trace ++ [Event.remove k x.id] }) ∧
        x.ToBeRemoved.operatorCall = none)) ∧
    (∀ o : Op Args, o.isRemoval = true → o.isClear = false → ∃ c : RemoveCall, o = c.op) ∧
    (∀ (o : Op Args) (w w1 : World Args) (r : Ret), w.d.mIsRunning = true →
      o.isRemoval = false → o.exec (operatorCall env fuel) w = some (r, w1) →
      w1.trace = w.trace ∧ w1.d.mToRemove = w.d.mToRemove ∧
      ∀ (j : Nat) (x : Wrapper), w.d.mWrappers[j]? = some x → w1.d.mWrappers[j]? = some x) ∧
    ∃ (w2 : World Args) (T : List (Event Args)),
      passLoop (operatorCall env fuel) env a w0.d.mWrappers.length 0 w0.enter = some w2 ∧
      w2.trace = w0.trace ++ T ∧
      turns T = List.range w0.d.mWrappers.length ∧
      (∀ (pre post : List (Event Args)) (i id : Nat) (tgt : Option Callee) (b : Args),
        T = pre ++ Event.dispatch i id tgt b :: post →
        b = a ∧ ∃ x0 : Wrapper, w0.d.mWrappers[i]? = some x0 ∧ id = x0.id ∧
          tgt = if i ∈ removedIdx pre then none else some x0.target) ∧
      w2.d.mToRemove = removedIdx T ∧
      Stays w0 w2 ∧
      (∀ (w : World Args) (x : Wrapper), w.d.mIsRunning = true → x ∈ w.d.mWrappers →
        (∃ w1 : World Args, RemoveById x.id w = some (true, w1)) ∧
        (∃ w1 : World Args, RemoveFunc x.func w = some (true, w1)) ∧
        (∃ w1 : World Args, RemoveMethod x.object x.method w = some (true, w1))) ∧
      ((removedIdx T).Nodup → ∃ w3 : World Args, RemoveLazyDeleted w2 = some w3) ∧
      (∀ w3 : World Args, RemoveLazyDeleted w2 = some w3 →
        operatorCall env (fuel + 1) a w0 = some w3.leave ∧ IdleOk w3.leave ∧
        ∀ x ∈ w3.leave.d.mWrappers,
          ∃ j : Nat, j ∉ removedIdx T ∧ w2.d.mWrappers[j]? = some x) := by
  refine ⟨?_, ?_, ?_, ?_⟩
  · intro c w hr
    cases c with
    | nullptr =>
      refine ⟨fun _ => rfl, ?_⟩
      intro k x _ hp
      exact absurd hp (by simp [RemoveCall.hits])
    | func f =>
      refine ⟨?_, ?_⟩
      · intro hno
        have := RemoveIndex_no_match (fun x => x.func == f) w hno
        simp [RemoveCall.op, Op.exec, RemoveFunc, FindFunc, this]
      · intro k x hk hp hfirst
        have := RemoveIndex_first_match (fun x => x.func == f) w hr k x hk hp hfirst
        refine ⟨?_, Wrapper.operatorCall_toBeRemoved x⟩
        simp [RemoveCall.op, Op.exec, RemoveFunc, FindFunc, this, World.deferRemove]
    | method ob m =>
      refine ⟨?_, ?_⟩
      · intro hno
        have := RemoveIndex_no_match (fun x => x.object == ob && x.method == m) w hno
        simp [RemoveCall.op, Op.exec, RemoveMethod, FindMethod, this]
      · intro k x hk hp hfirst
        have := RemoveIndex_first_match (fun x => x.object == ob && x.method == m) w hr k x hk
          hp hfirst
        refine ⟨?_, Wrapper.operatorCall_toBeRemoved x⟩
        simp [RemoveCall.op, Op.exec, RemoveMethod, FindMethod, this, World.deferRemove]
    | byId id =>
      refine ⟨?_, ?_⟩
      · intro hno
        have := RemoveIndex_no_match (fun x => x.id == id) w hno
        simp [RemoveCall.op, Op.exec, RemoveById_eq, this]
      · intro k x hk hp hfirst
        have := RemoveIndex_first_match (fun x => x.id == id) w hr k x hk hp hfirst
        refine ⟨?_, Wrapper.operatorCall_toBeRemoved x⟩
        simp [RemoveCall.op, Op.exec, RemoveById_eq, this, World.deferRemove]
  · intro o ho hcl
    cases o with
    | removeNullptr => exact ⟨RemoveCall.nullptr, rfl⟩
    | removeFunc f => exact ⟨RemoveCall.func f, rfl⟩
    | removeMethod ob m => exact ⟨RemoveCall.method ob m, rfl⟩
    | removeById id => exact ⟨RemoveCall.byId id, rfl⟩
    | clear => exact absurd hcl (by simp [Op.isClear])
    | _ => exact absurd ho (by simp [Op.isRemoval])
  · intro o w w1 r hr ho he
    exact Op.exec_keeps (noReentry_operatorCall env fuel) hr ho he
  · obtain ⟨w2, T, hrun, h2, hlog, _, _⟩ := pass_loop env fuel a h0 henv
    refine ⟨w2, T, hrun, ?_, hlog.turns_eq, hlog.turn_spec, h2.pending_eq, ?_, ?_, ?_, ?_⟩
    · rw [h2.trace_eq]; rfl
    · have := stays_passLoop (noReentry_operatorCall env fuel) henv a _ 0 w0.enter w2 rfl hrun
      exact (stays_same_delegate rfl).trans this
    · intro w x _ hx
      exact ⟨RemoveById_true w hx, RemoveFunc_true w hx, RemoveMethod_true w hx⟩
    · intro hn
      exact RemoveLazyDeleted_isSome w2 (by rw [h2.pending_eq]; exact hn) h2.pending_lt
    · intro w3 h3
      refine ⟨?_, ?_, ?_⟩
      · rw [operatorCall_idle env fuel a w0 h0.1, hrun]
        simp [Option.bind, h3]
      · exact @sweep_live Args w0.enter w2 w3 T h0.2.2 h2 h3
      · intro x hx
        obtain ⟨j, hj, hget⟩ := (RemoveLazyDeleted_spec h3).2.2.2.2.2 x hx
        exact ⟨j, by rw [← h2.pending_eq]; exact hj, hget⟩


/-- Claim C2 at the closure 1 (id 0), the function 10 (id 1) and the function 11 (id 2),
where the closure calls `RemoveById(2)` and the function 10 calls
`RemoveById(0)`: the closure and the function 10 are called, the function 11,
removed before its turn, is not; both removals return `true` and are logged,
the second one after the turn of its slot; after the pass the list holds the
function 10 alone. -/
theorem C2_witness :
    (Op.removeById 2).exec (operatorCall crossRemover 0)
        { threeSlots.enter with
          trace := [Event.dispatch 0 0 (some (Callee.lambda 1)) 7] } =
      some (Ret.found true,
        { wrapperCounter := 3,
          d := { mWrappers := [WrapperLambda 0 1, WrapperCFunc 1 10,
                               (WrapperCFunc 2 11).ToBeRemoved],
                 mToRemove := [2], mIsRunning := true },
          trace := [Event.dispatch 0 0 (some (Callee.lambda 1)) 7, Event.remove 2 2] }) ∧
    ∃ (w2 : World Nat) (T : List (Event Nat)),
      passLoop (operatorCall crossRemover 0) crossRemover 7 threeSlots.d.mWrappers.length 0
        threeSlots.enter = some w2 ∧
      T = [Event.dispatch 0 0 (some (Callee.lambda 1)) 7, Event.remove 2 2,
           Event.dispatch 1 1 (some (Callee.func 10)) 7, Event.remove 0 0,
           Event.dispatch 2 2 none 7] ∧
      w2.d.mToRemove = [2, 0] ∧
      operatorCall crossRemover 1 7 threeSlots =
        some { wrapperCounter := 3,
               d := { mWrappers := [WrapperCFunc 1 10], mToRemove := [], mIsRunning := false },
               trace := T } := by
  obtain ⟨hcall, _, _, w2, T, hrun, htr, _, _, _, _, _, _, hend⟩ :=
    C2_slot_fires_unless_removed_before_its_turn crossRemover crossRemover_noClear 0 7
      threeSlots threeSlots_idleOk
  have hw2 : passLoop (operatorCall crossRemover 0) crossRemover 7
      threeSlots.d.mWrappers.length 0 threeSlots.enter =
      some { wrapperCounter := 3,
             d := { mWrappers := [(WrapperLambda 0 1).ToBeRemoved, WrapperCFunc 1 10,
                                  (WrapperCFunc 2 11).ToBeRemoved],
                    mToRemove := [2, 0], mIsRunning := true },
             trace := [Event.dispatch 0 0 (some (Callee.lambda 1)) 7, Event.remove 2 2,
               Event.dispatch 1 1 (some (Callee.func 10)) 7, Event.remove 0 0,
               Event.dispatch 2 2 none 7] } := rfl
  have heq := Option.some.inj (hrun.symm.trans hw2)
  subst heq
  have hT : T = [Event.dispatch 0 0 (some (Callee.lambda 1)) 7, Event.remove 2 2,
      Event.dispatch 1 1 (some (Callee.func 10)) 7, Event.remove 0 0,
      Event.dispatch 2 2 none 7] := by
    have h : ([] : List (Event Nat)) ++ T = _ := htr.symm
    simpa using h
  subst hT
  refine ⟨?_, _, _, hrun, rfl, rfl, ?_⟩
  · exact ((hcall (RemoveCall.byId 2)
      { threeSlots.enter with trace := [Event.dispatch 0 0 (some (Callee.lambda 1)) 7] }
      rfl).2 2 (WrapperCFunc 2 11) rfl rfl (by
        intro j y hj hy
        have hj2 : j = 0 ∨ j = 1 := by omega
        rcases hj2 with rfl | rfl
        · have : y = WrapperLambda 0 1 := (Option.some.inj hy).symm
          subst this
          rfl
        · have : y = WrapperCFunc 1 10 := (Option.some.inj hy).symm
          subst this
          rfl)).1
  · exact (hend _ rfl).1

/-! ### C6: an added slot and the sweep -/


/-- Claim C6 fails on the code. The delegate holds one slot, the closure 1 (id 0), which
calls `Add` of the function 99 and then `RemoveById(0)` twice. The `Add`
returns the id 1 and appends the slot, and the new slot has no turn in this
pass. Both removals return `true` and index 0 is pending twice, so the sweep
erases index 0 twice, within the bounds: first the closure, then the slot of
the function 99, whose removal nobody asked for. The pass returns with an
empty list, and the next pass dispatches nothing: the function 99 is never
called. -/
theorem C6_added_slot_is_erased_by_the_sweep :
    (∃ w : World Nat,
      runProg (operatorCall addThenRemoveTwice 0) (addThenRemoveTwice (Callee.lambda 1) 7)
        { oneClosure.enter with trace := [Event.dispatch 0 0 (some (Callee.lambda 1)) 7] }
        = some (Outcome.returned, w) ∧
      w.d.mWrappers = [(WrapperLambda 0 1).ToBeRemoved, WrapperCFunc 1 99] ∧
      w.d.mToRemove = [0, 0] ∧ w.wrapperCounter = 2) ∧
    (Op.addFunc 99).exec (operatorCall addThenRemoveTwice 0)
        { oneClosure.enter with trace := [Event.dispatch 0 0 (some (Callee.lambda 1)) 7] } =
      some (Ret.id 1,
        { wrapperCounter := 2,
          d := { mWrappers := [WrapperLambda 0 1, WrapperCFunc 1 99], mToRemove := [],
                 mIsRunning := true },
          trace := [Event.dispatch 0 0 (some (Callee.lambda 1)) 7] }) ∧
    operatorCall addThenRemoveTwice 1 7 oneClosure =
      some { wrapperCounter := 2,
             d := { mWrappers := [], mToRemove := [], mIsRunning := false },
             trace := [Event.dispatch 0 0 (some (Callee.lambda 1)) 7, Event.remove 0 0,
               Event.remove 0 0] } ∧
    operatorCall addThenRemoveTwice 1 8
        { wrapperCounter := 2,
          d := { mWrappers := [], mToRemove := [], mIsRunning := false },
          trace := [Event.dispatch 0 0 (some (Callee.lambda 1)) 7, Event.remove 0 0,
            Event.remove 0 0] } =
      some { wrapperCounter := 2,
             d := { mWrappers := [], mToRemove := [], mIsRunning := false },
             trace := [Event.dispatch 0 0 (some (Callee.lambda 1)) 7, Event.remove 0 0,
               Event.remove 0 0] } ∧
    calls (Callee.func 99)
      [Event.dispatch 0 0 (some (Callee.lambda 1)) 7, Event.remove 0 0, Event.remove 0 0] = 0 ∧
    Reachable addThenRemoveTwice
      { wrapperCounter := 2,
        d := { mWrappers := [], mToRemove := [], mIsRunning := false },
        trace := [Event.dispatch 0 0 (some (Callee.lambda 1)) 7, Event.remove 0 0,
          Event.remove 0 0] } := by
  refine ⟨⟨_, rfl, rfl, rfl, rfl⟩, rfl, rfl, rfl, rfl, ?_⟩
  exact Reachable.call (Op.invoke 7) Ret.unit 1
    (Reachable.call (Op.addLambda 1) (Ret.id 0) 0 (Reachable.fresh 0) rfl) rfl

/-! ### C9 and C12: `RemoveById` after the counter has wrapped -/

/-- Claim C9, refuted as stated: the first delegate holds the function 1 with the id
`0` and, added after the counter has gone once around, the function 2 with the
id `0` too; it is idle. `RemoveById` with the id of the second slot returns
`true` and erases the first slot with this id: the slot of the function 1 is
gone and the slot whose id was given is still there. -/
theorem C9_removeById_erases_another_slot_with_the_same_id :
    ∃ s : World2 Nat, run2 (sameIdTwice Which.first) (World2.fresh Nat 0) = some s ∧
      (s.view Which.first).d =
        { mWrappers := [WrapperCFunc 0 1, WrapperCFunc 0 2], mToRemove := [],
          mIsRunning := false } ∧
      (s.view Which.first).d.mWrappers[1]? = some (WrapperCFunc 0 2) ∧
      ∃ w1 : World Nat,
        RemoveById (WrapperCFunc 0 2).id (s.view Which.first) = some (true, w1) ∧
        w1.d.mWrappers = [WrapperCFunc 0 2] ∧
        w1.d.mWrappers ≠ (s.view Which.first).d.mWrappers.eraseIdx 1 ∧
        WrapperCFunc 0 2 ∈ w1.d.mWrappers ∧ WrapperCFunc 0 1 ∉ w1.d.mWrappers := by
  have hch := @run2_churn Nat
    { mWrappers := [WrapperCFunc 0 1], mToRemove := [], mIsRunning := false } []
    (SIZE_MOD - 1) 1 (by decide)
  have hm : (1 + (SIZE_MOD - 1)) % SIZE_MOD = 0 := by decide
  rw [hm] at hch
  have h0 : run2 [Act.call Which.first (Op.addFunc 1)] (World2.fresh Nat 0)
      = some { wrapperCounter := 1,
               first := { mWrappers := [WrapperCFunc 0 1], mToRemove := [],
                          mIsRunning := false },
               second := { mWrappers := [], mToRemove := [], mIsRunning := false },
               trace := [] } := rfl
  have hsplit : sameIdTwice Which.first = [Act.call Which.first (Op.addFunc 1)] ++
      (churn Nat (SIZE_MOD - 1) ++ [Act.call Which.first (Op.addFunc 2)]) := rfl
  rw [hsplit, run2_append, h0, Option.some_bind, run2_append, hch, Option.some_bind]
  exact ⟨_, rfl, rfl, rfl, _, rfl, rfl, by decide, by decide, by decide⟩

/-- Claim C12, refuted as stated in its last part: the first delegate holds the
closure 1 with the id `0`, and after `2 ^ 64 - 1` more slots were created and
cleared the counter is `0` again; the delegate is idle. `Add` of the closure 2
returns `0`, and `RemoveById(0)` returns `true` and erases the first slot
with this id, the closure 1: the closure 2 that was just added is not removed. -/
theorem C12_removeById_after_add_leaves_the_closure :
    ∃ s : World2 Nat, run2 closureOnceAround (World2.fresh Nat 0) = some s ∧
      (s.view Which.first).d =
        { mWrappers := [WrapperLambda 0 1], mToRemove := [], mIsRunning := false } ∧
      (AddLambda 2 (s.view Which.first)).1 = 0 ∧
      (AddLambda 2 (s.view Which.first)).2.d.mWrappers = [WrapperLambda 0 1, WrapperLambda 0 2] ∧
      ∃ w2 : World Nat,
        RemoveById (AddLambda 2 (s.view Which.first)).1 (AddLambda 2 (s.view Which.first)).2
          = some (true, w2) ∧
        w2.d.mWrappers = [WrapperLambda 0 2] ∧ WrapperLambda 0 1 ∉ w2.d.mWrappers := by
  have hch := @run2_churn Nat
    { mWrappers := [WrapperLambda 0 1], mToRemove := [], mIsRunning := false } []
    (SIZE_MOD - 1) 1 (by decide)
  have hm : (1 + (SIZE_MOD - 1)) % SIZE_MOD = 0 := by decide
  rw [hm] at hch
  have h0 : run2 [Act.call Which.first (Op.addLambda 1)] (World2.fresh Nat 0)
      = some { wrapperCounter := 1,
               first := { mWrappers := [WrapperLambda 0 1], mToRemove := [],
                          mIsRunning := false },
               second := { mWrappers := [], mToRemove := [], mIsRunning := false },
               trace := [] } := rfl
  have hsplit : closureOnceAround = [Act.call Which.first (Op.addLambda 1)] ++
      churn Nat (SIZE_MOD - 1) := rfl
  rw [hsplit, run2_append, h0, Option.some_bind, hch]
  exact ⟨_, rfl, rfl, rfl, rfl, _, rfl, rfl, by decide⟩

end MindShake
